import Mathlib

/-!
# Named cancellation contexts (`context.go`, `metrics.go`)

A shallow embedding of the Go package: a store of `namedContext` structs addressed by
natural numbers, the interface values (`context.Context`, `canceler`) that point into it,
the channels the structs own, the bridging goroutines and the timers started by the
constructors, and the process-wide metrics collector.

Conventions of the embedding.

* A pointer to a struct is an address together with the fields of the struct that are
  written once, by the constructor (`Context`, `name`, `key`, `val`, `start`, and for a
  `timerCtx` its `deadline`).  The fields that change afterwards (`done`, `children`,
  `err`, `timer`) live in the store, `State.nodes`.
* A channel is named after the struct that made it; whether it has been closed is kept in
  `State.closed`.  `closedchan` is closed by the package's `init`.  The field `done` of a
  `namedContext` only ever holds nil, `closedchan`, or the channel the struct made itself.
* The mutexes are not modelled: every operation runs to completion on its own.
* Go maps are lists without repetition; a `range` loop visits them in list order.
* Time is an integer number of nanoseconds.
-/

namespace NamedContext

/-! ## Errors and formatting -/

/-- An error value: either made by `fmt.Errorf` / `errors.New` from a message, or made by
`errors.Wrapf` around a cause. -/
inductive GoError where
  | errorf (msg : String)
  | wrapf (msg : String) (cause : GoError)
  deriving DecidableEq, Repr

/-- The method `Error()`: the message of a plain error; for a wrapped one the message of
the wrapper, a colon and a blank, and the message of the cause (`withMessage.Error` of
`github.com/pkg/errors`). -/
def GoError.Error : GoError → String
  | .errorf msg => msg
  | .wrapf msg cause => msg ++ ": " ++ cause.Error

/-- An operand of a formatting call. -/
inductive FmtArg where
  | s (v : String)
  | d (v : Int)
  deriving DecidableEq, Repr

/-- The part of `fmt.Sprintf` the package uses: the verb `%s` with a string operand and the
verb `%d` with an integer operand; every other character is copied. -/
def sprintfChars : List Char → List FmtArg → List Char
  | '%' :: 's' :: rest, FmtArg.s v :: args => v.data ++ sprintfChars rest args
  | '%' :: 'd' :: rest, FmtArg.d n :: args => (toString n).data ++ sprintfChars rest args
  | c :: rest, args => c :: sprintfChars rest args
  | [], _ => []

/-- The call `fmt.Sprintf(format, args...)`. -/
def Sprintf (format : String) (args : List FmtArg) : String :=
  String.mk (sprintfChars format.data args)

def namedErrFormat : String := "named context [%s]"
def namedParentErrFormat : String := "named context [%s] parent err"
def namedDeadlineExceededFormat : String := "named context [%s] deadline exceeded after [%dms]"

/-- The call `errors.Wrapf(err, format, args...)`: nil for a nil `err`. -/
def Wrapf (err : Option GoError) (format : String) (args : List FmtArg) : Option GoError :=
  match err with
  | none => none
  | some e => some (GoError.wrapf (Sprintf format args) e)

/-- The call `fmt.Errorf(format, args...)`. -/
def Errorf (format : String) (args : List FmtArg) : GoError :=
  GoError.errorf (Sprintf format args)

/-- The method `Milliseconds()` of a duration: integer division truncated toward zero. -/
def Milliseconds (d : Int) : Int := Int.tdiv d 1000000

/-! ## Interface values -/

/-- A value of type `interface{}`, as far as keys, values and `Value` results go. -/
inductive Iface where
  | nil
  | str (v : String)
  | int (v : Int)
  | slice (v : List Int)
  | cancelCtxKeyPtr
  | namedPtr (addr : Nat)
  deriving DecidableEq, Repr

/-- The test `reflect.TypeOf(key).Comparable()` for a non-nil key. -/
def Iface.Comparable : Iface → Bool
  | .slice _ => false
  | _ => true

/-- A channel `chan struct{}`, named after what made it. -/
inductive Chan where
  | closedchan
  | ofNode (addr : Nat)
  | ofForeign (handle : Nat)
  deriving DecidableEq, Repr

/-- A value of type `context.Context`: the background context, a cancellable context owned
by other code (with the context it was derived from), a `valueCtx` of the standard library,
or a pointer to a `namedContext` (`deadline = none`) or to a `timerCtx` (`deadline = some d`). -/
inductive Ctx where
  | background
  | foreign (handle : Nat) (parent : Ctx)
  | valueCtx (parent : Ctx) (key val : Iface)
  | named (addr : Nat) (parent : Ctx) (name : String) (key val : Iface) (start : Int)
      (deadline : Option Int)
  deriving DecidableEq, Repr

/-- A value of the interface `canceler`: a pointer to a `namedContext` (`deadline = none`)
or to a `timerCtx` (`deadline = some d`), whose embedded `namedContext` it addresses. -/
structure canceler where
  addr : Nat
  Context : Ctx
  name : String
  key : Iface
  val : Iface
  start : Int
  deadline : Option Int
  deriving DecidableEq, Repr

/-- The pointer seen as a `context.Context`. -/
def canceler.ctx (c : canceler) : Ctx :=
  Ctx.named c.addr c.Context c.name c.key c.val c.start c.deadline

/-- The pointer to the `namedContext` a `timerCtx` embeds; what a promoted method gets as
its receiver. -/
def canceler.embedded (c : canceler) : canceler := { c with deadline := none }

/-- The method `String()`. -/
def canceler.String (c : canceler) : String := c.name

/-! ## The store -/

/-- What the field `done` holds: nil, the shared `closedchan`, or the channel the struct
made in `Done()`. -/
inductive DoneField where
  | nil
  | closedchan
  | made
  deriving DecidableEq, Repr

/-- The channel held by the field `done` of the struct at address `a`. -/
def DoneField.chan (a : Nat) : DoneField → Option Chan
  | DoneField.nil => none
  | DoneField.closedchan => some Chan.closedchan
  | DoneField.made => some (Chan.ofNode a)

/-- The fields of a `namedContext` that change after construction, and the `timer` field of
the `timerCtx` around it (the duration given to `time.AfterFunc`). -/
structure Node where
  done : DoneField
  children : List canceler
  err : Option GoError
  timer : Option Int

/-- The struct as the constructor leaves it. -/
def Node.zero : Node := { done := DoneField.nil, children := [], err := none, timer := none }

/-- What a context owned by other code shows: whether it has a done channel (its own), its
error, its deadline. -/
structure Foreign where
  cancelable : Bool
  err : Option GoError
  deadline : Option Int

/-- The counters of a `Metrics` collector. -/
structure Metrics where
  gorutinesAll : Nat
  gorutinesCurrent : Int
  timeouts : String → Nat
  cancels : String → Nat

/-- The state of the program. -/
structure State where
  nodes : Nat → Node
  next : Nat
  foreign : Nat → Foreign
  closed : Chan → Bool
  goroutines : List (Ctx × canceler)
  timers : List (canceler × Int)
  metricsCollector : Option Metrics
  now : Int

/-- The state after the package's `init`: nothing allocated, no collector installed. -/
def State.init : State :=
  { nodes := fun _ => Node.zero
    next := 0
    foreign := fun _ => { cancelable := false, err := none, deadline := none }
    closed := fun _ => false
    goroutines := []
    timers := []
    metricsCollector := none
    now := 0 }

/-- Overwrite the struct at an address. -/
def State.setNode (s : State) (a : Nat) (n : Node) : State :=
  { s with nodes := fun i => if i = a then n else s.nodes i }

/-- Whether a receive from the channel succeeds at once. -/
def State.chanClosed (s : State) : Chan → Bool
  | Chan.closedchan => true
  | ch => s.closed ch

/-- The result of an operation that can panic; `diverge` is for a recursion cut short. -/
inductive Res (α : Type) where
  | ok (a : α)
  | panic (msg : String)
  | diverge

/-- Run the second operation on the result of the first. -/
def Res.bind {α β : Type} (r : Res α) (f : α → Res β) : Res β :=
  match r with
  | Res.ok a => f a
  | Res.panic msg => Res.panic msg
  | Res.diverge => Res.diverge

/-! ## Metrics (`metrics.go`) -/

/-- The function `incGorutines`: nothing without a collector, else both counters go up. -/
def incGorutines (s : State) : State :=
  match s.metricsCollector with
  | none => s
  | some m =>
    let m1 : Metrics :=
      { m with gorutinesAll := m.gorutinesAll + 1, gorutinesCurrent := m.gorutinesCurrent + 1 }
    { s with metricsCollector := some m1 }

/-- The function `decGorutines`. -/
def decGorutines (s : State) : State :=
  match s.metricsCollector with
  | none => s
  | some m => { s with metricsCollector := some { m with gorutinesCurrent := m.gorutinesCurrent - 1 } }

/-- The function `incTimeouts`. -/
def incTimeouts (s : State) (label : String) : State :=
  match s.metricsCollector with
  | none => s
  | some m =>
    let m1 : Metrics :=
      { m with timeouts := fun l => if l = label then m.timeouts l + 1 else m.timeouts l }
    { s with metricsCollector := some m1 }

/-- The function `incCancels`. -/
def incCancels (s : State) (label : String) : State :=
  match s.metricsCollector with
  | none => s
  | some m =>
    let m1 : Metrics :=
      { m with cancels := fun l => if l = label then m.cancels l + 1 else m.cancels l }
    { s with metricsCollector := some m1 }

/-! ## Methods of a context -/

/-- The method `Done()`.  A `namedContext` makes its channel on the first call; a
`valueCtx` hands the call to its parent; the background context has no channel. -/
def Done : State → Ctx → State × Option Chan
  | s, Ctx.background => (s, none)
  | s, Ctx.foreign h _ => (s, if (s.foreign h).cancelable then some (Chan.ofForeign h) else none)
  | s, Ctx.valueCtx parent _ _ => Done s parent
  | s, Ctx.named a _ _ _ _ _ _ =>
    if (s.nodes a).done = DoneField.nil then
      ({ s.setNode a { s.nodes a with done := DoneField.made } with
          closed := fun x => if x = Chan.ofNode a then false else s.closed x },
        some (Chan.ofNode a))
    else (s, (s.nodes a).done.chan a)

/-- The method `Err()`. -/
def Err : State → Ctx → Option GoError
  | _, Ctx.background => none
  | s, Ctx.foreign h _ => (s.foreign h).err
  | s, Ctx.valueCtx parent _ _ => Err s parent
  | s, Ctx.named a _ _ _ _ _ _ => (s.nodes a).err

/-- The method `Value(key)`.  A `namedContext` answers the package's private key with a
pointer to itself, its own key with its value, and asks its parent otherwise. -/
def Value : Ctx → Iface → Iface
  | Ctx.background, _ => Iface.nil
  | Ctx.foreign _ parent, k => Value parent k
  | Ctx.valueCtx parent key val, k => if key = k then val else Value parent k
  | Ctx.named a parent _ key val _ _, k =>
    if k = Iface.cancelCtxKeyPtr then Iface.namedPtr a
    else if k = key then val
    else Value parent k

/-- The method `Deadline()`: a `timerCtx` reports its own, a `namedContext` that of the
context it embeds. -/
def Deadline : State → Ctx → Option Int
  | _, Ctx.background => none
  | s, Ctx.foreign h _ => (s.foreign h).deadline
  | s, Ctx.valueCtx parent _ _ => Deadline s parent
  | s, Ctx.named _ parent _ _ _ _ deadline =>
    match deadline with
    | some d => some d
    | none => Deadline s parent

/-! ## Cancellation -/

/-- The builtin `close`: panics on a channel that is closed already. -/
def close (s : State) (ch : Chan) : Res State :=
  if s.chanClosed ch then Res.panic "close of closed channel"
  else Res.ok { s with closed := fun x => if x = ch then true else s.closed x }

/-- The function `parentNamedCtx`: the address of the `namedContext` behind `parent`, if
`parent` has an open channel and that channel is the one the `namedContext` holds. -/
def parentNamedCtx (s : State) (parent : Ctx) : State × Option Nat :=
  let r := Done s parent
  if r.2 = some Chan.closedchan ∨ r.2 = none then (r.1, none)
  else
    match Value parent Iface.cancelCtxKeyPtr with
    | Iface.namedPtr p => if (r.1.nodes p).done.chan p = r.2 then (r.1, some p) else (r.1, none)
    | _ => (r.1, none)

/-- The function `removeChild`. -/
def removeChild (s : State) (parent : Ctx) (child : canceler) : State :=
  let r := parentNamedCtx s parent
  match r.2 with
  | none => r.1
  | some p =>
    r.1.setNode p { r.1.nodes p with children := (r.1.nodes p).children.filter (fun x => x ≠ child) }

/-- The method `cancel(removeFromParent, err)` with a bound on the depth of the calls it
makes on children.  The receiver is the `namedContext` that `c` addresses, so it is
`c.embedded` that is handed to `removeChild`. -/
def cancelAux : Nat → State → canceler → Bool → Option GoError → Res State
  | 0, _, _, _, _ => Res.diverge
  | fuel + 1, s, c, removeFromParent, err =>
    match err with
    | none => Res.panic "context: internal error: missing cancel error"
    | some e =>
      if (s.nodes c.addr).err ≠ none then Res.ok s
      else
        let n := s.nodes c.addr
        let s1 := s.setNode c.addr { n with err := some e }
        let r2 : Res State :=
          match n.done.chan c.addr with
          | none => Res.ok (s1.setNode c.addr { s1.nodes c.addr with done := DoneField.closedchan })
          | some ch => close s1 ch
        let r3 : Res State :=
          n.children.foldl (fun r child => r.bind fun t => cancelAux fuel t child false (some e)) r2
        r3.bind fun s3 =>
          let s4 := s3.setNode c.addr { s3.nodes c.addr with children := [] }
          Res.ok (if removeFromParent then removeChild s4 c.Context c.embedded else s4)

/-- The method `cancel(removeFromParent, err)`.  A call that does anything turns one
active struct into a canceled one, and there are at most `s.next` structs. -/
def cancel (s : State) (c : canceler) (removeFromParent : Bool) (err : Option GoError) : Res State :=
  cancelAux (s.next + 1) s c removeFromParent err

/-- The function `propagateCancel`. -/
def propagateCancel (s : State) (parent : Ctx) (child : canceler) : Res State :=
  let r := Done s parent
  match r.2 with
  | none => Res.ok r.1
  | some done =>
    if r.1.chanClosed done then cancel r.1 child false (Err r.1 parent)
    else
      let q := parentNamedCtx r.1 parent
      match q.2 with
      | some p =>
        if (q.1.nodes p).err ≠ none then cancel q.1 child false (q.1.nodes p).err
        else
          Res.ok (q.1.setNode p { q.1.nodes p with
            children :=
              if child ∈ (q.1.nodes p).children then (q.1.nodes p).children
              else (q.1.nodes p).children ++ [child] })
      | none =>
        let t := incGorutines q.1
        Res.ok { t with goroutines := (parent, child) :: t.goroutines }

/-- The body of the goroutine started by `propagateCancel`, run once: it evaluates both
channels, and if the parent's is closed (and, when the child's is closed too, `coin`
picks that case) it cancels the child with the parent's error wrapped; if only the
child's is closed it returns; otherwise it stays blocked. -/
def goroutine (s : State) (parent : Ctx) (child : canceler) (coin : Bool) : Res State :=
  let r := Done s parent
  let q := Done r.1 child.ctx
  let parentReady : Bool := match r.2 with | some ch => q.1.chanClosed ch | none => false
  let childReady : Bool := match q.2 with | some ch => q.1.chanClosed ch | none => false
  if parentReady && (!childReady || coin) then
    (cancel q.1 child false (Wrapf (Err q.1 parent) namedParentErrFormat [FmtArg.s child.String])).bind
      fun t => Res.ok (decGorutines { t with goroutines := t.goroutines.erase (parent, child) })
  else if childReady then
    Res.ok (decGorutines { q.1 with goroutines := q.1.goroutines.erase (parent, child) })
  else Res.ok q.1

/-! ## Constructors -/

/-- The function `Context`: a new struct at the next free address. -/
def Context (s : State) (parent : Ctx) (name : String) : State × canceler :=
  ({ s.setNode s.next Node.zero with next := s.next + 1 },
    { addr := s.next, Context := parent, name := name, key := Iface.nil, val := Iface.nil,
      start := s.now, deadline := none })

/-- The function `WithValue`. -/
def WithValue (s : State) (parent : Ctx) (name : String) (key val : Iface) : Res (State × canceler) :=
  if key = Iface.nil then Res.panic "nil key"
  else if key.Comparable = false then Res.panic "key is not comparable"
  else
    let r := Context s parent name
    Res.ok (r.1, { r.2 with key := key, val := val })

/-- The function `WithCancel`, without the closure it returns (see `CancelFunc`). -/
def WithCancel (s : State) (parent : Ctx) (name : String) : Res (State × canceler) :=
  let r := Context s parent name
  (propagateCancel r.1 parent r.2).bind fun t => Res.ok (t, r.2)

/-- The closure returned by `WithCancel` for the node `c`, called with `err`. -/
def CancelFunc (s : State) (c : canceler) (err : Option GoError) : Res State :=
  let t := if (s.nodes c.addr).err = none then incCancels s c.name else s
  cancel t c true (Wrapf err namedErrFormat [FmtArg.s c.name])

/-- The closure returned by `WithDeadline` for the `timerCtx` `c`, called with `err`. -/
def DeadlineCancelFunc (s : State) (c : canceler) (err : Option GoError) : Res State :=
  cancel s c true (Wrapf err namedErrFormat [FmtArg.s c.name])

/-- The function given to `time.AfterFunc` by `WithDeadline` for the `timerCtx` `c`. -/
def timerFunc (s : State) (c : canceler) : Res State :=
  let t := if (s.nodes c.addr).err = none then incTimeouts s c.name else s
  cancel t c true
    (some (Errorf namedDeadlineExceededFormat [FmtArg.s c.name, FmtArg.d (Milliseconds (s.now - c.start))]))

/-- The function `WithDeadline`, without the closure it returns. -/
def WithDeadline (s : State) (parent : Ctx) (d : Int) (name : String) : Res (State × canceler) :=
  if (match Deadline s parent with | some cur => decide (cur < d) | none => false) then
    WithCancel s parent name
  else
    let r := Context s parent name
    let c : canceler := { r.2 with deadline := some d }
    (propagateCancel r.1 parent c).bind fun t =>
      let dur := d - t.now
      if dur ≤ 0 then
        (cancel t c true (some (Errorf namedDeadlineExceededFormat [FmtArg.s name, FmtArg.d 0]))).bind
          fun u => Res.ok (u, c)
      else if (t.nodes c.addr).err = none then
        Res.ok ({ t.setNode c.addr { t.nodes c.addr with timer := some dur } with
                    timers := (c, t.now + dur) :: t.timers }, c)
      else Res.ok (t, c)

/-- The function `WithTimeout`.  It reads the clock for `time.Now().Add(timeout)`; the clock
moves on by `elapsed` before `WithDeadline` reads it again, in `Context` and in
`time.Until`. -/
def WithTimeout (s : State) (parent : Ctx) (timeout : Int) (name : String) (elapsed : Int) :
    Res (State × canceler) :=
  WithDeadline { s with now := s.now + elapsed } parent (s.now + timeout) name

/-! ## What other code does -/

/-- The owner of a foreign context cancels it: its error is set and its channel closed. -/
def foreignCancel (s : State) (h : Nat) (e : GoError) : State :=
  { s with
    foreign := fun i => if i = h then { s.foreign h with err := some e } else s.foreign i
    closed := fun x => if x = Chan.ofForeign h then true else s.closed x }

/-- A foreign cancellable context appears at handle `h`, with an open channel. -/
def foreignNew (s : State) (h : Nat) : State :=
  { s with
    foreign := fun i => if i = h then { cancelable := true, err := none, deadline := none }
                        else s.foreign i
    closed := fun x => if x = Chan.ofForeign h then false else s.closed x }

/-! ## Well-formed stores and reachability -/

/-- The channel of the struct at `a` is closed: the field holds `closedchan`, or the
struct's own channel and that one has been closed. -/
def DoneClosed (s : State) (a : Nat) : Prop :=
  (s.nodes a).done = DoneField.closedchan ∨
    ((s.nodes a).done = DoneField.made ∧ s.closed (Chan.ofNode a) = true)

/-- The channel of the struct at `a` is absent or open. -/
def DoneOpen (s : State) (a : Nat) : Prop :=
  (s.nodes a).done = DoneField.nil ∨
    ((s.nodes a).done = DoneField.made ∧ s.closed (Chan.ofNode a) = false)

/-- A well-formed store, for the structs allocated so far: an active struct has no channel
or an open one; a canceled struct has a closed channel and no children; children are
allocated structs. -/
def Inv (s : State) : Prop :=
  ∀ a, a < s.next →
    ((s.nodes a).err = none → DoneOpen s a) ∧
    ((s.nodes a).err ≠ none → DoneClosed s a ∧ (s.nodes a).children = []) ∧
    (∀ ch ∈ (s.nodes a).children, ch.addr < s.next)

instance (s : State) (a : Nat) : Decidable (DoneClosed s a) := by
  unfold DoneClosed; infer_instance

instance (s : State) (a : Nat) : Decidable (DoneOpen s a) := by
  unfold DoneOpen; infer_instance

instance (s : State) : Decidable (Inv s) := by
  unfold Inv; infer_instance

/-- The structs reachable from `c` through children sets, `c` included. -/
inductive Reach (s : State) (c : canceler) : canceler → Prop where
  | self : Reach s c c
  | child {x y : canceler} : Reach s c x → y ∈ (s.nodes x.addr).children → Reach s c y

/-- The allocated structs that are still active. -/
def activeSet (s : State) : Finset Nat :=
  (Finset.range s.next).filter (fun a => (s.nodes a).err = none)

/-- How one call of `cancel` with cause `e` (and the calls it makes on children) changes
the store: canceled structs stay as they are; an active struct either stays as it is or
becomes canceled with cause `e`, a closed channel, no children, and all its former
children canceled; nothing but structs and their channels is touched. -/
structure Post (e : GoError) (s t : State) : Prop where
  next_eq : t.next = s.next
  foreign_eq : t.foreign = s.foreign
  goroutines_eq : t.goroutines = s.goroutines
  timers_eq : t.timers = s.timers
  metrics_eq : t.metricsCollector = s.metricsCollector
  now_eq : t.now = s.now
  canceled_same : ∀ a, (s.nodes a).err ≠ none → t.nodes a = s.nodes a
  active_step : ∀ a, (s.nodes a).err = none →
    t.nodes a = s.nodes a ∨
      ((t.nodes a).err = some e ∧ (t.nodes a).children = [] ∧ DoneClosed t a ∧
        (t.nodes a).timer = (s.nodes a).timer ∧
        ∀ ch ∈ (s.nodes a).children, (t.nodes ch.addr).err ≠ none)
  closed_active : ∀ a, (t.nodes a).err = none → t.closed (Chan.ofNode a) = s.closed (Chan.ofNode a)
  closed_mono : ∀ ch, s.closed ch = true → t.closed ch = true
  closed_foreign : ∀ h, t.closed (Chan.ofForeign h) = s.closed (Chan.ofForeign h)

/-- The store after the first half of `cancel` on an active struct: the error is set and
the channel is closed (or `closedchan` is put in its place). -/
def mark (s : State) (a : Nat) (e : GoError) : State :=
  if (s.nodes a).done = DoneField.nil then
    s.setNode a { s.nodes a with err := some e, done := DoneField.closedchan }
  else
    { s.setNode a { s.nodes a with err := some e } with
      closed := fun x => if x = Chan.ofNode a then true else s.closed x }

/-- What the induction on the depth of `cancel` carries along. -/
def Pre (s : State) : Prop :=
  ∀ a, a < s.next →
    ((s.nodes a).err = none → DoneOpen s a) ∧ (∀ ch ∈ (s.nodes a).children, ch.addr < s.next)

/-- How `Done()` calls and `removeChild` change the store: some structs make their channel
(open), one children set may lose entries; errors, timers and all the rest stay. -/
structure Prune (s t : State) : Prop where
  next_eq : t.next = s.next
  foreign_eq : t.foreign = s.foreign
  goroutines_eq : t.goroutines = s.goroutines
  timers_eq : t.timers = s.timers
  metrics_eq : t.metricsCollector = s.metricsCollector
  now_eq : t.now = s.now
  err_eq : ∀ a, (t.nodes a).err = (s.nodes a).err
  timer_eq : ∀ a, (t.nodes a).timer = (s.nodes a).timer
  children_sub : ∀ a x, x ∈ (t.nodes a).children → x ∈ (s.nodes a).children
  done_step : ∀ a,
    ((t.nodes a).done = (s.nodes a).done ∧ t.closed (Chan.ofNode a) = s.closed (Chan.ofNode a)) ∨
      ((s.nodes a).done = DoneField.nil ∧ (t.nodes a).done = DoneField.made ∧
        t.closed (Chan.ofNode a) = false)
  closed_foreign : ∀ h, t.closed (Chan.ofForeign h) = s.closed (Chan.ofForeign h)

/-- The struct behind a context, looking through `valueCtx` wrappers: the address of the
`namedContext` whose `Done`, `Err` and private-key `Value` the context answers with. -/
def namedBehind : Ctx → Option Nat
  | Ctx.named a _ _ _ _ _ _ => some a
  | Ctx.valueCtx parent _ _ => namedBehind parent
  | _ => none

/-- The handle behind a context, looking through `valueCtx` wrappers, when the context
answers `Done` and `Err` with those of a context owned by other code. -/
def foreignHandle : Ctx → Option Nat
  | Ctx.foreign h _ => some h
  | Ctx.valueCtx parent _ _ => foreignHandle parent
  | _ => none

/-- The value of a result that did not panic, else a default. -/
def Res.getD {α : Type} (r : Res α) (d : α) : α :=
  match r with
  | Res.ok a => a
  | _ => d

/-- A pointer that addresses nothing the constructors made; only a default for `Res.getD`. -/
def canceler.none : canceler :=
  { addr := 0, Context := Ctx.background, name := "", key := Iface.nil, val := Iface.nil,
    start := 0, deadline := Option.none }

/-! ## The scenarios of `context_test.go` -/

/-- The default of `Res.getD` for a constructor. -/
def noResult : State × canceler := (State.init, canceler.none)

/-- The error `fmt.Errorf("my error")` of the tests. -/
def myError : GoError := GoError.errorf "my error"

/-- The test "named context, simple use": `WithCancel(context.Background(), "test 1")`. -/
def simpleUse : State × canceler :=
  (WithCancel State.init Ctx.background "test 1").getD noResult

/-- The same test after the deferred `cnlFN(fmt.Errorf("my error"))`. -/
def simpleUseCanceled : State :=
  (CancelFunc simpleUse.1 simpleUse.2 (some myError)).getD State.init

/-- The test "named context, chain": `ctx2 := context.WithValue(ctx1, "xxx", "yyy")` over
`ctx1` = `WithCancel(context.Background(), "el 1")`. -/
def chainCtx2 : Ctx :=
  Ctx.valueCtx ((WithCancel State.init Ctx.background "el 1").getD noResult).2.ctx
    (Iface.str "xxx") (Iface.str "yyy")

/-- The same test after `ctx3, _ := WithCancel(ctx2, "el 2")`: the store and `ctx3`. -/
def chain : State × canceler :=
  (WithCancel ((WithCancel State.init Ctx.background "el 1").getD noResult).1 chainCtx2 "el 2").getD
    noResult

/-- The pointer `ctx1` of that test. -/
def chainCtx1 : canceler := ((WithCancel State.init Ctx.background "el 1").getD noResult).2

/-- Time passes: the clock moves on by `d`. -/
def State.advance (s : State) (d : Int) : State := { s with now := s.now + d }

/-- The error `context.Canceled` of the standard library. -/
def Canceled : GoError := GoError.errorf "context canceled"

/-- The test "combined chain, foreign parent canceled": `ctx2`, a `valueCtx` over a context
of the standard library at handle 0. -/
def combinedCtx2 : Ctx :=
  Ctx.valueCtx (Ctx.foreign 0 Ctx.background) (Iface.str "xxx") (Iface.str "yyy")

/-- The same test after `ctx3, _ := WithCancel(ctx2, "named")`: the store and `ctx3`. -/
def combined : State × canceler :=
  (WithCancel (foreignNew State.init 0) combinedCtx2 "named").getD noResult

/-- The same test after the deferred `cnlFN()` of the foreign parent. -/
def combinedCanceled : State := foreignCancel combined.1 0 Canceled

/-- A deadline node `child` with 10 ms to go, under the background context. -/
def deadlineChild : State × canceler :=
  (WithDeadline State.init Ctx.background 10000000 "child").getD noResult

/-- The store of `deadlineChild` 12 ms later, when the timer fires. -/
def deadlineChildDue : State := deadlineChild.1.advance 12000000

/-- A scenario with two nodes: node `A`, and `B` made by `WithCancel(A, "B")`. -/
def nodeA : State × canceler := (WithCancel State.init Ctx.background "A").getD noResult

/-- The store with `A` and `B`, and the pointer to `B`. -/
def nodeAB : State × canceler := (WithCancel nodeA.1 nodeA.2.ctx "B").getD noResult

/-- The store after `A` has been canceled explicitly with cause "boom". -/
def nodeABCanceled : State :=
  (CancelFunc nodeAB.1 nodeA.2 (some (GoError.errorf "boom"))).getD State.init

/-- A node made over the canceled node of `simpleUseCanceled`. -/
def lateChild : State × canceler :=
  (WithCancel simpleUseCanceled simpleUse.2.ctx "child").getD noResult

/-- A value node `v` made by `WithValue(A, "v", "k", "x")` over the active node `A`. -/
def valueNode : State × canceler :=
  (WithValue nodeA.1 nodeA.2.ctx "v" (Iface.str "k") (Iface.str "x")).getD noResult

/-- A node `c` made by `WithCancel(v, "c")` over the value node. -/
def valueChild : State × canceler := (WithCancel valueNode.1 valueNode.2.ctx "c").getD noResult

/-- The store after `A` has been canceled explicitly with cause "boom". -/
def valueChildCanceled : State :=
  (CancelFunc valueChild.1 nodeA.2 (some (GoError.errorf "boom"))).getD State.init

/-- A value node made over the canceled node of `simpleUseCanceled`. -/
def lateValueNode : State × canceler :=
  (WithValue simpleUseCanceled simpleUse.2.ctx "v" (Iface.str "k") (Iface.str "x")).getD noResult

/-! ## The metrics collector, the timers, value lookup through a chain -/

/-- The function `InitMetrics`: the collector is installed. -/
def InitMetrics (s : State) (m : Metrics) : State := { s with metricsCollector := some m }

/-- The collector `NewPrometheusMetrics` returns: every counter at zero. -/
def NewPrometheusMetrics : Metrics :=
  { gorutinesAll := 0, gorutinesCurrent := 0, timeouts := fun _ => 0, cancels := fun _ => 0 }

/-- The runtime runs a function scheduled with `time.AfterFunc` for `c`, due at `due`: the
entry leaves the schedule and the function runs. -/
def fire (s : State) (c : canceler) (due : Int) : Res State :=
  timerFunc { s with timers := s.timers.erase (c, due) } c

/-- The context `d` is `top`, or lies below `top` through structs of this package none of
which stores the key `q` itself. -/
inductive Through (q : Iface) (top : Ctx) : Ctx → Prop where
  | here : Through q top top
  | named {p : Ctx} (a : Nat) (name : String) (key val : Iface) (start : Int)
      (deadline : Option Int) :
      Through q top p → key ≠ q → Through q top (Ctx.named a p name key val start deadline)

/-- The test "value lookup": `ctx1 := WithValue(context.Background(), name, "xxx", "yyy")`. -/
def lookupValue : State × canceler :=
  (WithValue State.init Ctx.background "func13" (Iface.str "xxx") (Iface.str "yyy")).getD noResult

/-- The same test after `ctx2, _ := WithTimeout(ctx1, 1*time.Millisecond)`, the call taking
1 µs before it reads the clock again. -/
def lookupTimeout : State × canceler :=
  (WithTimeout lookupValue.1 lookupValue.2.ctx 1000000 "func13" 1000).getD noResult

/-! ## Contexts handed to a constructor -/

/-- The context exists: the struct behind it, if there is one, has been allocated; the
foreign context behind it, if there is one, has an error once its channel is closed. -/
def parentOk (s : State) (parent : Ctx) : Prop :=
  (match namedBehind parent with
    | some a => a < s.next
    | none => True) ∧
  (match foreignHandle parent with
    | some h => s.closed (Chan.ofForeign h) = true → (s.foreign h).err ≠ none
    | none => True)

instance (s : State) (parent : Ctx) : Decidable (parentOk s parent) := by
  unfold parentOk
  cases namedBehind parent <;> cases foreignHandle parent <;> simp only <;> infer_instance

/-- The context is not canceled: it has no channel, or its channel is open. -/
def parentOpen (s : State) (parent : Ctx) : Prop :=
  match (Done s parent).2 with
  | some ch => (Done s parent).1.chanClosed ch = false
  | none => True

instance (s : State) (parent : Ctx) : Decidable (parentOpen s parent) := by
  unfold parentOpen
  cases (Done s parent).2 <;> simp only <;> infer_instance

/-- No foreign context has a closed channel and a nil error. -/
def ForeignOk (s : State) : Prop :=
  ∀ h, s.closed (Chan.ofForeign h) = true → (s.foreign h).err ≠ none

/-- What neither `cancel` nor `propagateCancel` touches: the allocation mark, the foreign
contexts and their channels, the schedule of timers and the `timer` fields, the clock. -/
structure Wire (s t : State) : Prop where
  next_eq : t.next = s.next
  foreign_eq : t.foreign = s.foreign
  timers_eq : t.timers = s.timers
  now_eq : t.now = s.now
  timer_eq : ∀ a, (t.nodes a).timer = (s.nodes a).timer
  closed_foreign : ∀ h, t.closed (Chan.ofForeign h) = s.closed (Chan.ofForeign h)

/-! ## Scenarios with deadlines -/

/-- A deadline node made over the canceled node of `simpleUseCanceled`, the deadline being
now. -/
def lateDeadline : State × canceler :=
  (WithDeadline simpleUseCanceled simpleUse.2.ctx 0 "late").getD noResult

/-- A node made by `WithDeadline(child, 20 ms, "later")` over the deadline node `child`,
whose own deadline is at 10 ms. -/
def laterDeadline : State × canceler :=
  (WithDeadline deadlineChild.1 deadlineChild.2.ctx 20000000 "later").getD noResult

/-! ## Scenarios with metrics, timers and children sets -/

/-- The test setup: `InitMetrics(NewPrometheusMetrics("test"))` right after `init`. -/
def metered : State := InitMetrics State.init NewPrometheusMetrics

/-- The test "cancel by timeout, metrics": a node with a timeout of 10 ms under the
background context, with the collector installed, the call taking 1 µs before it reads the
clock again. -/
def meteredTimeout : State × canceler :=
  (WithTimeout metered Ctx.background 10000000 "func11" 1000).getD noResult

/-- The store of `deadlineChild` after its cancel function was called with "my error". -/
def deadlineChildCanceled : State :=
  (DeadlineCancelFunc deadlineChild.1 deadlineChild.2 (some myError)).getD State.init

/-- A deadline node `c` with 10 ms to go, made over the active node `A`. -/
def deadlineUnderA : State × canceler :=
  (WithDeadline nodeA.1 nodeA.2.ctx 10000000 "c").getD noResult

/-- The store of `deadlineUnderA` after the cancel function of `c` was called. -/
def deadlineUnderACanceled : State :=
  (DeadlineCancelFunc deadlineUnderA.1 deadlineUnderA.2 (some myError)).getD State.init

/-- The store of `deadlineUnderACanceled` after the cancel function of `A` was called with
cause "boom". -/
def deadEntryCanceled : State :=
  (CancelFunc deadlineUnderACanceled nodeA.2 (some (GoError.errorf "boom"))).getD State.init

/-- The store of `deadlineUnderA` 12 ms later, after the timer of `c` has fired. -/
def deadlineUnderAFired : State :=
  (fire (deadlineUnderA.1.advance 12000000) deadlineUnderA.2 10000000).getD State.init

/-- The store of `nodeAB` after the cancel function of `B` was called. -/
def nodeABChildCanceled : State :=
  (CancelFunc nodeAB.1 nodeAB.2 (some myError)).getD State.init

/-- Whether the context is the struct at `a`, seen directly or through `valueCtx` wrappers
of the standard library (whose keys are never the private key of this package). -/
def madeOver (a : Nat) : Ctx → Bool
  | Ctx.named b _ _ _ _ _ _ => decide (b = a)
  | Ctx.valueCtx parent key _ => decide (key ≠ Iface.cancelCtxKeyPtr) && madeOver a parent
  | _ => false

/-- The struct behind the context, if there is one, has been allocated. -/
def ctxAllocated (s : State) (ctx : Ctx) : Prop :=
  match namedBehind ctx with
  | some a => a < s.next
  | none => True

instance (s : State) (ctx : Ctx) : Decidable (ctxAllocated s ctx) := by
  unfold ctxAllocated
  cases namedBehind ctx <;> simp only <;> infer_instance

/-- The stores reachable from the one after `init`: the collector is installed, time passes,
foreign contexts appear and are canceled by their owners, the constructors are called on
contexts that exist, `Done()` is called, cancel functions are called on nodes that exist,
a scheduled timer fires when it is due, a bridging goroutine runs. (`Err()` does not change
the store; the fan-out to children is part of `cancel`.) -/
inductive Reachable : State → Prop where
  | init : Reachable State.init
  | initMetrics {s : State} (m : Metrics) : Reachable s → Reachable (InitMetrics s m)
  | advance {s : State} (d : Int) : Reachable s → 0 ≤ d → Reachable (s.advance d)
  | foreignNew {s : State} (h : Nat) : Reachable s → Reachable (foreignNew s h)
  | foreignCancel {s : State} (h : Nat) (e : GoError) : Reachable s →
      Reachable (foreignCancel s h e)
  | done {s : State} (ctx : Ctx) : Reachable s → ctxAllocated s ctx → Reachable (Done s ctx).1
  | withValue {s t : State} (parent : Ctx) (name : String) (key val : Iface) (c : canceler) :
      Reachable s → ctxAllocated s parent → WithValue s parent name key val = Res.ok (t, c) →
      Reachable t
  | withCancel {s t : State} (parent : Ctx) (name : String) (c : canceler) :
      Reachable s → ctxAllocated s parent → WithCancel s parent name = Res.ok (t, c) →
      Reachable t
  | withDeadline {s t : State} (parent : Ctx) (d : Int) (name : String) (c : canceler) :
      Reachable s → ctxAllocated s parent → WithDeadline s parent d name = Res.ok (t, c) →
      Reachable t
  | withTimeout {s t : State} (parent : Ctx) (timeout : Int) (name : String) (elapsed : Int)
      (c : canceler) :
      Reachable s → ctxAllocated s parent → 0 ≤ elapsed →
      WithTimeout s parent timeout name elapsed = Res.ok (t, c) → Reachable t
  | cancelFunc {s t : State} (c : canceler) (err : Option GoError) :
      Reachable s → c.addr < s.next → CancelFunc s c err = Res.ok t → Reachable t
  | deadlineCancelFunc {s t : State} (c : canceler) (err : Option GoError) :
      Reachable s → c.addr < s.next → DeadlineCancelFunc s c err = Res.ok t → Reachable t
  | fire {s t : State} (c : canceler) (due : Int) :
      Reachable s → (c, due) ∈ s.timers → due ≤ s.now → fire s c due = Res.ok t → Reachable t
  | goroutine {s t : State} (parent : Ctx) (child : canceler) (coin : Bool) :
      Reachable s → (parent, child) ∈ s.goroutines → goroutine s parent child coin = Res.ok t →
      Reachable t

/-- What holds in every reachable store besides `Inv`: foreign contexts keep their
contract, and the timers and goroutines are about structs that have been allocated. -/
structure Sound (s : State) : Prop where
  inv : Inv s
  foreignOk : ForeignOk s
  timers : ∀ x ∈ s.timers, x.1.addr < s.next
  goroutines : ∀ g ∈ s.goroutines, g.2.addr < s.next ∧ ctxAllocated s g.1

/-! ## Bridging goroutines and their counter -/

/-- What creating the node `c` over `parent` does to the count of bridging goroutines, from
the store `s`, whose collector is `m`, to the store `t`.  Over a foreign context that can
be canceled and whose channel is open, which `parentNamedCtx` does not recognise, one
goroutine is started and the counter of goroutines started and the gauge of running ones
each go up by one, the other counters staying.  Over a context without a channel, over a
context whose channel is closed, and over an active struct of this package, seen directly
or through `valueCtx` wrappers, no goroutine is started and the collector is as before. -/
structure Bridged (s t : State) (parent : Ctx) (c : canceler) (m : Metrics) : Prop where
  spawned : ∀ h, foreignHandle parent = some h → (s.foreign h).cancelable = true →
    s.closed (Chan.ofForeign h) = false →
    (parentNamedCtx s parent).2 = none ∧
      (∃ m1, t.metricsCollector = some m1 ∧ m1.gorutinesAll = m.gorutinesAll + 1 ∧
        m1.gorutinesCurrent = m.gorutinesCurrent + 1 ∧ m1.timeouts = m.timeouts ∧
        m1.cancels = m.cancels) ∧
      t.goroutines = (parent, c) :: s.goroutines
  not_cancelable : (Done s parent).2 = none →
    t.metricsCollector = some m ∧ t.goroutines = s.goroutines
  canceled : ¬ parentOpen s parent → t.metricsCollector = some m ∧ t.goroutines = s.goroutines
  registered : ∀ p, madeOver p parent = true → (s.nodes p).err = none →
    t.metricsCollector = some m ∧ t.goroutines = s.goroutines

/-- The test "combined chain" with the collector installed: the foreign context at handle 0
exists and is active. -/
def meteredForeign : State := foreignNew metered 0

/-- The test "named chain" with the collector installed: `ctx1` made by
`WithCancel(context.Background(), "el 1")`. -/
def meteredChain1 : State × canceler := (WithCancel metered Ctx.background "el 1").getD noResult

/-- The context `ctx2 := context.WithValue(ctx1, "xxx", "yyy")` of that test. -/
def meteredChainCtx2 : Ctx :=
  Ctx.valueCtx meteredChain1.2.ctx (Iface.str "xxx") (Iface.str "yyy")

/-- The same test after `ctx3, _ := WithCancel(ctx2, "el 2")`: the store and `ctx3`. -/
def meteredChain : State × canceler :=
  (WithCancel meteredChain1.1 meteredChainCtx2 "el 2").getD noResult

/-- The test "combined chain" after `ctx3, _ := WithCancel(ctx2, "named")`, with the
collector installed: the store and `ctx3`. -/
def meteredCombined : State × canceler :=
  (WithCancel meteredForeign combinedCtx2 "named").getD noResult

/-- A node with a timeout of 1 ns under the background context, the call taking 1 µs before
it reads the clock again. -/
def shortTimeout : State × canceler :=
  (WithTimeout State.init Ctx.background 1 "short" 1000).getD noResult

/-- A value node `v` made by `WithValue(ctx2, "v", "k", "x")` over the same `ctx2`, the
`valueCtx` around an active context of the standard library, with the collector installed. -/
def meteredValue : State × canceler :=
  (WithValue meteredForeign combinedCtx2 "v" (Iface.str "k") (Iface.str "x")).getD noResult

/-- A value node `v` made by `WithValue(ctx1, "v", "k", "x")` over the active node `el 1`,
with the collector installed. -/
def meteredValueNamed : State × canceler :=
  (WithValue meteredChain1.1 meteredChain1.2.ctx "v" (Iface.str "k") (Iface.str "x")).getD noResult

/-! ## Facts about the embedding -/

@[simp] theorem setNode_nodes_self (s : State) (a : Nat) (n : Node) : (s.setNode a n).nodes a = n := by
  simp [State.setNode]

theorem setNode_nodes_ne (s : State) {a b : Nat} (n : Node) (h : b ≠ a) :
    (s.setNode a n).nodes b = s.nodes b := by
  simp [State.setNode, h]

@[simp] theorem setNode_next (s : State) (a : Nat) (n : Node) : (s.setNode a n).next = s.next := rfl
@[simp] theorem setNode_closed (s : State) (a : Nat) (n : Node) : (s.setNode a n).closed = s.closed := rfl
@[simp] theorem setNode_foreign (s : State) (a : Nat) (n : Node) : (s.setNode a n).foreign = s.foreign := rfl
@[simp] theorem setNode_goroutines (s : State) (a : Nat) (n : Node) :
    (s.setNode a n).goroutines = s.goroutines := rfl
@[simp] theorem setNode_timers (s : State) (a : Nat) (n : Node) : (s.setNode a n).timers = s.timers := rfl
@[simp] theorem setNode_metrics (s : State) (a : Nat) (n : Node) :
    (s.setNode a n).metricsCollector = s.metricsCollector := rfl
@[simp] theorem setNode_now (s : State) (a : Nat) (n : Node) : (s.setNode a n).now = s.now := rfl

theorem Post.refl_post (e : GoError) (s : State) : Post e s s where
  next_eq := rfl
  foreign_eq := rfl
  goroutines_eq := rfl
  timers_eq := rfl
  metrics_eq := rfl
  now_eq := rfl
  canceled_same := fun _ _ => rfl
  active_step := fun _ _ => Or.inl rfl
  closed_active := fun _ _ => rfl
  closed_mono := fun _ h => h
  closed_foreign := fun _ => rfl

theorem Post.err_some {e : GoError} {s t : State} (h : Post e s t) {a : Nat}
    (ha : (s.nodes a).err ≠ none) : (t.nodes a).err ≠ none := by
  rw [h.canceled_same a ha]; exact ha

theorem DoneClosed.of_same {s t : State} {a : Nat} (hd : DoneClosed s a)
    (hn : t.nodes a = s.nodes a) (hc : ∀ ch, s.closed ch = true → t.closed ch = true) :
    DoneClosed t a := by
  unfold DoneClosed at *
  rw [hn]
  rcases hd with h | ⟨h1, h2⟩
  · exact Or.inl h
  · exact Or.inr ⟨h1, hc _ h2⟩

theorem Post.trans_post {e : GoError} {s t u : State} (h1 : Post e s t) (h2 : Post e t u) : Post e s u where
  next_eq := h2.next_eq.trans h1.next_eq
  foreign_eq := h2.foreign_eq.trans h1.foreign_eq
  goroutines_eq := h2.goroutines_eq.trans h1.goroutines_eq
  timers_eq := h2.timers_eq.trans h1.timers_eq
  metrics_eq := h2.metrics_eq.trans h1.metrics_eq
  now_eq := h2.now_eq.trans h1.now_eq
  canceled_same := fun a ha => by
    rw [h2.canceled_same a (h1.err_some ha), h1.canceled_same a ha]
  active_step := fun a ha => by
    rcases h1.active_step a ha with hs | ⟨he, hc, hd, ht, hch⟩
    · rcases h2.active_step a (by rw [hs]; exact ha) with hs2 | ⟨he2, hc2, hd2, ht2, hch2⟩
      · exact Or.inl (hs2.trans hs)
      · refine Or.inr ⟨he2, hc2, hd2, by rw [ht2, hs], ?_⟩
        intro ch hch
        exact hch2 ch (by rw [hs]; exact hch)
    · have hne : (t.nodes a).err ≠ none := by rw [he]; simp
      have hsame := h2.canceled_same a hne
      refine Or.inr ⟨by rw [hsame]; exact he, by rw [hsame]; exact hc,
        hd.of_same hsame h2.closed_mono, by rw [hsame]; exact ht, ?_⟩
      intro ch hch'
      exact h2.err_some (hch ch hch')
  closed_active := fun a ha => by
    have hta : (t.nodes a).err = none := by
      by_contra hne
      exact (h2.err_some hne) ha
    rw [h2.closed_active a ha, h1.closed_active a hta]
  closed_mono := fun ch h => h2.closed_mono ch (h1.closed_mono ch h)
  closed_foreign := fun h => (h2.closed_foreign h).trans (h1.closed_foreign h)

theorem activeSet_card_le (s : State) : (activeSet s).card ≤ s.next := by
  unfold activeSet
  calc ((Finset.range s.next).filter _).card ≤ (Finset.range s.next).card := Finset.card_filter_le _ _
    _ = s.next := Finset.card_range _

theorem activeSet_subset {s t : State} (hn : t.next = s.next)
    (h : ∀ a, (s.nodes a).err ≠ none → (t.nodes a).err ≠ none) : activeSet t ⊆ activeSet s := by
  intro a ha
  simp only [activeSet, Finset.mem_filter, Finset.mem_range] at ha ⊢
  refine ⟨by rw [← hn]; exact ha.1, ?_⟩
  by_contra hne
  exact h a hne ha.2

theorem activeSet_card_mono {s t : State} (hn : t.next = s.next)
    (h : ∀ a, (s.nodes a).err ≠ none → (t.nodes a).err ≠ none) :
    (activeSet t).card ≤ (activeSet s).card :=
  Finset.card_le_card (activeSet_subset hn h)

theorem activeSet_card_lt {s t : State} (hn : t.next = s.next)
    (h : ∀ a, (s.nodes a).err ≠ none → (t.nodes a).err ≠ none)
    {c : Nat} (hc : c < s.next) (hs : (s.nodes c).err = none) (ht : (t.nodes c).err ≠ none) :
    (activeSet t).card < (activeSet s).card := by
  apply Finset.card_lt_card
  refine ⟨activeSet_subset hn h, ?_⟩
  intro hsub
  have hmem : c ∈ activeSet s := by
    simp only [activeSet, Finset.mem_filter, Finset.mem_range]
    exact ⟨hc, hs⟩
  have := hsub hmem
  simp only [activeSet, Finset.mem_filter, Finset.mem_range] at this
  exact ht this.2

theorem Inv.pre {s : State} (h : Inv s) : Pre s := fun a ha => ⟨(h a ha).1, (h a ha).2.2⟩

theorem cancelAux_canceled (fuel : Nat) (s : State) (c : canceler) (r : Bool) (e : GoError)
    (h : (s.nodes c.addr).err ≠ none) : cancelAux (fuel + 1) s c r (some e) = Res.ok s := by
  simp [cancelAux, h]

theorem cancelAux_active (fuel : Nat) (s : State) (c : canceler) (r : Bool) (e : GoError)
    (h : (s.nodes c.addr).err = none) (ho : DoneOpen s c.addr) :
    cancelAux (fuel + 1) s c r (some e) =
      (((s.nodes c.addr).children.foldl
          (fun r child => r.bind fun t => cancelAux fuel t child false (some e))
          (Res.ok (mark s c.addr e))).bind fun s3 =>
        Res.ok (if r then
            removeChild (s3.setNode c.addr { s3.nodes c.addr with children := [] }) c.Context c.embedded
          else s3.setNode c.addr { s3.nodes c.addr with children := [] })) := by
  have hr2 : (match (s.nodes c.addr).done.chan c.addr with
      | none => Res.ok ((s.setNode c.addr { s.nodes c.addr with err := some e }).setNode c.addr
          { (s.setNode c.addr { s.nodes c.addr with err := some e }).nodes c.addr with
            done := DoneField.closedchan })
      | some ch => close (s.setNode c.addr { s.nodes c.addr with err := some e }) ch)
      = Res.ok (mark s c.addr e) := by
    rcases ho with h1 | ⟨h1, h2⟩
    · simp only [h1, DoneField.chan, mark, State.setNode, if_true]
      congr 2
      funext i
      by_cases hi : i = c.addr <;> simp [hi]
    · simp [h1, DoneField.chan, mark, close, State.chanClosed, h2]
  simp only [cancelAux, h, ne_eq, not_true_eq_false, if_false]
  rw [hr2]

theorem mark_next (s : State) (a : Nat) (e : GoError) : (mark s a e).next = s.next := by
  unfold mark; split <;> rfl

theorem mark_foreign (s : State) (a : Nat) (e : GoError) : (mark s a e).foreign = s.foreign := by
  unfold mark; split <;> rfl

theorem mark_goroutines (s : State) (a : Nat) (e : GoError) :
    (mark s a e).goroutines = s.goroutines := by
  unfold mark; split <;> rfl

theorem mark_timers (s : State) (a : Nat) (e : GoError) : (mark s a e).timers = s.timers := by
  unfold mark; split <;> rfl

theorem mark_metrics (s : State) (a : Nat) (e : GoError) :
    (mark s a e).metricsCollector = s.metricsCollector := by
  unfold mark; split <;> rfl

theorem mark_now (s : State) (a : Nat) (e : GoError) : (mark s a e).now = s.now := by
  unfold mark; split <;> rfl

theorem mark_nodes_ne (s : State) {a b : Nat} (e : GoError) (h : b ≠ a) :
    (mark s a e).nodes b = s.nodes b := by
  unfold mark; split <;> simp [State.setNode, h]

theorem mark_err (s : State) (a : Nat) (e : GoError) : ((mark s a e).nodes a).err = some e := by
  unfold mark; split <;> simp [State.setNode]

theorem mark_children (s : State) (a b : Nat) (e : GoError) :
    ((mark s a e).nodes b).children = (s.nodes b).children := by
  by_cases h : b = a
  · subst h; unfold mark; split <;> simp [State.setNode]
  · rw [mark_nodes_ne s e h]

theorem mark_timer (s : State) (a : Nat) (e : GoError) :
    ((mark s a e).nodes a).timer = (s.nodes a).timer := by
  unfold mark; split <;> simp [State.setNode]

theorem mark_doneClosed (s : State) (a : Nat) (e : GoError) (ho : DoneOpen s a) :
    DoneClosed (mark s a e) a := by
  rcases ho with h | ⟨h, _⟩
  · left; simp [mark, h, State.setNode]
  · right; simp [mark, h, State.setNode]

theorem mark_closed_ne (s : State) (a : Nat) (e : GoError) {ch : Chan} (h : ch ≠ Chan.ofNode a) :
    (mark s a e).closed ch = s.closed ch := by
  unfold mark; split
  · rfl
  · simp [h]

theorem mark_closed_mono (s : State) (a : Nat) (e : GoError) {ch : Chan} (h : s.closed ch = true) :
    (mark s a e).closed ch = true := by
  unfold mark; split
  · exact h
  · by_cases hc : ch = Chan.ofNode a <;> simp [hc, h]

theorem mark_err_some (s : State) (a : Nat) (e : GoError) {b : Nat} (h : (s.nodes b).err ≠ none) :
    ((mark s a e).nodes b).err ≠ none := by
  by_cases hb : b = a
  · subst hb; rw [mark_err]; simp
  · rw [mark_nodes_ne s e hb]; exact h

theorem mark_pre {s : State} (hp : Pre s) (a : Nat) (e : GoError) : Pre (mark s a e) := by
  intro b hb
  rw [mark_next] at hb
  refine ⟨?_, ?_⟩
  · intro hn
    have hba : b ≠ a := by
      intro h; subst h; rw [mark_err] at hn; simp at hn
    rw [mark_nodes_ne s e hba] at hn
    have := (hp b hb).1 hn
    unfold DoneOpen at *
    rw [mark_nodes_ne s e hba, mark_closed_ne s a e (by simpa using hba)]
    exact this
  · intro ch hch
    rw [mark_children] at hch
    rw [mark_next]
    exact (hp b hb).2 ch hch

/-- The loop over the children, given that each call does what `cancelAux_spec` says. -/
theorem foldl_cancelAux_spec (fuel : Nat) (e : GoError)
    (ih : ∀ (s : State) (c : canceler), Pre s → c.addr < s.next → (activeSet s).card < fuel →
      ∃ t, cancelAux fuel s c false (some e) = Res.ok t ∧ Pre t ∧ Post e s t ∧
        (t.nodes c.addr).err ≠ none) :
    ∀ (l : List canceler) (s : State), Pre s → (∀ ch ∈ l, ch.addr < s.next) →
      (activeSet s).card < fuel →
      ∃ t, l.foldl (fun r child => r.bind fun t => cancelAux fuel t child false (some e)) (Res.ok s)
          = Res.ok t ∧ Pre t ∧ Post e s t ∧ ∀ ch ∈ l, (t.nodes ch.addr).err ≠ none := by
  intro l
  induction l with
  | nil =>
    intro s hp _ _
    exact ⟨s, rfl, hp, Post.refl_post e s, by simp⟩
  | cons x xs ihl =>
    intro s hp hb hf
    obtain ⟨t, ht, hpt, hpost, hx⟩ := ih s x hp (hb x (by simp)) hf
    have hcard : (activeSet t).card < fuel :=
      lt_of_le_of_lt (activeSet_card_mono hpost.next_eq (fun a ha => hpost.err_some ha)) hf
    obtain ⟨u, hu, hpu, hpost2, hxs⟩ := ihl t hpt
      (fun ch hch => by rw [hpost.next_eq]; exact hb ch (by simp [hch])) hcard
    refine ⟨u, ?_, hpu, hpost.trans_post hpost2, ?_⟩
    · simp only [List.foldl_cons, Res.bind, ht]
      exact hu
    · intro ch hch
      rcases List.mem_cons.mp hch with h | h
      · subst h; exact hpost2.err_some hx
      · exact hxs ch h

/-- The end of `cancel` without `removeChild`: from the store `s`, the struct `c` is marked
(`mark`), the loop takes `mark s c e` to `t`, and the children set of `c` is dropped. -/
theorem cancel_finish {e : GoError} {s t : State} {a : Nat}
    (hp : Pre s) (ha : a < s.next) (hact : (s.nodes a).err = none)
    (hpt : Pre t) (hpost : Post e (mark s a e) t)
    (hch : ∀ ch ∈ (s.nodes a).children, (t.nodes ch.addr).err ≠ none) :
    Pre (t.setNode a { t.nodes a with children := [] }) ∧
    Post e s (t.setNode a { t.nodes a with children := [] }) ∧
    ((t.setNode a { t.nodes a with children := [] }).nodes a).err ≠ none := by
  have ho : DoneOpen s a := (hp a ha).1 hact
  have hma : ((mark s a e).nodes a).err ≠ none := by rw [mark_err]; simp
  have hta : t.nodes a = (mark s a e).nodes a := hpost.canceled_same a hma
  have hte : (t.nodes a).err = some e := by rw [hta, mark_err]
  have herr : ∀ b, ((t.setNode a { t.nodes a with children := [] }).nodes b).err = (t.nodes b).err := by
    intro b
    by_cases hb : b = a
    · subst hb; simp
    · rw [setNode_nodes_ne _ _ hb]
  have hnext : t.next = s.next := by rw [hpost.next_eq, mark_next]
  refine ⟨?_, ?_, ?_⟩
  · intro b hb
    rw [setNode_next] at hb
    refine ⟨?_, ?_⟩
    · intro hn
      rw [herr] at hn
      have hba : b ≠ a := by
        intro h; subst h; rw [hte] at hn; simp at hn
      have := (hpt b hb).1 hn
      unfold DoneOpen at *
      rw [setNode_nodes_ne _ _ hba, setNode_closed]
      exact this
    · intro ch hc
      rw [setNode_next]
      by_cases hba : b = a
      · subst hba; simp at hc
      · rw [setNode_nodes_ne _ _ hba] at hc
        exact (hpt b hb).2 ch hc
  · refine
      { next_eq := by rw [setNode_next, hnext]
        foreign_eq := by rw [setNode_foreign, hpost.foreign_eq, mark_foreign]
        goroutines_eq := by rw [setNode_goroutines, hpost.goroutines_eq, mark_goroutines]
        timers_eq := by rw [setNode_timers, hpost.timers_eq, mark_timers]
        metrics_eq := by rw [setNode_metrics, hpost.metrics_eq, mark_metrics]
        now_eq := by rw [setNode_now, hpost.now_eq, mark_now]
        canceled_same := ?_
        active_step := ?_
        closed_active := ?_
        closed_mono := ?_
        closed_foreign := ?_ }
    · intro b hb
      have hba : b ≠ a := by
        intro h; subst h; exact hb hact
      rw [setNode_nodes_ne _ _ hba, hpost.canceled_same b (mark_err_some s a e hb),
        mark_nodes_ne s e hba]
    · intro b hb
      by_cases hba : b = a
      · subst hba
        right
        refine ⟨by rw [herr, hte], by simp, ?_, ?_, ?_⟩
        · have hd : DoneClosed t b := (mark_doneClosed s b e ho).of_same hta hpost.closed_mono
          unfold DoneClosed at *
          simpa using hd
        · simp [hta, mark_timer]
        · intro ch hc
          rw [herr]
          exact hch ch hc
      · have hmb : (mark s a e).nodes b = s.nodes b := mark_nodes_ne s e hba
        rcases hpost.active_step b (by rw [hmb]; exact hb) with hs | ⟨h1, h2, h3, h4, h5⟩
        · left
          rw [setNode_nodes_ne _ _ hba, hs, hmb]
        · right
          refine ⟨by rw [herr]; exact h1, by rw [setNode_nodes_ne _ _ hba]; exact h2, ?_,
            by rw [setNode_nodes_ne _ _ hba, h4, hmb], ?_⟩
          · unfold DoneClosed at *
            rw [setNode_nodes_ne _ _ hba, setNode_closed]
            exact h3
          · intro ch hc
            rw [herr]
            exact h5 ch (by rw [hmb]; exact hc)
    · intro b hb
      rw [herr] at hb
      have hba : b ≠ a := by
        intro h; subst h; rw [hte] at hb; simp at hb
      rw [setNode_closed, hpost.closed_active b hb, mark_closed_ne s a e (by simpa using hba)]
    · intro ch hc
      rw [setNode_closed]
      exact hpost.closed_mono ch (mark_closed_mono s a e hc)
    · intro h
      rw [setNode_closed, hpost.closed_foreign, mark_closed_ne s a e (by simp)]
  · rw [herr, hte]; simp

/-- A call of `cancel` that does not ask for removal from the parent returns, given enough
depth for the active structs, and changes the store as `Post` says. -/
theorem cancelAux_spec (e : GoError) :
    ∀ (fuel : Nat) (s : State) (c : canceler), Pre s → c.addr < s.next →
      (activeSet s).card < fuel →
      ∃ t, cancelAux fuel s c false (some e) = Res.ok t ∧ Pre t ∧ Post e s t ∧
        (t.nodes c.addr).err ≠ none := by
  intro fuel
  induction fuel with
  | zero => intro s c _ _ h; exact absurd h (Nat.not_lt_zero _)
  | succ fuel ih =>
    intro s c hp hc hf
    by_cases hact : (s.nodes c.addr).err = none
    · have ho : DoneOpen s c.addr := (hp c.addr hc).1 hact
      have hcard : (activeSet (mark s c.addr e)).card < fuel := by
        have := activeSet_card_lt (mark_next s c.addr e) (fun a ha => mark_err_some s c.addr e ha)
          hc hact (by rw [mark_err]; simp)
        omega
      obtain ⟨t, ht, hpt, hpost, hch⟩ := foldl_cancelAux_spec fuel e ih (s.nodes c.addr).children
        (mark s c.addr e) (mark_pre hp c.addr e)
        (fun ch h => by rw [mark_next]; exact (hp c.addr hc).2 ch h) hcard
      obtain ⟨h1, h2, h3⟩ := cancel_finish hp hc hact hpt hpost hch
      refine ⟨_, ?_, h1, h2, h3⟩
      rw [cancelAux_active fuel s c false e hact ho, ht]
      simp [Res.bind]
    · exact ⟨s, cancelAux_canceled fuel s c false e hact, hp, Post.refl_post e s, hact⟩

theorem Prune.refl_prune (s : State) : Prune s s where
  next_eq := rfl
  foreign_eq := rfl
  goroutines_eq := rfl
  timers_eq := rfl
  metrics_eq := rfl
  now_eq := rfl
  err_eq := fun _ => rfl
  timer_eq := fun _ => rfl
  children_sub := fun _ _ h => h
  done_step := fun _ => Or.inl ⟨rfl, rfl⟩
  closed_foreign := fun _ => rfl

theorem Prune.trans_prune {s t u : State} (h1 : Prune s t) (h2 : Prune t u) : Prune s u where
  next_eq := h2.next_eq.trans h1.next_eq
  foreign_eq := h2.foreign_eq.trans h1.foreign_eq
  goroutines_eq := h2.goroutines_eq.trans h1.goroutines_eq
  timers_eq := h2.timers_eq.trans h1.timers_eq
  metrics_eq := h2.metrics_eq.trans h1.metrics_eq
  now_eq := h2.now_eq.trans h1.now_eq
  err_eq := fun a => (h2.err_eq a).trans (h1.err_eq a)
  timer_eq := fun a => (h2.timer_eq a).trans (h1.timer_eq a)
  children_sub := fun a x h => h1.children_sub a x (h2.children_sub a x h)
  done_step := fun a => by
    rcases h1.done_step a with ⟨d1, c1⟩ | ⟨d1, m1, c1⟩
    · rcases h2.done_step a with ⟨d2, c2⟩ | ⟨d2, m2, c2⟩
      · exact Or.inl ⟨d2.trans d1, c2.trans c1⟩
      · exact Or.inr ⟨by rw [← d1]; exact d2, m2, c2⟩
    · rcases h2.done_step a with ⟨d2, c2⟩ | ⟨d2, m2, c2⟩
      · exact Or.inr ⟨d1, by rw [d2]; exact m1, by rw [c2]; exact c1⟩
      · rw [m1] at d2; exact absurd d2 (by decide)
  closed_foreign := fun h => (h2.closed_foreign h).trans (h1.closed_foreign h)

theorem Prune.doneClosed {s t : State} (h : Prune s t) {a : Nat} (hd : DoneClosed s a) :
    DoneClosed t a := by
  unfold DoneClosed at *
  rcases h.done_step a with ⟨d, c⟩ | ⟨d, _, _⟩
  · rw [d, c]; exact hd
  · rw [d] at hd; simp at hd

theorem Prune.doneOpen {s t : State} (h : Prune s t) {a : Nat} (hd : DoneOpen s a) :
    DoneOpen t a := by
  unfold DoneOpen at *
  rcases h.done_step a with ⟨d, c⟩ | ⟨_, m, c⟩
  · rw [d, c]; exact hd
  · exact Or.inr ⟨m, c⟩

theorem Prune.inv_prune {s t : State} (h : Prune s t) (hi : Inv s) : Inv t := by
  intro a ha
  rw [h.next_eq] at ha
  obtain ⟨h1, h2, h3⟩ := hi a ha
  refine ⟨?_, ?_, ?_⟩
  · intro hn
    exact h.doneOpen (h1 (by rw [← h.err_eq]; exact hn))
  · intro hn
    obtain ⟨hd, hc⟩ := h2 (by rw [← h.err_eq]; exact hn)
    refine ⟨h.doneClosed hd, ?_⟩
    apply List.eq_nil_iff_forall_not_mem.mpr
    intro x hx
    have := h.children_sub a x hx
    rw [hc] at this
    simp at this
  · intro ch hch
    rw [h.next_eq]
    exact h3 ch (h.children_sub a ch hch)

/-- The method `Done()` only makes channels. -/
theorem Done_prune (s : State) (c : Ctx) : Prune s (Done s c).1 := by
  induction c with
  | background => exact Prune.refl_prune s
  | foreign h parent _ => exact Prune.refl_prune s
  | valueCtx parent key val ih => simpa [Done] using ih
  | named a parent name key val start deadline _ =>
    unfold Done
    split
    next hnil =>
      refine
        { next_eq := rfl, foreign_eq := rfl, goroutines_eq := rfl, timers_eq := rfl,
          metrics_eq := rfl, now_eq := rfl, err_eq := ?_, timer_eq := ?_, children_sub := ?_,
          done_step := ?_, closed_foreign := ?_ }
      · intro b
        by_cases hb : b = a
        · subst hb; simp [State.setNode]
        · simp [State.setNode, hb]
      · intro b
        by_cases hb : b = a
        · subst hb; simp [State.setNode]
        · simp [State.setNode, hb]
      · intro b x hx
        by_cases hb : b = a
        · subst hb; simpa [State.setNode] using hx
        · simpa [State.setNode, hb] using hx
      · intro b
        by_cases hb : b = a
        · subst hb; right; simp [State.setNode, hnil]
        · left; simp [State.setNode, hb]
      · intro h; simp
    next => exact Prune.refl_prune s

/-- The channel `Done()` returns for a pointer to a struct is the one the struct holds
afterwards, and the struct holds one. -/
theorem Done_named (s : State) (c : canceler) :
    (Done s c.ctx).2 = ((Done s c.ctx).1.nodes c.addr).done.chan c.addr ∧
      ((Done s c.ctx).1.nodes c.addr).done ≠ DoneField.nil := by
  unfold canceler.ctx Done
  split
  next h => simp [State.setNode, DoneField.chan]
  next h => exact ⟨rfl, h⟩

/-- On a struct whose channel is closed, `Done()` changes nothing and returns a closed
channel. -/
theorem Done_of_doneClosed {s : State} {c : canceler} (h : DoneClosed s c.addr) :
    ∃ ch, Done s c.ctx = (s, some ch) ∧ s.chanClosed ch = true := by
  unfold canceler.ctx Done
  rcases h with h | ⟨h, hc⟩
  · exact ⟨Chan.closedchan, by simp [h, DoneField.chan], rfl⟩
  · exact ⟨Chan.ofNode c.addr, by simp [h, DoneField.chan], by simpa [State.chanClosed] using hc⟩

theorem parentNamedCtx_prune (s : State) (parent : Ctx) : Prune s (parentNamedCtx s parent).1 := by
  unfold parentNamedCtx
  simp only
  split
  · exact Done_prune s parent
  · split
    · split <;> exact Done_prune s parent
    · exact Done_prune s parent

theorem removeChild_prune (s : State) (parent : Ctx) (child : canceler) :
    Prune s (removeChild s parent child) := by
  unfold removeChild
  simp only
  split
  · exact parentNamedCtx_prune s parent
  · next p _ =>
    refine (parentNamedCtx_prune s parent).trans_prune ?_
    refine
      { next_eq := rfl, foreign_eq := rfl, goroutines_eq := rfl, timers_eq := rfl,
        metrics_eq := rfl, now_eq := rfl, err_eq := ?_, timer_eq := ?_, children_sub := ?_,
        done_step := ?_, closed_foreign := fun _ => rfl }
    · intro b
      by_cases hb : b = p
      · subst hb; simp
      · rw [setNode_nodes_ne _ _ hb]
    · intro b
      by_cases hb : b = p
      · subst hb; simp
      · rw [setNode_nodes_ne _ _ hb]
    · intro b x hx
      by_cases hb : b = p
      · subst hb
        simp only [setNode_nodes_self] at hx
        exact (List.mem_filter.mp hx).1
      · rw [setNode_nodes_ne _ _ hb] at hx; exact hx
    · intro b
      left
      by_cases hb : b = p
      · subst hb; simp
      · rw [setNode_nodes_ne _ _ hb]; simp

theorem Post.inv_post {e : GoError} {s t : State} (h : Post e s t) (hi : Inv s) (hp : Pre t) : Inv t := by
  intro a ha
  have has : a < s.next := by rw [← h.next_eq]; exact ha
  refine ⟨(hp a ha).1, ?_, (hp a ha).2⟩
  intro hn
  by_cases hs : (s.nodes a).err = none
  · rcases h.active_step a hs with hsame | ⟨_, hc, hd, _, _⟩
    · rw [hsame] at hn; exact absurd hs hn
    · exact ⟨hd, hc⟩
  · have hsame := h.canceled_same a hs
    obtain ⟨hd, hc⟩ := (hi a has).2.1 hs
    exact ⟨hd.of_same hsame h.closed_mono, by rw [hsame]; exact hc⟩

theorem Sprintf_namedErrFormat (name : String) :
    Sprintf namedErrFormat [FmtArg.s name] = "named context [" ++ name ++ "]" := by
  apply String.ext
  simp [Sprintf, namedErrFormat, sprintfChars, String.data_append]

theorem Sprintf_namedParentErrFormat (name : String) :
    Sprintf namedParentErrFormat [FmtArg.s name] = "named context [" ++ name ++ "] parent err" := by
  apply String.ext
  simp [Sprintf, namedParentErrFormat, sprintfChars, String.data_append]

theorem Sprintf_namedDeadlineExceededFormat (name : String) (n : Int) :
    Sprintf namedDeadlineExceededFormat [FmtArg.s name, FmtArg.d n] =
      "named context [" ++ name ++ "] deadline exceeded after [" ++ toString n ++ "ms]" := by
  apply String.ext
  simp [Sprintf, namedDeadlineExceededFormat, sprintfChars, String.data_append]

theorem wrapf_namedErr_Error (name : String) (e : GoError) :
    (GoError.wrapf (Sprintf namedErrFormat [FmtArg.s name]) e).Error =
      "named context [" ++ name ++ "]: " ++ e.Error := by
  rw [Sprintf_namedErrFormat]
  simp only [GoError.Error, String.append_assoc]
  rfl

theorem wrapf_namedParentErr_Error (name : String) (e : GoError) :
    (GoError.wrapf (Sprintf namedParentErrFormat [FmtArg.s name]) e).Error =
      "named context [" ++ name ++ "] parent err: " ++ e.Error := by
  rw [Sprintf_namedParentErrFormat]
  simp only [GoError.Error, String.append_assoc]
  rfl

/-- Asking for removal from the parent adds one call of `removeChild` at the end, and only
when the struct was active. -/
theorem cancelAux_true (fuel : Nat) (s : State) (c : canceler) (e : GoError) :
    cancelAux fuel s c true (some e) =
      if (s.nodes c.addr).err ≠ none then cancelAux fuel s c false (some e)
      else (cancelAux fuel s c false (some e)).bind
        fun t => Res.ok (removeChild t c.Context c.embedded) := by
  cases fuel with
  | zero => simp [cancelAux, Res.bind]
  | succ fuel =>
    by_cases h : (s.nodes c.addr).err = none
    · simp only [cancelAux, h, ne_eq, not_true_eq_false, if_false, if_true]
      generalize List.foldl _ _ _ = r3
      cases r3 <;> simp [Res.bind]
    · simp [cancelAux, h]

/-- The method `cancel` returns on a well-formed store: first the structs are canceled
(`Post`), then the parent may drop the entry (`Prune`). -/
theorem cancel_spec (e : GoError) (s : State) (c : canceler) (r : Bool)
    (hi : Inv s) (hc : c.addr < s.next) :
    ∃ m t, cancel s c r (some e) = Res.ok t ∧ Post e s m ∧ Inv m ∧ Prune m t ∧
      (m.nodes c.addr).err ≠ none ∧ ((s.nodes c.addr).err ≠ none → t = s) := by
  obtain ⟨m, hm, hpm, hpost, herr⟩ := cancelAux_spec e (s.next + 1) s c hi.pre hc
    (Nat.lt_succ_of_le (activeSet_card_le s))
  have him : Inv m := hpost.inv_post hi hpm
  by_cases hact : (s.nodes c.addr).err = none
  · cases r with
    | false =>
      exact ⟨m, m, hm, hpost, him, Prune.refl_prune m, herr, fun h => absurd hact h⟩
    | true =>
      refine ⟨m, removeChild m c.Context c.embedded, ?_, hpost, him, removeChild_prune _ _ _, herr,
        fun h => absurd hact h⟩
      unfold cancel
      rw [cancelAux_true, hm]
      simp [hact, Res.bind]
  · have hs : cancelAux (s.next + 1) s c false (some e) = Res.ok s :=
      cancelAux_canceled _ s c false e hact
    have hms : m = s := by
      rw [hs] at hm; injection hm with h; exact h.symm
    subst hms
    refine ⟨m, m, ?_, hpost, him, Prune.refl_prune m, herr, fun _ => rfl⟩
    unfold cancel
    cases r with
    | false => exact hs
    | true => rw [cancelAux_true]; simp [hact, hs]

/-- After the first phase of `cancel` on `c`, every struct reachable from `c` is allocated
and canceled. -/
theorem reach_canceled {e : GoError} {s m : State} {c : canceler} (hi : Inv s) (hc : c.addr < s.next)
    (hpost : Post e s m) (herr : (m.nodes c.addr).err ≠ none) :
    ∀ y, Reach s c y → y.addr < s.next ∧ (m.nodes y.addr).err ≠ none := by
  intro y hy
  induction hy with
  | self => exact ⟨hc, herr⟩
  | child hx hmem ih =>
    rename_i x y
    obtain ⟨hxn, hxe⟩ := ih
    refine ⟨(hi x.addr hxn).2.2 y hmem, ?_⟩
    by_cases hs : (s.nodes x.addr).err = none
    · rcases hpost.active_step x.addr hs with hsame | ⟨_, _, _, _, hch⟩
      · rw [hsame] at hxe; exact absurd hs hxe
      · exact hch y hmem
    · have := ((hi x.addr hxn).2.1 hs).2
      rw [this] at hmem
      simp at hmem

theorem Err_ctx (s : State) (c : canceler) : Err s c.ctx = (s.nodes c.addr).err := rfl

/-! ## Facts about the constructors and the goroutine -/

theorem incCancels_nodes (s : State) (l : String) : (incCancels s l).nodes = s.nodes := by
  unfold incCancels; split <;> rfl
theorem incCancels_next (s : State) (l : String) : (incCancels s l).next = s.next := by
  unfold incCancels; split <;> rfl
theorem incCancels_closed (s : State) (l : String) : (incCancels s l).closed = s.closed := by
  unfold incCancels; split <;> rfl
theorem incTimeouts_nodes (s : State) (l : String) : (incTimeouts s l).nodes = s.nodes := by
  unfold incTimeouts; split <;> rfl
theorem incTimeouts_next (s : State) (l : String) : (incTimeouts s l).next = s.next := by
  unfold incTimeouts; split <;> rfl
theorem incTimeouts_closed (s : State) (l : String) : (incTimeouts s l).closed = s.closed := by
  unfold incTimeouts; split <;> rfl

/-- The invariant only reads the structs, the allocation mark and the channels. -/
theorem Inv.congr_inv {s t : State} (hn : t.nodes = s.nodes) (hx : t.next = s.next)
    (hc : t.closed = s.closed) (hi : Inv s) : Inv t := by
  unfold Inv DoneOpen DoneClosed at *
  rw [hn, hx, hc]
  exact hi

theorem Reach.congr_reach {s t : State} (hn : t.nodes = s.nodes) {c y : canceler} (h : Reach s c y) :
    Reach t c y := by
  induction h with
  | self => exact Reach.self
  | child _ hmem ih => exact Reach.child ih (by rw [hn]; exact hmem)

/-- What `WithCancel` returns points to the struct it allocated, under the given name. -/
theorem WithCancel_ptr {s t : State} {parent : Ctx} {name : String} {c : canceler}
    (h : WithCancel s parent name = Res.ok (t, c)) : c = (Context s parent name).2 := by
  unfold WithCancel at h
  simp only at h
  cases hp : propagateCancel (Context s parent name).1 parent (Context s parent name).2 with
  | ok u => rw [hp] at h; simp only [Res.bind] at h; injection h with h; exact (Prod.mk.inj h).2.symm
  | panic msg => rw [hp] at h; simp [Res.bind] at h
  | diverge => rw [hp] at h; simp [Res.bind] at h

theorem WithCancel_name {s t : State} {parent : Ctx} {name : String} {c : canceler}
    (h : WithCancel s parent name = Res.ok (t, c)) : c.name = name := by
  rw [WithCancel_ptr h]; rfl

/-- An explicit cancel: the call returns; seen from `s0`, which is `s` up to the metrics,
the first phase of `cancel` gives `m` and the removal from the parent gives `t`. -/
theorem CancelFunc_spec (s : State) (c : canceler) (e : GoError) (hi : Inv s) (hc : c.addr < s.next) :
    ∃ s0 m t, CancelFunc s c (some e) = Res.ok t ∧
      s0.nodes = s.nodes ∧ s0.next = s.next ∧ s0.closed = s.closed ∧
      Post (GoError.wrapf (Sprintf namedErrFormat [FmtArg.s c.name]) e) s0 m ∧
      Inv m ∧ Prune m t ∧ (m.nodes c.addr).err ≠ none := by
  unfold CancelFunc
  simp only [Wrapf]
  split
  · obtain ⟨m, t, h1, h2, h3, h4, h5, _⟩ :=
      cancel_spec (GoError.wrapf (Sprintf namedErrFormat [FmtArg.s c.name]) e) (incCancels s c.name) c true
        (hi.congr_inv (incCancels_nodes s _) (incCancels_next s _) (incCancels_closed s _))
        (by rw [incCancels_next]; exact hc)
    exact ⟨_, m, t, h1, incCancels_nodes s _, incCancels_next s _, incCancels_closed s _, h2, h3, h4, h5⟩
  · obtain ⟨m, t, h1, h2, h3, h4, h5, _⟩ :=
      cancel_spec (GoError.wrapf (Sprintf namedErrFormat [FmtArg.s c.name]) e) s c true hi hc
    exact ⟨s, m, t, h1, rfl, rfl, rfl, h2, h3, h4, h5⟩

/-- A struct that was active and is canceled after a call of `cancel` has the cause of
that call. -/
theorem Post.err_of_active {e : GoError} {s m : State} (h : Post e s m) {a : Nat}
    (hs : (s.nodes a).err = none) (hm : (m.nodes a).err ≠ none) : (m.nodes a).err = some e := by
  rcases h.active_step a hs with hsame | ⟨he, _⟩
  · rw [hsame] at hm; exact absurd hs hm
  · exact he

/-- A call of `cancel` on an active struct of a well-formed store returns and leaves the
struct canceled with the cause given, its channel closed, in a well-formed store. -/
theorem cancel_active (s : State) (c : canceler) (r : Bool) (e : GoError)
    (hi : Inv s) (hc : c.addr < s.next) (hact : (s.nodes c.addr).err = none) :
    ∃ t, cancel s c r (some e) = Res.ok t ∧ (t.nodes c.addr).err = some e ∧
      DoneClosed t c.addr ∧ Inv t ∧ t.foreign = s.foreign ∧ t.next = s.next := by
  obtain ⟨m, t, ht, hpost, him, hprune, herr, _⟩ := cancel_spec e s c r hi hc
  refine ⟨t, ht, ?_, ?_, hprune.inv_prune him, by rw [hprune.foreign_eq, hpost.foreign_eq],
    by rw [hprune.next_eq, hpost.next_eq]⟩
  · rw [hprune.err_eq]; exact hpost.err_of_active hact herr
  · exact hprune.doneClosed ((him c.addr (by rw [hpost.next_eq]; exact hc)).2.1 herr).1

theorem Context_inv {s : State} (hi : Inv s) (parent : Ctx) (name : String) :
    Inv (Context s parent name).1 := by
  intro a ha
  simp only [Context] at ha ⊢
  by_cases h : a = s.next
  · subst h
    simp [State.setNode, DoneOpen, Node.zero]
  · have hlt : a < s.next := by omega
    obtain ⟨h1, h2, h3⟩ := hi a hlt
    simp only [State.setNode, DoneOpen, DoneClosed, h, if_false] at *
    exact ⟨h1, h2, fun ch hch => Nat.lt_succ_of_lt (h3 ch hch)⟩

theorem Context_nodes_lt (s : State) (parent : Ctx) (name : String) {a : Nat} (h : a < s.next) :
    (Context s parent name).1.nodes a = s.nodes a := by
  simp [Context, State.setNode, Nat.ne_of_lt h]

theorem Context_fresh (s : State) (parent : Ctx) (name : String) :
    (Context s parent name).1.nodes (Context s parent name).2.addr = Node.zero := by
  simp [Context, State.setNode]

theorem Done_namedBehind {s : State} {parent : Ctx} {a : Nat} (h : namedBehind parent = some a)
    (hd : DoneClosed s a) : ∃ ch, Done s parent = (s, some ch) ∧ s.chanClosed ch = true := by
  induction parent with
  | background => simp [namedBehind] at h
  | foreign _ _ _ => simp [namedBehind] at h
  | valueCtx parent key val ih => simpa [Done] using ih (by simpa [namedBehind] using h)
  | named b parent name key val start deadline _ =>
    simp only [namedBehind, Option.some.injEq] at h
    subst h
    exact @Done_of_doneClosed s ⟨b, parent, name, key, val, start, deadline⟩ hd

theorem Err_namedBehind {s : State} {parent : Ctx} {a : Nat} (h : namedBehind parent = some a) :
    Err s parent = (s.nodes a).err := by
  induction parent with
  | background => simp [namedBehind] at h
  | foreign _ _ _ => simp [namedBehind] at h
  | valueCtx parent key val ih => simpa [Err] using ih (by simpa [namedBehind] using h)
  | named b parent name key val start deadline _ =>
    simp only [namedBehind, Option.some.injEq] at h
    subst h
    rfl

theorem Done_foreignHandle {s : State} {parent : Ctx} {h : Nat} (hf : foreignHandle parent = some h) :
    Done s parent = (s, if (s.foreign h).cancelable then some (Chan.ofForeign h) else none) := by
  induction parent with
  | background => simp [foreignHandle] at hf
  | foreign _ _ _ =>
    simp only [foreignHandle, Option.some.injEq] at hf
    subst hf
    rfl
  | valueCtx parent key val ih => simpa [Done] using ih (by simpa [foreignHandle] using hf)
  | named _ _ _ _ _ _ _ _ => simp [foreignHandle] at hf

theorem Err_foreignHandle {s : State} {parent : Ctx} {h : Nat} (hf : foreignHandle parent = some h) :
    Err s parent = (s.foreign h).err := by
  induction parent with
  | background => simp [foreignHandle] at hf
  | foreign _ _ _ =>
    simp only [foreignHandle, Option.some.injEq] at hf
    subst hf
    rfl
  | valueCtx parent key val ih => simpa [Err] using ih (by simpa [foreignHandle] using hf)
  | named _ _ _ _ _ _ _ _ => simp [foreignHandle] at hf

theorem chan_ne_ofForeign (a : Nat) (d : DoneField) (h : Nat) : d.chan a ≠ some (Chan.ofForeign h) := by
  cases d <;> simp [DoneField.chan]

/-- A context that answers with a foreign handle is never recognised as a struct of this
package: no struct holds the channel of a foreign context. -/
theorem parentNamedCtx_foreign {s : State} {parent : Ctx} {h : Nat}
    (hf : foreignHandle parent = some h) : parentNamedCtx s parent = (s, none) := by
  unfold parentNamedCtx
  simp only [Done_foreignHandle hf]
  by_cases hcan : (s.foreign h).cancelable = true
  · simp only [hcan, if_true]
    rw [if_neg (by simp)]
    split
    · simp [chan_ne_ofForeign]
    · rfl
  · simp [hcan]

theorem decGorutines_nodes (s : State) : (decGorutines s).nodes = s.nodes := by
  unfold decGorutines; split <;> rfl

theorem incGorutines_goroutines (s : State) : (incGorutines s).goroutines = s.goroutines := by
  unfold incGorutines; split <;> rfl

/-- Under an active foreign parent `propagateCancel` starts a goroutine. -/
theorem propagateCancel_foreign {s : State} {parent : Ctx} {h : Nat} (child : canceler)
    (hf : foreignHandle parent = some h) (hcan : (s.foreign h).cancelable = true)
    (hopen : s.closed (Chan.ofForeign h) = false) :
    propagateCancel s parent child =
      Res.ok { incGorutines s with goroutines := (parent, child) :: (incGorutines s).goroutines } := by
  unfold propagateCancel
  simp only [Done_foreignHandle hf, hcan, if_true, State.chanClosed, hopen, parentNamedCtx_foreign hf]
  simp

/-- The goroutine of an active struct under a foreign parent that has been canceled with
cause `p`: it cancels the struct with `p` wrapped under the parent-error format. -/
theorem goroutine_parent_fires {t : State} {parent : Ctx} {h : Nat} (c : canceler) (p : GoError)
    (coin : Bool) (hf : foreignHandle parent = some h) (hi : Inv t) (hc : c.addr < t.next)
    (hact : (t.nodes c.addr).err = none) (hcan : (t.foreign h).cancelable = true)
    (hclosed : t.closed (Chan.ofForeign h) = true) (herr : (t.foreign h).err = some p) :
    ∃ u, goroutine t parent c coin = Res.ok u ∧
      (u.nodes c.addr).err =
        some (GoError.wrapf (Sprintf namedParentErrFormat [FmtArg.s c.name]) p) ∧
      DoneClosed u c.addr := by
  have hr : Done t parent = (t, some (Chan.ofForeign h)) := by
    rw [Done_foreignHandle hf, hcan]; rfl
  have hq := Done_prune t c.ctx
  obtain ⟨hq2, hqn⟩ := Done_named t c
  generalize hqe : Done t c.ctx = q at hq hq2 hqn
  obtain ⟨t2, ch2⟩ := q
  simp only at hq hq2 hqn
  have hi2 : Inv t2 := hq.inv_prune hi
  have hc2 : c.addr < t2.next := by rw [hq.next_eq]; exact hc
  have hact2 : (t2.nodes c.addr).err = none := by rw [hq.err_eq]; exact hact
  have hopen : (t2.nodes c.addr).done = DoneField.made ∧ t2.closed (Chan.ofNode c.addr) = false := by
    rcases (hi2 c.addr hc2).1 hact2 with h1 | h1
    · exact absurd h1 hqn
    · exact h1
  have hch2 : ch2 = some (Chan.ofNode c.addr) := by rw [hq2, hopen.1]; rfl
  have hpar : t2.closed (Chan.ofForeign h) = true := by rw [hq.closed_foreign]; exact hclosed
  have herr2 : Err t2 parent = some p := by rw [Err_foreignHandle hf, hq.foreign_eq]; exact herr
  obtain ⟨u, hu, hue, hud, _⟩ := cancel_active t2 c false
    (GoError.wrapf (Sprintf namedParentErrFormat [FmtArg.s c.name]) p) hi2 hc2 hact2
  refine ⟨decGorutines { u with goroutines := u.goroutines.erase (parent, c) }, ?_, ?_, ?_⟩
  · unfold goroutine
    simp only [hr, hqe, hch2, State.chanClosed, hpar, hopen.2, herr2, Wrapf, canceler.String]
    simp [hu, Res.bind]
  · rw [decGorutines_nodes]; exact hue
  · unfold DoneClosed at *
    rw [decGorutines_nodes]
    unfold decGorutines
    split <;> exact hud

/-- The message `fmt.Errorf` gives under the deadline format: the unit is inside the
brackets. -/
theorem Errorf_deadline_Error (name : String) (n : Int) :
    (Errorf namedDeadlineExceededFormat [FmtArg.s name, FmtArg.d n]).Error =
      "named context [" ++ name ++ "] deadline exceeded after [" ++ toString n ++ "ms]" := by
  simp only [Errorf, GoError.Error, Sprintf_namedDeadlineExceededFormat]

/-- If every entry of every children set is an allocated, active struct, then all that is
reachable from an active struct is active. -/
theorem reach_active {s : State} {A : canceler} (hact : (s.nodes A.addr).err = none)
    (hch : ∀ a, a < s.next → ∀ y ∈ (s.nodes a).children,
      y.addr < s.next ∧ (s.nodes y.addr).err = none)
    (hA : A.addr < s.next) : ∀ y, Reach s A y → (s.nodes y.addr).err = none := by
  intro y hy
  have : y.addr < s.next ∧ (s.nodes y.addr).err = none := by
    induction hy with
    | self => exact ⟨hA, hact⟩
    | child _ hmem ih => exact hch _ ih.1 _ hmem
  exact this.2

/-! ## The claims -/

/-- C1. First writer wins: once a struct has been canceled with cause `e1`, a later
trigger with a cause `e2` is a no-op. The method `cancel` (as called by the fan-out of a
parent or by a bridging goroutine, with or without removal from the parent), the cancel
functions returned by `WithCancel` and `WithDeadline`, and the timer function all return
the store they were given, so `Err()` still returns `e1` and the channel, the children
set, every other struct and the metrics are as before. -/
theorem first_writer_wins (s : State) (c : canceler) (e1 e2 : GoError) (r : Bool)
    (h : (s.nodes c.addr).err = some e1) :
    cancel s c r (some e2) = Res.ok s ∧
    CancelFunc s c (some e2) = Res.ok s ∧
    DeadlineCancelFunc s c (some e2) = Res.ok s ∧
    timerFunc s c = Res.ok s ∧
    Err s c.ctx = some e1 := by
  have hne : (s.nodes c.addr).err ≠ none := by rw [h]; simp
  have hcancel : ∀ (b : Bool) (e : GoError), cancel s c b (some e) = Res.ok s := by
    intro b e
    unfold cancel
    exact cancelAux_canceled _ s c b e hne
  refine ⟨hcancel r e2, ?_, ?_, ?_, h⟩
  · unfold CancelFunc
    simp only [hne, if_false, Wrapf]
    exact hcancel _ _
  · unfold DeadlineCancelFunc
    simp only [Wrapf]
    exact hcancel _ _
  · unfold timerFunc
    simp only [hne, if_false]
    exact hcancel _ _

/-- C1, at a concrete store: the hypotheses hold there and the theorem applies. -/
theorem first_writer_wins_witness :
    (simpleUseCanceled.nodes simpleUse.2.addr).err =
        some (GoError.wrapf "named context [test 1]" myError) ∧
      (cancel simpleUseCanceled simpleUse.2 true (some (GoError.errorf "late")) =
          Res.ok simpleUseCanceled ∧
        CancelFunc simpleUseCanceled simpleUse.2 (some (GoError.errorf "late")) =
          Res.ok simpleUseCanceled ∧
        DeadlineCancelFunc simpleUseCanceled simpleUse.2 (some (GoError.errorf "late")) =
          Res.ok simpleUseCanceled ∧
        timerFunc simpleUseCanceled simpleUse.2 = Res.ok simpleUseCanceled ∧
        Err simpleUseCanceled simpleUse.2.ctx =
          some (GoError.wrapf "named context [test 1]" myError)) :=
  ⟨by decide, first_writer_wins simpleUseCanceled simpleUse.2 _ (GoError.errorf "late") true (by decide)⟩

/-- C2. Fan-out is complete and synchronous: on a well-formed store, `cancel` on an
allocated struct `c` with a non-nil cause returns, and in the store it returns every
struct reachable from `c` through children sets has a non-nil `Err()` and a `Done()`
channel that is closed. -/
theorem fanout_complete (s : State) (c : canceler) (e : GoError) (r : Bool)
    (hi : Inv s) (hc : c.addr < s.next) :
    ∃ t, cancel s c r (some e) = Res.ok t ∧
      ∀ y, Reach s c y →
        Err t y.ctx ≠ none ∧ ∃ ch, Done t y.ctx = (t, some ch) ∧ t.chanClosed ch = true := by
  obtain ⟨m, t, ht, hpost, him, hprune, herr, _⟩ := cancel_spec e s c r hi hc
  refine ⟨t, ht, ?_⟩
  intro y hy
  obtain ⟨hyn, hye⟩ := reach_canceled hi hc hpost herr y hy
  have hyt : (t.nodes y.addr).err ≠ none := by rw [hprune.err_eq]; exact hye
  refine ⟨hyt, ?_⟩
  have hd : DoneClosed m y.addr := ((him y.addr (by rw [hpost.next_eq]; exact hyn)).2.1 hye).1
  exact Done_of_doneClosed (hprune.doneClosed hd)

/-- C2, at a concrete store: the hypotheses hold there and the theorem applies. -/
theorem fanout_complete_witness :
    Inv chain.1 ∧ chainCtx1.addr < chain.1.next ∧
      ∃ t, cancel chain.1 chainCtx1 true (some myError) = Res.ok t ∧
        ∀ y, Reach chain.1 chainCtx1 y →
          Err t y.ctx ≠ none ∧ ∃ ch, Done t y.ctx = (t, some ch) ∧ t.chanClosed ch = true :=
  ⟨by decide, by decide, fanout_complete chain.1 chainCtx1 myError true (by decide) (by decide)⟩

/-- The part of C3 the code satisfies. Let `A` be made by `WithCancel(parent, name)`. When,
in a later well-formed store, the cancel function of `A` is called with cause `e`, it
returns, and every struct reachable from `A` through children sets that was active at the
call has the very cause `A` has, with the message `named context [<name>]: <e.Error()>`. -/
theorem leaf_names_failed_node (s0 s1 s : State) (parent : Ctx) (name : String) (A : canceler)
    (e : GoError) (hw : WithCancel s0 parent name = Res.ok (s1, A))
    (hi : Inv s) (hc : A.addr < s.next) :
    ∃ t, CancelFunc s A (some e) = Res.ok t ∧
      ∀ y, Reach s A y → (s.nodes y.addr).err = none →
        Err t y.ctx = Err t A.ctx ∧
        (Err t y.ctx).map GoError.Error = some ("named context [" ++ name ++ "]: " ++ e.Error) := by
  obtain ⟨u, m, t, ht, hn, hx, hcl, hpost, him, hprune, herr⟩ := CancelFunc_spec s A e hi hc
  have hiu : Inv u := hi.congr_inv hn hx hcl
  have hname : A.name = name := WithCancel_name hw
  refine ⟨t, ht, ?_⟩
  have key : ∀ y, Reach s A y → (s.nodes y.addr).err = none →
      (t.nodes y.addr).err = some (GoError.wrapf (Sprintf namedErrFormat [FmtArg.s A.name]) e) := by
    intro y hy hact
    have hyu : Reach u A y := hy.congr_reach hn
    obtain ⟨_, hye⟩ := reach_canceled hiu (by rw [hx]; exact hc) hpost herr y hyu
    rw [hprune.err_eq]
    exact hpost.err_of_active (by rw [hn]; exact hact) hye
  have hroot : ∀ y, Reach s A y → (s.nodes y.addr).err = none → (s.nodes A.addr).err = none := by
    intro y hy hact
    by_contra hA
    have hnil : (s.nodes A.addr).children = [] := ((hi A.addr hc).2.1 hA).2
    have hyA : y = A := by
      clear hact
      induction hy with
      | self => rfl
      | child _ hmem ih =>
        rw [ih, hnil] at hmem
        simp at hmem
    rw [hyA] at hact
    exact hA hact
  intro y hy hact
  rw [Err_ctx, Err_ctx, key y hy hact, key A Reach.self (hroot y hy hact)]
  refine ⟨rfl, ?_⟩
  rw [Option.map_some', wrapf_namedErr_Error, hname]

/-- The test "named chain": the leaf `el 2` is reachable from `el 1` and active, and gets
the cause of `el 1`. -/
theorem leaf_names_failed_node_witness :
    Inv chain.1 ∧ chainCtx1.addr < chain.1.next ∧ Reach chain.1 chainCtx1 chain.2 ∧
      (chain.1.nodes chain.2.addr).err = none ∧
      ∃ t, CancelFunc chain.1 chainCtx1 (some myError) = Res.ok t ∧
        ∀ y, Reach chain.1 chainCtx1 y → (chain.1.nodes y.addr).err = none →
          Err t y.ctx = Err t chainCtx1.ctx ∧
          (Err t y.ctx).map GoError.Error = some ("named context [" ++ "el 1" ++ "]: " ++ myError.Error) :=
  ⟨by decide, by decide, Reach.child Reach.self (by decide), by decide,
    leaf_names_failed_node State.init ((WithCancel State.init Ctx.background "el 1").getD noResult).1
      chain.1 Ctx.background "el 1" chainCtx1 myError rfl (by decide) (by decide)⟩

/-- C3, at the failing input: `A` is made by `WithCancel(Background(), "A")` and the
deadline node `c` by `WithDeadline(A, d, "c")`, which registers `c` in the children set of
`A`. After the cancel function of `c` is called with "my error", `c` is canceled but still
an entry of the children set of the active `A`, because `removeChild` is handed another
pointer than the one registered. When `A` is then canceled through its cancel function with
"boom", the tracked descendant `c` does not name `A`: it keeps
`named context [c]: my error`, where `A` has `named context [A]: boom`. The node `B` made
by `WithCancel(A, "B")`, tracked and active when `A` is canceled, does get the cause of `A`. -/
theorem dead_entry_keeps_cause :
    Err deadlineUnderACanceled nodeA.2.ctx = none ∧
    (deadlineUnderACanceled.nodes nodeA.2.addr).children = [deadlineUnderA.2] ∧
    (Err deadlineUnderACanceled deadlineUnderA.2.ctx).map GoError.Error =
      some "named context [c]: my error" ∧
    (Err deadEntryCanceled nodeA.2.ctx).map GoError.Error = some "named context [A]: boom" ∧
    (Err deadEntryCanceled deadlineUnderA.2.ctx).map GoError.Error =
      some "named context [c]: my error" ∧
    Err deadEntryCanceled deadlineUnderA.2.ctx ≠ Err deadEntryCanceled nodeA.2.ctx ∧
    (nodeAB.1.nodes nodeA.2.addr).children = [nodeAB.2] ∧
    Err nodeABCanceled nodeAB.2.ctx = Err nodeABCanceled nodeA.2.ctx ∧
    (Err nodeABCanceled nodeAB.2.ctx).map GoError.Error = some "named context [A]: boom" := by
  decide

/-- C4. Explicit-cancel message: let `c` be made by `WithCancel(parent, name)` and be
active in a later well-formed store. Calling its cancel function with a non-nil error `e`
returns, and afterwards `Err().Error()` is `named context [<name>]: <e.Error()>`. -/
theorem explicit_cancel_message (s0 s1 s : State) (parent : Ctx) (name : String) (c : canceler)
    (e : GoError) (hw : WithCancel s0 parent name = Res.ok (s1, c))
    (hi : Inv s) (hc : c.addr < s.next) (hact : (s.nodes c.addr).err = none) :
    ∃ t, CancelFunc s c (some e) = Res.ok t ∧
      (Err t c.ctx).map GoError.Error = some ("named context [" ++ name ++ "]: " ++ e.Error) := by
  obtain ⟨u, m, t, ht, hn, hx, hcl, hpost, him, hprune, herr⟩ := CancelFunc_spec s c e hi hc
  refine ⟨t, ht, ?_⟩
  rw [Err_ctx, hprune.err_eq, hpost.err_of_active (by rw [hn]; exact hact) herr,
    Option.map_some', wrapf_namedErr_Error, WithCancel_name hw]

/-- C4, at a concrete store: the hypotheses hold there and the theorem applies. -/
theorem explicit_cancel_message_witness :
    Inv simpleUse.1 ∧ (simpleUse.1.nodes simpleUse.2.addr).err = none ∧
      ∃ t, CancelFunc simpleUse.1 simpleUse.2 (some myError) = Res.ok t ∧
        (Err t simpleUse.2.ctx).map GoError.Error =
          some ("named context [" ++ "test 1" ++ "]: " ++ myError.Error) :=
  ⟨by decide, by decide,
    explicit_cancel_message State.init simpleUse.1 simpleUse.1 Ctx.background "test 1" simpleUse.2
      myError rfl (by decide) (by decide) (by decide)⟩

/-- C5. Foreign-parent propagation: let `c` be made by `WithCancel(parent, name)` over a
parent that answers with a foreign cancellable context whose channel is open. Then a
bridging goroutine for `(parent, c)` has been started; and when, in a later well-formed
store `t`, the parent has been canceled with cause `p` while `c` is still active, the
goroutine returns and leaves `c` canceled, its channel closed, with
`Err().Error()` equal to `named context [<name>] parent err: <p.Error()>`. -/
theorem foreign_parent_propagation (s s1 t : State) (parent : Ctx) (name : String) (h : Nat)
    (c : canceler) (p : GoError) (coin : Bool)
    (hf : foreignHandle parent = some h) (hcan : (s.foreign h).cancelable = true)
    (hopen : s.closed (Chan.ofForeign h) = false)
    (hw : WithCancel s parent name = Res.ok (s1, c))
    (hi : Inv t) (hc : c.addr < t.next) (hact : (t.nodes c.addr).err = none)
    (hcant : (t.foreign h).cancelable = true) (hclosed : t.closed (Chan.ofForeign h) = true)
    (herr : (t.foreign h).err = some p) :
    (parent, c) ∈ s1.goroutines ∧
    ∃ u, goroutine t parent c coin = Res.ok u ∧
      (Err u c.ctx).map GoError.Error =
        some ("named context [" ++ name ++ "] parent err: " ++ p.Error) ∧
      ∃ ch, Done u c.ctx = (u, some ch) ∧ u.chanClosed ch = true := by
  constructor
  · have hp := @propagateCancel_foreign (Context s parent name).1 parent h (Context s parent name).2 hf
      (by simpa [Context] using hcan) (by simpa [Context] using hopen)
    unfold WithCancel at hw
    simp only [hp, Res.bind] at hw
    injection hw with hw
    obtain ⟨h1, h2⟩ := Prod.mk.inj hw
    rw [← h1, ← h2]
    simp
  · obtain ⟨u, hu, hue, hud⟩ := goroutine_parent_fires c p coin hf hi hc hact hcant hclosed herr
    refine ⟨u, hu, ?_, Done_of_doneClosed hud⟩
    rw [Err_ctx, hue, Option.map_some', wrapf_namedParentErr_Error, WithCancel_name hw]

/-- C5, at a concrete store: the hypotheses hold there and the theorem applies. -/
theorem foreign_parent_propagation_witness :
    Inv combinedCanceled ∧ (combinedCanceled.nodes combined.2.addr).err = none ∧
      (combinedCanceled.foreign 0).err = some Canceled ∧
      ((combinedCtx2, combined.2) ∈ combined.1.goroutines ∧
        ∃ u, goroutine combinedCanceled combinedCtx2 combined.2 false = Res.ok u ∧
          (Err u combined.2.ctx).map GoError.Error =
            some ("named context [" ++ "named" ++ "] parent err: " ++ Canceled.Error) ∧
          ∃ ch, Done u combined.2.ctx = (u, some ch) ∧ u.chanClosed ch = true) :=
  ⟨by decide, by decide, by decide,
    foreign_parent_propagation (foreignNew State.init 0) combined.1 combinedCanceled combinedCtx2
      "named" 0 combined.2 Canceled false rfl (by decide) (by decide) rfl (by decide) (by decide)
      (by decide) (by decide) (by decide) (by decide)⟩

/-- C6, the claim as stated fails: the timer function of the node `child`, fired 12 ms
after its start, leaves the message `... deadline exceeded after [12ms]`, not
`... deadline exceeded after [12]ms`. -/
theorem deadline_message_counterexample :
    ((timerFunc deadlineChildDue deadlineChild.2).getD State.init |>.nodes deadlineChild.2.addr).err.map
        GoError.Error = some "named context [child] deadline exceeded after [12ms]" ∧
    ((timerFunc deadlineChildDue deadlineChild.2).getD State.init |>.nodes deadlineChild.2.addr).err.map
        GoError.Error ≠ some "named context [child] deadline exceeded after [12]ms" := by
  decide

/-- C6, as the code has it. Deadline-exceeded message format: for every name and every
count `n` of milliseconds the cause made under the deadline format has the message
`named context [<name>] deadline exceeded after [<n>ms]`, the unit inside the brackets; and
when the timer of an active deadline node fires in a well-formed store, the timer function
returns and leaves the node with that message, `n` being the milliseconds since `start`. -/
theorem deadline_message (s : State) (c : canceler) (hi : Inv s) (hc : c.addr < s.next)
    (hact : (s.nodes c.addr).err = none) :
    (∀ (name : String) (n : Int),
      (Errorf namedDeadlineExceededFormat [FmtArg.s name, FmtArg.d n]).Error =
        "named context [" ++ name ++ "] deadline exceeded after [" ++ toString n ++ "ms]") ∧
    ∃ t, timerFunc s c = Res.ok t ∧
      (Err t c.ctx).map GoError.Error =
        some ("named context [" ++ c.name ++ "] deadline exceeded after [" ++
          toString (Milliseconds (s.now - c.start)) ++ "ms]") := by
  refine ⟨Errorf_deadline_Error, ?_⟩
  unfold timerFunc
  simp only [hact, if_true]
  obtain ⟨t, ht, hte, _⟩ := cancel_active (incTimeouts s c.name) c true
    (Errorf namedDeadlineExceededFormat [FmtArg.s c.name, FmtArg.d (Milliseconds (s.now - c.start))])
    (hi.congr_inv (incTimeouts_nodes s _) (incTimeouts_next s _) (incTimeouts_closed s _))
    (by rw [incTimeouts_next]; exact hc) (by rw [incTimeouts_nodes]; exact hact)
  exact ⟨t, ht, by rw [Err_ctx, hte, Option.map_some', Errorf_deadline_Error]⟩

/-- C6, at a concrete store: the hypotheses hold there and the theorem applies. -/
theorem deadline_message_witness :
    Inv deadlineChildDue ∧ (deadlineChildDue.nodes deadlineChild.2.addr).err = none ∧
      ((∀ (name : String) (n : Int),
        (Errorf namedDeadlineExceededFormat [FmtArg.s name, FmtArg.d n]).Error =
          "named context [" ++ name ++ "] deadline exceeded after [" ++ toString n ++ "ms]") ∧
      ∃ t, timerFunc deadlineChildDue deadlineChild.2 = Res.ok t ∧
        (Err t deadlineChild.2.ctx).map GoError.Error =
          some ("named context [" ++ deadlineChild.2.name ++ "] deadline exceeded after [" ++
            toString (Milliseconds (deadlineChildDue.now - deadlineChild.2.start)) ++ "ms]")) :=
  ⟨by decide, by decide,
    deadline_message deadlineChildDue deadlineChild.2 (by decide) (by decide) (by decide)⟩

/-- C7, what the code does. A nil error given to the cancel function returned by
`WithCancel` or by `WithDeadline` reaches `cancel` as nil, because `errors.Wrapf` of nil is
nil, and `cancel` panics, whatever the store and the node. -/
theorem nil_cause_panics (s : State) (c : canceler) :
    CancelFunc s c none = Res.panic "context: internal error: missing cancel error" ∧
    DeadlineCancelFunc s c none = Res.panic "context: internal error: missing cancel error" := by
  constructor <;> simp [CancelFunc, DeadlineCancelFunc, Wrapf, cancel, cancelAux]

/-- C8, the claim as stated fails: a node made by `WithCancel(parent, "child")` over the
node `test 1`, canceled with "my error", has the message of the parent,
`named context [test 1]: my error`, without `named context [child] parent err: `. -/
theorem canceled_parent_counterexample :
    Err simpleUseCanceled simpleUse.2.ctx = some (GoError.wrapf "named context [test 1]" myError) ∧
    (Err lateChild.1 lateChild.2.ctx).map GoError.Error = some "named context [test 1]: my error" ∧
    (Err lateChild.1 lateChild.2.ctx).map GoError.Error ≠
      some ("named context [" ++ "child" ++ "] parent err: " ++
        (GoError.wrapf "named context [test 1]" myError).Error) := by
  decide

/-- C8, as the code has it. Already-canceled named parent: when the parent answers with a
struct of this package (directly or through `valueCtx` wrappers) that is canceled with
cause `p`, `WithCancel(parent, childName)` returns a node that is canceled already, its
channel closed, and whose `Err()` is the parent's `Err()`, the cause `p` itself, with the
message `p.Error()`: nothing is added to it. -/
theorem canceled_parent_cause (s : State) (parent : Ctx) (childName : String) (a : Nat) (p : GoError)
    (hi : Inv s) (hb : namedBehind parent = some a) (ha : a < s.next)
    (hp : (s.nodes a).err = some p) :
    ∃ t c, WithCancel s parent childName = Res.ok (t, c) ∧ c.name = childName ∧
      Err t c.ctx = some p ∧ Err t parent = some p ∧
      (Err t c.ctx).map GoError.Error = some p.Error ∧
      ∃ ch, Done t c.ctx = (t, some ch) ∧ t.chanClosed ch = true := by
  have hi1 : Inv (Context s parent childName).1 := Context_inv hi parent childName
  have hna : (Context s parent childName).1.nodes a = s.nodes a := Context_nodes_lt s parent childName ha
  have hane : ((Context s parent childName).1.nodes a).err ≠ none := by rw [hna, hp]; simp
  have hca : a < (Context s parent childName).1.next := Nat.lt_succ_of_lt ha
  have hc : (Context s parent childName).2.addr < (Context s parent childName).1.next := by
    simp [Context]
  have hfresh : ((Context s parent childName).1.nodes (Context s parent childName).2.addr).err = none := by
    rw [Context_fresh]; rfl
  obtain ⟨ch, hdone, hclosed⟩ := Done_namedBehind hb ((hi1 a hca).2.1 hane).1
  have herr : Err (Context s parent childName).1 parent = some p := by
    rw [Err_namedBehind hb, hna, hp]
  obtain ⟨m, t, ht, hpost, him, hprune, hmerr, _⟩ :=
    cancel_spec p (Context s parent childName).1 (Context s parent childName).2 false hi1 hc
  have hpc : propagateCancel (Context s parent childName).1 parent (Context s parent childName).2
      = Res.ok t := by
    unfold propagateCancel
    simp only [hdone, hclosed, if_true, herr]
    exact ht
  have hce : (t.nodes (Context s parent childName).2.addr).err = some p := by
    rw [hprune.err_eq]; exact hpost.err_of_active hfresh hmerr
  refine ⟨t, (Context s parent childName).2, ?_, rfl, hce, ?_, ?_, ?_⟩
  · unfold WithCancel
    simp only [hpc, Res.bind]
  · rw [Err_namedBehind hb, hprune.err_eq, hpost.canceled_same a hane, hna, hp]
  · rw [Err_ctx, hce]; rfl
  · exact Done_of_doneClosed (hprune.doneClosed
      ((him _ (by rw [hpost.next_eq]; exact hc)).2.1 hmerr).1)

/-- C8, at a concrete store: the hypotheses hold there and the theorem applies. -/
theorem canceled_parent_cause_witness :
    Inv simpleUseCanceled ∧
      (simpleUseCanceled.nodes 0).err = some (GoError.wrapf "named context [test 1]" myError) ∧
      ∃ t c, WithCancel simpleUseCanceled simpleUse.2.ctx "child" = Res.ok (t, c) ∧ c.name = "child" ∧
        Err t c.ctx = some (GoError.wrapf "named context [test 1]" myError) ∧
        Err t simpleUse.2.ctx = some (GoError.wrapf "named context [test 1]" myError) ∧
        (Err t c.ctx).map GoError.Error = some (GoError.wrapf "named context [test 1]" myError).Error ∧
        ∃ ch, Done t c.ctx = (t, some ch) ∧ t.chanClosed ch = true :=
  ⟨by decide, by decide,
    canceled_parent_cause simpleUseCanceled simpleUse.2.ctx "child" 0 _ (by decide) rfl (by decide)
      (by decide)⟩

/-- C9, the claim as stated fails: after `A` is canceled explicitly with "boom", the
message of its directly registered child `B` is `named context [A]: boom`, not
`named context [B] parent err: named context [A]: boom`. -/
theorem direct_child_counterexample :
    nodeAB.2 ∈ (nodeAB.1.nodes nodeA.2.addr).children ∧
    (Err nodeABCanceled nodeAB.2.ctx).map GoError.Error = some "named context [A]: boom" ∧
    (Err nodeABCanceled nodeAB.2.ctx).map GoError.Error ≠
      some "named context [B] parent err: named context [A]: boom" := by
  decide

/-- C9, as the code has it. A child registered directly gets the parent's cause as it is:
when the cancel function of `A` is called with cause `e` on a well-formed store in which
the active struct `B` is in the children set of `A`, the call returns and `Err()` of `B`
is `Err()` of `A`, with the message `named context [<name of A>]: <e.Error()>`; the name
of `B` is not in it. -/
theorem direct_child_same_cause (s : State) (A B : canceler) (e : GoError)
    (hi : Inv s) (hc : A.addr < s.next) (hmem : B ∈ (s.nodes A.addr).children)
    (hact : (s.nodes B.addr).err = none) :
    ∃ t, CancelFunc s A (some e) = Res.ok t ∧ Err t B.ctx = Err t A.ctx ∧
      (Err t B.ctx).map GoError.Error = some ("named context [" ++ A.name ++ "]: " ++ e.Error) := by
  obtain ⟨u, m, t, ht, hn, hx, hcl, hpost, him, hprune, herr⟩ := CancelFunc_spec s A e hi hc
  have hiu : Inv u := hi.congr_inv hn hx hcl
  have hAact : (s.nodes A.addr).err = none := by
    by_contra hne
    have := ((hi A.addr hc).2.1 hne).2
    rw [this] at hmem
    simp at hmem
  have hB : (m.nodes B.addr).err ≠ none :=
    (reach_canceled hiu (by rw [hx]; exact hc) hpost herr B
      (Reach.child Reach.self (by rw [hn]; exact hmem))).2
  have hBe := hpost.err_of_active (by rw [hn]; exact hact) hB
  have hAe := hpost.err_of_active (by rw [hn]; exact hAact) herr
  refine ⟨t, ht, ?_, ?_⟩
  · rw [Err_ctx, Err_ctx, hprune.err_eq, hprune.err_eq, hBe, hAe]
  · rw [Err_ctx, hprune.err_eq, hBe, Option.map_some', wrapf_namedErr_Error]

/-- C9, at a concrete store: the hypotheses hold there and the theorem applies. -/
theorem direct_child_same_cause_witness :
    Inv nodeAB.1 ∧ nodeAB.2 ∈ (nodeAB.1.nodes nodeA.2.addr).children ∧
      ∃ t, CancelFunc nodeAB.1 nodeA.2 (some (GoError.errorf "boom")) = Res.ok t ∧
        Err t nodeAB.2.ctx = Err t nodeA.2.ctx ∧
        (Err t nodeAB.2.ctx).map GoError.Error =
          some ("named context [" ++ nodeA.2.name ++ "]: " ++ (GoError.errorf "boom").Error) :=
  ⟨by decide, by decide,
    direct_child_same_cause nodeAB.1 nodeA.2 nodeAB.2 (GoError.errorf "boom") (by decide) (by decide)
      (by decide) (by decide)⟩

/-- C10, at the failing input: `v` made by `WithValue(A, "v", "k", "x")` and `c` made by
`WithCancel(v, "c")`. After `A` is canceled with "boom", `A` has an error and a closed
channel, but `Err()` of `v` and of `c` is nil and `Done()` of `v` is an open channel; `c`
sits in the children set of `v`, and `v` in no children set. A value node made over a
parent that is canceled already has a nil `Err()` as well. -/
theorem WithValue_not_wired :
    Err valueChildCanceled nodeA.2.ctx = some (GoError.wrapf "named context [A]" (GoError.errorf "boom")) ∧
    Err valueChildCanceled valueNode.2.ctx = none ∧
    (Done valueChildCanceled valueNode.2.ctx).2 = some (Chan.ofNode valueNode.2.addr) ∧
    (Done valueChildCanceled valueNode.2.ctx).1.chanClosed (Chan.ofNode valueNode.2.addr) = false ∧
    Err valueChildCanceled valueChild.2.ctx = none ∧
    (valueChild.1.nodes valueNode.2.addr).children = [valueChild.2] ∧
    (valueChild.1.nodes nodeA.2.addr).children = [] ∧
    Err simpleUseCanceled simpleUse.2.ctx ≠ none ∧
    Err lateValueNode.1 lateValueNode.2.ctx = none := by
  decide

/-! ## Facts for value lookup and deadlines -/

theorem Res.bind_ok_inv {α β : Type} {r : Res α} {f : α → Res β} {b : β}
    (h : r.bind f = Res.ok b) : ∃ a, r = Res.ok a ∧ f a = Res.ok b := by
  cases r with
  | ok a => exact ⟨a, rfl, h⟩
  | panic msg => simp [Res.bind] at h
  | diverge => simp [Res.bind] at h

/-- What `WithValue` returns points to the struct it allocated and carries the pair. -/
theorem WithValue_ptr {s t : State} {parent : Ctx} {name : String} {k v : Iface} {c : canceler}
    (h : WithValue s parent name k v = Res.ok (t, c)) :
    k ≠ Iface.nil ∧ k.Comparable = true ∧ t = (Context s parent name).1 ∧
      c = { (Context s parent name).2 with key := k, val := v } := by
  unfold WithValue at h
  by_cases h1 : k = Iface.nil
  · simp [h1] at h
  · by_cases h2 : k.Comparable = false
    · simp [h1, h2] at h
    · simp only [h1, h2, if_false] at h
      injection h with h
      obtain ⟨ht, hc⟩ := Prod.mk.inj h
      exact ⟨h1, by simpa using h2, ht.symm, hc.symm⟩

/-- What `WithDeadline` returns points to the struct it allocated: a plain pointer when the
parent's deadline is earlier, a pointer to a `timerCtx` with deadline `d` otherwise. -/
theorem WithDeadline_ptr {s t : State} {parent : Ctx} {d : Int} {name : String} {c : canceler}
    (h : WithDeadline s parent d name = Res.ok (t, c)) :
    c = (Context s parent name).2 ∨ c = { (Context s parent name).2 with deadline := some d } := by
  unfold WithDeadline at h
  split at h
  · exact Or.inl (WithCancel_ptr h)
  · right
    simp only at h
    obtain ⟨u, _, hu⟩ := Res.bind_ok_inv h
    split at hu
    · obtain ⟨w, _, hw⟩ := Res.bind_ok_inv hu
      injection hw with hw
      exact (Prod.mk.inj hw).2.symm
    · split at hu <;> (injection hu with hu; exact (Prod.mk.inj hu).2.symm)

/-- Below structs that do not store `q`, a lookup of `q` gives what it gives at the top. -/
theorem Value_through {q : Iface} {top d : Ctx} (hq : q ≠ Iface.cancelCtxKeyPtr)
    (h : Through q top d) : Value d q = Value top q := by
  induction h with
  | here => rfl
  | named a name key val start deadline _ hkey ih =>
    simp only [Value, hq, if_false]
    rw [if_neg (fun hh => hkey hh.symm)]
    exact ih

/-- A struct without a key of its own answers every key but the private one as its parent
does, provided the parent answers the nil key with nil. -/
theorem Value_keyless (a : Nat) (p : Ctx) (name : String) (start : Int) (deadline : Option Int)
    (q : Iface) (hq : q ≠ Iface.cancelCtxKeyPtr) (hnil : q = Iface.nil → Value p Iface.nil = Iface.nil) :
    Value (Ctx.named a p name Iface.nil Iface.nil start deadline) q = Value p q := by
  simp only [Value, hq, if_false]
  by_cases h : q = Iface.nil
  · subst h; simp [hnil rfl]
  · simp [h]

/-! ## Facts about `propagateCancel` -/

theorem Wire.refl_wire (s : State) : Wire s s :=
  ⟨rfl, rfl, rfl, rfl, fun _ => rfl, fun _ => rfl⟩

theorem Wire.trans_wire {s t u : State} (h1 : Wire s t) (h2 : Wire t u) : Wire s u :=
  ⟨h2.next_eq.trans h1.next_eq, h2.foreign_eq.trans h1.foreign_eq, h2.timers_eq.trans h1.timers_eq,
    h2.now_eq.trans h1.now_eq, fun a => (h2.timer_eq a).trans (h1.timer_eq a),
    fun h => (h2.closed_foreign h).trans (h1.closed_foreign h)⟩

theorem Prune.wire_prune {s t : State} (h : Prune s t) : Wire s t :=
  ⟨h.next_eq, h.foreign_eq, h.timers_eq, h.now_eq, h.timer_eq, h.closed_foreign⟩

theorem Post.wire_post {e : GoError} {s t : State} (h : Post e s t) : Wire s t := by
  refine ⟨h.next_eq, h.foreign_eq, h.timers_eq, h.now_eq, ?_, h.closed_foreign⟩
  intro a
  by_cases ha : (s.nodes a).err = none
  · rcases h.active_step a ha with hs | ⟨_, _, _, ht, _⟩
    · rw [hs]
    · exact ht
  · rw [h.canceled_same a ha]

theorem Wire.foreignOk {s t : State} (h : Wire s t) (hf : ForeignOk s) : ForeignOk t := by
  intro x hx
  rw [h.foreign_eq]
  exact hf x (by rw [← h.closed_foreign]; exact hx)

theorem Wire.parentOk {s t : State} (h : Wire s t) {parent : Ctx} (hp : parentOk s parent) :
    parentOk t parent := by
  unfold NamedContext.parentOk at *
  rw [h.next_eq, h.foreign_eq]
  refine ⟨hp.1, ?_⟩
  cases hfh : foreignHandle parent with
  | none => trivial
  | some x =>
    have := hp.2
    rw [hfh] at this
    simp only at this ⊢
    rw [h.closed_foreign]
    exact this

/-- `Err()` depends on the errors of the structs and of the foreign contexts only. -/
theorem Err_congr {s t : State} (hn : ∀ a, (t.nodes a).err = (s.nodes a).err)
    (hf : t.foreign = s.foreign) (ctx : Ctx) : Err t ctx = Err s ctx := by
  induction ctx with
  | background => rfl
  | foreign h parent _ => simp [Err, hf]
  | valueCtx parent key val ih => simpa [Err] using ih
  | named a parent name key val start deadline _ => simp [Err, hn]

/-- `Deadline()` depends on the foreign contexts only. -/
theorem Deadline_congr {s t : State} (hf : t.foreign = s.foreign) (ctx : Ctx) :
    Deadline t ctx = Deadline s ctx := by
  induction ctx with
  | background => rfl
  | foreign h parent _ => simp [Deadline, hf]
  | valueCtx parent key val ih => simpa [Deadline] using ih
  | named a parent name key val start deadline ih =>
    cases deadline with
    | none => simpa [Deadline] using ih
    | some d => simp [Deadline]

/-- Behind a context that answers `Done()` with the channel of a struct is that struct. -/
theorem namedBehind_of_Done {s : State} {parent : Ctx} {p : Nat}
    (h : (Done s parent).2 = some (Chan.ofNode p)) : namedBehind parent = some p := by
  induction parent with
  | background => simp [Done] at h
  | foreign x parent _ =>
    simp only [Done] at h
    split at h <;> simp at h
  | valueCtx parent key val ih => exact ih (by simpa [Done] using h)
  | named a parent name key val start deadline _ =>
    simp only [Done] at h
    split at h
    · simp only [Option.some.injEq, Chan.ofNode.injEq] at h
      simp [namedBehind, h]
    · cases hd : (s.nodes a).done <;> rw [hd] at h <;> simp [DoneField.chan] at h
      simp [namedBehind, h]

/-- The channel a context with a struct behind it answers `Done()` with is the channel
that struct holds afterwards. -/
theorem Done_behind {s : State} {parent : Ctx} {a : Nat} (h : namedBehind parent = some a) :
    (Done s parent).2 = ((Done s parent).1.nodes a).done.chan a ∧
      ((Done s parent).1.nodes a).done ≠ DoneField.nil := by
  induction parent with
  | background => simp [namedBehind] at h
  | foreign _ _ _ => simp [namedBehind] at h
  | valueCtx parent key val ih => simpa [Done] using ih (by simpa [namedBehind] using h)
  | named b parent name key val start deadline _ =>
    simp only [namedBehind, Option.some.injEq] at h
    subst h
    exact Done_named s ⟨b, parent, name, key, val, start, deadline⟩

/-- A context whose channel is closed has an error, on a well-formed store. -/
theorem Err_of_Done_closed {s : State} {parent : Ctx} (hi : Inv s) (hp : parentOk s parent)
    {ch : Chan} (hd : (Done s parent).2 = some ch) (hc : (Done s parent).1.chanClosed ch = true) :
    ∃ e, Err s parent = some e := by
  cases hb : namedBehind parent with
  | some a =>
    have ha : a < s.next := by
      have := hp.1
      rw [hb] at this
      exact this
    obtain ⟨h1, h2⟩ := @Done_behind s parent a hb
    have hpr := Done_prune s parent
    have hi1 : Inv (Done s parent).1 := hpr.inv_prune hi
    rw [Err_namedBehind hb]
    by_contra hne
    have hnone : (s.nodes a).err = none := by
      cases he : (s.nodes a).err with
      | none => rfl
      | some e => exact absurd ⟨e, he⟩ hne
    have hopen := (hi1 a (by rw [hpr.next_eq]; exact ha)).1 (by rw [hpr.err_eq]; exact hnone)
    rcases hopen with hn | ⟨hm, hcl⟩
    · exact h2 hn
    · rw [h1, hm] at hd
      simp only [DoneField.chan, Option.some.injEq] at hd
      subst hd
      simp [State.chanClosed, hcl] at hc
  | none =>
    cases hf : foreignHandle parent with
    | some x =>
      rw [Done_foreignHandle hf] at hd hc
      rw [Err_foreignHandle hf]
      have hch : ch = Chan.ofForeign x := by
        simp only at hd
        split at hd <;> simp at hd
        exact hd.symm
      subst hch
      have := hp.2
      rw [hf] at this
      have herr := this (by simpa [State.chanClosed] using hc)
      cases he : (s.foreign x).err with
      | none => exact absurd he herr
      | some e => exact ⟨e, rfl⟩
    | none =>
      exfalso
      clear hc hp hi
      induction parent with
      | background => simp [Done] at hd
      | foreign _ _ _ => simp [foreignHandle] at hf
      | valueCtx parent key val ih =>
        exact ih (by simpa [Done] using hd) (by simpa [namedBehind] using hb)
          (by simpa [foreignHandle] using hf)
      | named _ _ _ _ _ _ _ _ => simp [namedBehind] at hb

theorem parentNamedCtx_fst (s : State) (parent : Ctx) :
    (parentNamedCtx s parent).1 = (Done s parent).1 := by
  unfold parentNamedCtx
  simp only
  split
  · rfl
  · split
    · split <;> rfl
    · rfl

/-- What `parentNamedCtx` recognises is the struct behind the context, and that struct holds
the channel it made itself. -/
theorem parentNamedCtx_some {s : State} {parent : Ctx} {p : Nat}
    (h : (parentNamedCtx s parent).2 = some p) :
    namedBehind parent = some p ∧ ((Done s parent).1.nodes p).done = DoneField.made ∧
      Value parent Iface.cancelCtxKeyPtr = Iface.namedPtr p := by
  unfold parentNamedCtx at h
  simp only at h
  split at h
  · simp at h
  · next hne =>
    have hne1 : (Done s parent).2 ≠ some Chan.closedchan := fun hh => hne (Or.inl hh)
    have hne2 : (Done s parent).2 ≠ none := fun hh => hne (Or.inr hh)
    split at h
    · next q hv =>
      split at h
      · next hch =>
        simp only [Option.some.injEq] at h
        subst h
        have hmade : ((Done s parent).1.nodes q).done = DoneField.made := by
          cases hd : ((Done s parent).1.nodes q).done with
          | nil => rw [hd] at hch; exact absurd hch.symm hne2
          | closedchan => rw [hd] at hch; exact absurd hch.symm hne1
          | made => rfl
        refine ⟨?_, hmade, hv⟩
        apply @namedBehind_of_Done s parent q
        rw [← hch, hmade]
        rfl
      · simp at h
    · simp at h

theorem incGorutines_nodes (s : State) : (incGorutines s).nodes = s.nodes := by
  unfold incGorutines; split <;> rfl
theorem incGorutines_next (s : State) : (incGorutines s).next = s.next := by
  unfold incGorutines; split <;> rfl
theorem incGorutines_closed (s : State) : (incGorutines s).closed = s.closed := by
  unfold incGorutines; split <;> rfl
theorem incGorutines_foreign (s : State) : (incGorutines s).foreign = s.foreign := by
  unfold incGorutines; split <;> rfl
theorem incGorutines_timers (s : State) : (incGorutines s).timers = s.timers := by
  unfold incGorutines; split <;> rfl
theorem incGorutines_now (s : State) : (incGorutines s).now = s.now := by
  unfold incGorutines; split <;> rfl

/-- Two stores with the same structs, allocation mark, foreign contexts, channels, timers
and clock are wired alike. -/
theorem Wire.of_eq {s t : State} (hn : t.nodes = s.nodes) (hx : t.next = s.next)
    (hf : t.foreign = s.foreign) (hc : t.closed = s.closed) (ht : t.timers = s.timers)
    (hw : t.now = s.now) : Wire s t :=
  ⟨hx, hf, ht, hw, fun a => by rw [hn], fun h => by rw [hc]⟩

/-- Putting a child into the children set of an active struct keeps the store well-formed. -/
theorem register_inv {s : State} (hi : Inv s) {p : Nat} (child : canceler) (l : List canceler)
    (hact : (s.nodes p).err = none) (hl : ∀ x ∈ l, x ∈ (s.nodes p).children ∨ x = child)
    (hc : child.addr < s.next) : Inv (s.setNode p { s.nodes p with children := l }) := by
  intro a ha
  rw [setNode_next] at ha
  obtain ⟨h1, h2, h3⟩ := hi a ha
  by_cases hap : a = p
  · subst hap
    simp only [setNode_nodes_self, setNode_next, DoneOpen, DoneClosed, setNode_closed] at *
    refine ⟨h1, fun hne => absurd hact hne, ?_⟩
    intro x hx
    rcases hl x hx with h | h
    · exact h3 x h
    · rw [h]; exact hc
  · simp only [setNode_nodes_ne _ _ hap, setNode_next, DoneOpen, DoneClosed, setNode_closed] at *
    exact ⟨h1, h2, h3⟩

/-- The function `propagateCancel` returns on a well-formed store when the parent exists
and the child is allocated; the store stays well-formed; and if the parent is not
canceled, the error of the child is as before. -/
theorem propagateCancel_spec (s : State) (parent : Ctx) (child : canceler) (hi : Inv s)
    (hp : parentOk s parent) (hc : child.addr < s.next) :
    ∃ t, propagateCancel s parent child = Res.ok t ∧ Inv t ∧ Wire s t ∧
      (parentOpen s parent → (t.nodes child.addr).err = (s.nodes child.addr).err) ∧
      (¬ parentOpen s parent → (s.nodes child.addr).err = none →
        (t.nodes child.addr).err = Err s parent) ∧
      (∀ g ∈ t.goroutines, g ∈ s.goroutines ∨ g = (parent, child)) := by
  have hr := Done_prune s parent
  have hi1 : Inv (Done s parent).1 := hr.inv_prune hi
  have hc1 : child.addr < (Done s parent).1.next := by rw [hr.next_eq]; exact hc
  unfold propagateCancel
  simp only
  cases hr2 : (Done s parent).2 with
  | none =>
    exact ⟨_, rfl, hi1, hr.wire_prune, fun _ => hr.err_eq _, fun hno => absurd (by
      unfold parentOpen; rw [hr2]; trivial) hno,
      fun g hg => Or.inl (by rw [← hr.goroutines_eq]; exact hg)⟩
  | some done =>
    simp only
    by_cases hcl : (Done s parent).1.chanClosed done = true
    · obtain ⟨e, he⟩ := Err_of_Done_closed hi hp hr2 hcl
      have he1 : Err (Done s parent).1 parent = some e := by
        rw [Err_congr hr.err_eq hr.foreign_eq]; exact he
      obtain ⟨m, t, ht, hpost, him, hprune, hmerr, _⟩ :=
        cancel_spec e (Done s parent).1 child false hi1 hc1
      refine ⟨t, ?_, hprune.inv_prune him, (hr.wire_prune.trans_wire hpost.wire_post).trans_wire hprune.wire_prune, ?_, ?_,
        fun g hg => Or.inl (by
          rw [← hr.goroutines_eq, ← hpost.goroutines_eq, ← hprune.goroutines_eq]; exact hg)⟩
      · simp only [hcl, if_true, he1]; exact ht
      · intro ho
        unfold parentOpen at ho
        rw [hr2] at ho
        simp only at ho
        rw [ho] at hcl
        exact absurd hcl (by simp)
      · intro _ hact
        rw [hprune.err_eq, he]
        exact hpost.err_of_active (by rw [hr.err_eq]; exact hact) hmerr
    · have hq := parentNamedCtx_prune (Done s parent).1 parent
      have hi2 : Inv (parentNamedCtx (Done s parent).1 parent).1 := hq.inv_prune hi1
      have hc2 : child.addr < (parentNamedCtx (Done s parent).1 parent).1.next := by
        rw [hq.next_eq]; exact hc1
      have hw2 : Wire s (parentNamedCtx (Done s parent).1 parent).1 := hr.wire_prune.trans_wire hq.wire_prune
      have herr2 : ∀ a, ((parentNamedCtx (Done s parent).1 parent).1.nodes a).err = (s.nodes a).err :=
        fun a => (hq.err_eq a).trans (hr.err_eq a)
      have hg2 : (parentNamedCtx (Done s parent).1 parent).1.goroutines = s.goroutines :=
        hq.goroutines_eq.trans hr.goroutines_eq
      have hopen : parentOpen s parent := by
        unfold parentOpen
        rw [hr2]
        simp only
        cases h : (Done s parent).1.chanClosed done with
        | true => exact absurd h hcl
        | false => rfl
      simp only [hcl, if_false]
      cases hq2 : (parentNamedCtx (Done s parent).1 parent).2 with
      | none =>
        simp only
        refine ⟨_, rfl, ?_, hw2.trans_wire ?_, ?_, fun hno => absurd hopen hno, ?_⟩
        rotate_left 3
        · intro g hg
          rcases List.mem_cons.mp hg with h | h
          · exact Or.inr h
          · rw [incGorutines_goroutines, hg2] at h; exact Or.inl h
        · exact hi2.congr_inv (incGorutines_nodes _) (incGorutines_next _) (incGorutines_closed _)
        · exact Wire.of_eq (incGorutines_nodes _) (incGorutines_next _) (incGorutines_foreign _)
            (incGorutines_closed _) (incGorutines_timers _) (incGorutines_now _)
        · intro _
          simp only [incGorutines_nodes]
          exact herr2 _
      | some p =>
        simp only
        obtain ⟨hbeh, hmade, _⟩ := parentNamedCtx_some hq2
        have hpn : p < s.next := by
          have := hp.1
          rw [hbeh] at this
          exact this
        by_cases hpe : ((parentNamedCtx (Done s parent).1 parent).1.nodes p).err = none
        · have hcond : ¬ (((parentNamedCtx (Done s parent).1 parent).1.nodes p).err ≠ none) :=
            fun h => h hpe
          rw [if_neg hcond]
          refine ⟨_, rfl, ?_, hw2.trans_wire ?_, ?_, fun hno => absurd hopen hno,
            fun g hg => Or.inl (by rw [← hg2]; exact hg)⟩
          · apply register_inv hi2 child _ hpe _ hc2
            intro x hx
            split at hx
            · exact Or.inl hx
            · rcases List.mem_append.mp hx with h | h
              · exact Or.inl h
              · exact Or.inr (by simpa using h)
          · exact ⟨rfl, rfl, rfl, rfl, fun a => by
              by_cases ha : a = p
              · subst ha; simp
              · rw [setNode_nodes_ne _ _ ha], fun _ => rfl⟩
          · intro _
            by_cases ha : child.addr = p
            · rw [ha]; simp only [setNode_nodes_self]; rw [← ha]; exact herr2 _
            · rw [setNode_nodes_ne _ _ ha]; exact herr2 _
        · obtain ⟨e, he⟩ : ∃ e, ((parentNamedCtx (Done s parent).1 parent).1.nodes p).err = some e := by
            cases h : ((parentNamedCtx (Done s parent).1 parent).1.nodes p).err with
            | none => exact absurd h hpe
            | some e => exact ⟨e, rfl⟩
          obtain ⟨m, t, ht, hpost, him, hprune, _, _⟩ :=
            cancel_spec e (parentNamedCtx (Done s parent).1 parent).1 child false hi2 hc2
          refine ⟨t, ?_, hprune.inv_prune him, (hw2.trans_wire hpost.wire_post).trans_wire hprune.wire_prune, ?_,
            fun hno => absurd hopen hno, fun g hg => Or.inl (by
              rw [← hg2, ← hpost.goroutines_eq, ← hprune.goroutines_eq]; exact hg)⟩
          · rw [if_pos hpe, he]; exact ht
          · intro _
            exfalso
            -- the struct behind the parent is canceled, so its channel was closed all along
            have hp1 : p < (Done s parent).1.next := by rw [hr.next_eq]; exact hpn
            have he1 : ((Done s parent).1.nodes p).err ≠ none := by
              rw [← hq.err_eq]; exact hpe
            obtain ⟨hdc, _⟩ := (hi1 p hp1).2.1 he1
            obtain ⟨hd1, hd2⟩ := @Done_behind s parent p hbeh
            rw [hr2] at hd1
            rcases hdc with h | ⟨h, hclosed⟩
            · rw [h] at hd1
              simp only [DoneField.chan, Option.some.injEq] at hd1
              rw [hd1] at hcl
              exact hcl rfl
            · rw [h] at hd1
              simp only [DoneField.chan, Option.some.injEq] at hd1
              rw [hd1] at hcl
              exact hcl (by simpa [State.chanClosed] using hclosed)

/-! ## Facts about the constructors with a deadline -/

/-- A context with neither a struct nor a foreign context behind it has no channel. -/
theorem Done_none_of_neither {s : State} {parent : Ctx} (hb : namedBehind parent = none)
    (hf : foreignHandle parent = none) : (Done s parent).2 = none := by
  induction parent with
  | background => rfl
  | foreign _ _ _ => simp [foreignHandle] at hf
  | valueCtx parent key val ih =>
    simpa [Done] using ih (by simpa [namedBehind] using hb) (by simpa [foreignHandle] using hf)
  | named _ _ _ _ _ _ _ _ => simp [namedBehind] at hb

theorem Err_none_of_neither {s : State} {parent : Ctx} (hb : namedBehind parent = none)
    (hf : foreignHandle parent = none) : Err s parent = none := by
  induction parent with
  | background => rfl
  | foreign _ _ _ => simp [foreignHandle] at hf
  | valueCtx parent key val ih =>
    simpa [Err] using ih (by simpa [namedBehind] using hb) (by simpa [foreignHandle] using hf)
  | named _ _ _ _ _ _ _ _ => simp [namedBehind] at hb

/-- A context without an error is not canceled: its channel, if any, is open. -/
theorem parentOpen_of_Err_none {s : State} {parent : Ctx} (hi : Inv s) (hp : parentOk s parent)
    (he : Err s parent = none) : parentOpen s parent := by
  unfold parentOpen
  cases hd : (Done s parent).2 with
  | none => trivial
  | some ch =>
    simp only
    by_contra hne
    have hc : (Done s parent).1.chanClosed ch = true := by
      cases h : (Done s parent).1.chanClosed ch with
      | true => rfl
      | false => exact absurd h hne
    obtain ⟨e, hee⟩ := Err_of_Done_closed hi hp hd hc
    rw [he] at hee
    exact absurd hee (by simp)

theorem Context_parentOk {s : State} {parent : Ctx} (hp : parentOk s parent) (p : Ctx) (name : String) :
    parentOk (Context s p name).1 parent := by
  unfold parentOk at *
  refine ⟨?_, hp.2⟩
  cases hb : namedBehind parent with
  | none => trivial
  | some a =>
    have := hp.1
    rw [hb] at this
    exact Nat.lt_succ_of_lt this

theorem Err_Context {s : State} {parent : Ctx} (hp : parentOk s parent) (p : Ctx) (name : String) :
    Err (Context s p name).1 parent = Err s parent := by
  cases hb : namedBehind parent with
  | some a =>
    have ha : a < s.next := by
      have := hp.1
      rw [hb] at this
      exact this
    rw [Err_namedBehind hb, Err_namedBehind hb, Context_nodes_lt s p name ha]
  | none =>
    cases hf : foreignHandle parent with
    | some h => rw [Err_foreignHandle hf, Err_foreignHandle hf]; rfl
    | none => rw [Err_none_of_neither hb hf, Err_none_of_neither hb hf]

/-- The store right after `Context`, seen from the store before: one more struct, the
zero struct; all else as before. -/
theorem Context_frame (s : State) (p : Ctx) (name : String) :
    (Context s p name).1.next = s.next + 1 ∧ (Context s p name).1.foreign = s.foreign ∧
      (Context s p name).1.timers = s.timers ∧ (Context s p name).1.now = s.now ∧
      (Context s p name).1.closed = s.closed ∧ (Context s p name).1.goroutines = s.goroutines ∧
      (Context s p name).1.metricsCollector = s.metricsCollector ∧
      (Context s p name).2.addr = s.next :=
  ⟨rfl, rfl, rfl, rfl, rfl, rfl, rfl, rfl⟩

theorem Context_fresh_next (s : State) (p : Ctx) (name : String) :
    (Context s p name).1.nodes s.next = Node.zero := by
  simp [Context, State.setNode]

/-- The function `WithCancel` returns when the parent exists; the store stays well-formed;
under a parent without an error the new node is active. -/
theorem WithCancel_total (s : State) (parent : Ctx) (name : String) (hi : Inv s)
    (hp : parentOk s parent) :
    ∃ t, WithCancel s parent name = Res.ok (t, (Context s parent name).2) ∧ Inv t ∧
      Wire (Context s parent name).1 t ∧
      (Err s parent = none → (t.nodes s.next).err = none) ∧
      ((t.nodes s.next).err = none ∨ (t.nodes s.next).err = Err s parent) ∧
      (∀ g ∈ t.goroutines, g ∈ s.goroutines ∨ g = (parent, (Context s parent name).2)) := by
  have hi1 := Context_inv hi parent name
  have hp1 := Context_parentOk hp parent name
  obtain ⟨t, ht, hit, hw, ho, hcl, hgo⟩ := propagateCancel_spec (Context s parent name).1 parent
    (Context s parent name).2 hi1 hp1 (by simp [Context])
  have hz : ((Context s parent name).1.nodes (Context s parent name).2.addr).err = none := by
    rw [Context_fresh]; rfl
  refine ⟨t, ?_, hit, hw, ?_, ?_, hgo⟩
  · unfold WithCancel
    simp only [ht, Res.bind]
  · intro he
    have := ho (parentOpen_of_Err_none hi1 hp1 (by rw [Err_Context hp]; exact he))
    rw [hz] at this
    exact this
  · by_cases hopen : parentOpen (Context s parent name).1 parent
    · left
      have := ho hopen
      rw [hz] at this
      exact this
    · right
      rw [← Err_Context hp parent name]
      exact hcl hopen hz

/-- The test `WithDeadline` makes on the parent's deadline. -/
theorem earlier_false {s : State} {parent : Ctx} {d : Int}
    (h : ∀ cur, Deadline s parent = some cur → ¬ cur < d) :
    (match Deadline s parent with | some cur => decide (cur < d) | none => false) = false := by
  cases hd : Deadline s parent with
  | none => rfl
  | some cur => simpa using h cur hd

theorem earlier_true {s : State} {parent : Ctx} {d cur : Int}
    (h : Deadline s parent = some cur) (hlt : cur < d) :
    (match Deadline s parent with | some cur => decide (cur < d) | none => false) = true := by
  rw [h]; simpa using hlt

/-- The function `WithDeadline` under a parent without an earlier deadline: it returns a
pointer to a `timerCtx`; `t0` is the store after `propagateCancel`; then either the
deadline has passed and the node is canceled on the spot, or the node is active and a
timer is scheduled, or the node is canceled already and nothing more happens. -/
theorem WithDeadline_own (s : State) (parent : Ctx) (d : Int) (name : String) (hi : Inv s)
    (hp : parentOk s parent) (hdl : ∀ cur, Deadline s parent = some cur → ¬ cur < d) :
    ∃ t0 t, WithDeadline s parent d name =
        Res.ok (t, { (Context s parent name).2 with deadline := some d }) ∧
      Inv t0 ∧ Wire (Context s parent name).1 t0 ∧ Inv t ∧
      (Err s parent = none → (t0.nodes s.next).err = none) ∧
      (d - s.now ≤ 0 →
        ∃ m, Post (Errorf namedDeadlineExceededFormat [FmtArg.s name, FmtArg.d 0]) t0 m ∧
          Inv m ∧ Prune m t ∧ (m.nodes s.next).err ≠ none) ∧
      (0 < d - s.now → (t0.nodes s.next).err = none →
        t = { t0.setNode s.next { t0.nodes s.next with timer := some (d - s.now) } with
              timers := ({ (Context s parent name).2 with deadline := some d }, s.now + (d - s.now))
                :: t0.timers }) ∧
      (0 < d - s.now → (t0.nodes s.next).err ≠ none → t = t0) ∧
      (∀ g ∈ t0.goroutines, g ∈ s.goroutines ∨
        g = (parent, { (Context s parent name).2 with deadline := some d })) := by
  have hi1 := Context_inv hi parent name
  have hp1 := Context_parentOk hp parent name
  obtain ⟨t0, ht0, hit0, hw, ho, _, hgo⟩ := propagateCancel_spec (Context s parent name).1 parent
    { (Context s parent name).2 with deadline := some d } hi1 hp1 (by simp [Context])
  have hnow : t0.now = s.now := hw.now_eq
  have hnext : t0.next = s.next + 1 := hw.next_eq
  have hopen : Err s parent = none → (t0.nodes s.next).err = none := by
    intro he
    have := ho (parentOpen_of_Err_none hi1 hp1 (by rw [Err_Context hp]; exact he))
    have hz := Context_fresh s parent name
    simp only [Context] at this hz ⊢
    rw [hz] at this
    exact this
  have hunf : WithDeadline s parent d name =
      (if d - t0.now ≤ 0 then
        (cancel t0 { (Context s parent name).2 with deadline := some d } true
          (some (Errorf namedDeadlineExceededFormat [FmtArg.s name, FmtArg.d 0]))).bind
          fun u => Res.ok (u, { (Context s parent name).2 with deadline := some d })
      else if (t0.nodes s.next).err = none then
        Res.ok ({ t0.setNode s.next { t0.nodes s.next with timer := some (d - t0.now) } with
                    timers := ({ (Context s parent name).2 with deadline := some d }, t0.now + (d - t0.now))
                      :: t0.timers }, { (Context s parent name).2 with deadline := some d })
      else Res.ok (t0, { (Context s parent name).2 with deadline := some d })) := by
    unfold WithDeadline
    rw [earlier_false hdl]
    simp only [Bool.false_eq_true, if_false, ht0, Res.bind]
    rfl
  by_cases hdur : d - s.now ≤ 0
  · obtain ⟨m, t, ht, hpost, him, hprune, hmerr, _⟩ :=
      cancel_spec (Errorf namedDeadlineExceededFormat [FmtArg.s name, FmtArg.d 0]) t0
        { (Context s parent name).2 with deadline := some d } true hit0 (by rw [hnext]; simp [Context])
    refine ⟨t0, t, ?_, hit0, hw, hprune.inv_prune him, hopen, fun _ => ⟨m, hpost, him, hprune, hmerr⟩,
      fun h => absurd hdur (not_le.mpr h), fun h => absurd hdur (not_le.mpr h), hgo⟩
    rw [hunf, hnow, if_pos hdur, ht]
    rfl
  · by_cases hact : (t0.nodes s.next).err = none
    · refine ⟨t0, _, ?_, hit0, hw, ?_, hopen, fun h => absurd h hdur, fun _ _ => rfl,
        fun _ h => absurd hact h, hgo⟩
      · rw [hunf, hnow, if_neg hdur, if_pos hact]
      · refine @Inv.congr_inv (t0.setNode s.next { t0.nodes s.next with timer := some (d - s.now) })
          _ rfl rfl rfl ?_
        intro a ha
        rw [setNode_next] at ha
        obtain ⟨h1, h2, h3⟩ := hit0 a ha
        by_cases has : a = s.next
        · subst has
          simp only [setNode_nodes_self, setNode_next, DoneOpen, DoneClosed, setNode_closed] at *
          exact ⟨h1, h2, h3⟩
        · simp only [setNode_nodes_ne _ _ has, setNode_next, DoneOpen, DoneClosed, setNode_closed] at *
          exact ⟨h1, h2, h3⟩
    · refine ⟨t0, t0, ?_, hit0, hw, hit0, hopen, fun h => absurd h hdur, fun _ h => absurd h hact,
        fun _ _ => rfl, hgo⟩
      rw [hunf, hnow, if_neg hdur, if_neg hact]

/-- A call of `cancel` on a well-formed store returns and touches neither the schedule of
timers nor the metrics; a struct that was active is canceled with the cause given. -/
theorem cancel_keeps (s : State) (c : canceler) (r : Bool) (e : GoError) (hi : Inv s)
    (hc : c.addr < s.next) :
    ∃ t, cancel s c r (some e) = Res.ok t ∧ Inv t ∧ Wire s t ∧
      t.metricsCollector = s.metricsCollector ∧ t.goroutines = s.goroutines ∧
      (t.nodes c.addr).err ≠ none ∧
      ((s.nodes c.addr).err = none → (t.nodes c.addr).err = some e) := by
  obtain ⟨m, t, ht, hpost, him, hprune, hmerr, _⟩ := cancel_spec e s c r hi hc
  refine ⟨t, ht, hprune.inv_prune him, hpost.wire_post.trans_wire hprune.wire_prune,
    by rw [hprune.metrics_eq, hpost.metrics_eq], by rw [hprune.goroutines_eq, hpost.goroutines_eq],
    by rw [hprune.err_eq]; exact hmerr, ?_⟩
  intro hact
  rw [hprune.err_eq]
  exact hpost.err_of_active hact hmerr

/-! ## What `cancel` leaves alone -/

theorem Done_madeOver {s : State} {ctx : Ctx} {a : Nat} (h : madeOver a ctx = true)
    (hd : (s.nodes a).done = DoneField.made) :
    Done s ctx = (s, some (Chan.ofNode a)) ∧ Value ctx Iface.cancelCtxKeyPtr = Iface.namedPtr a := by
  induction ctx with
  | background => simp [madeOver] at h
  | foreign _ _ _ => simp [madeOver] at h
  | valueCtx parent key val ih =>
    simp only [madeOver, Bool.and_eq_true, decide_eq_true_eq] at h
    obtain ⟨h1, h2⟩ := ih h.2
    exact ⟨by simpa [Done] using h1, by simp [Value, h.1, h2]⟩
  | named b parent name key val start deadline _ =>
    simp only [madeOver, decide_eq_true_eq] at h
    subst h
    simp [Done, Value, hd, DoneField.chan]

theorem incCancels_frame (s : State) (l : String) :
    (incCancels s l).foreign = s.foreign ∧ (incCancels s l).timers = s.timers ∧
      (incCancels s l).goroutines = s.goroutines ∧ (incCancels s l).now = s.now := by
  unfold incCancels; split <;> exact ⟨rfl, rfl, rfl, rfl⟩

theorem incTimeouts_frame (s : State) (l : String) :
    (incTimeouts s l).foreign = s.foreign ∧ (incTimeouts s l).timers = s.timers ∧
      (incTimeouts s l).goroutines = s.goroutines ∧ (incTimeouts s l).now = s.now := by
  unfold incTimeouts; split <;> exact ⟨rfl, rfl, rfl, rfl⟩

theorem ctxAllocated.mono_allocated {s t : State} {ctx : Ctx} (h : ctxAllocated s ctx)
    (hn : s.next ≤ t.next) : ctxAllocated t ctx := by
  unfold ctxAllocated at h ⊢
  cases hb : namedBehind ctx with
  | none => trivial
  | some a =>
    rw [hb] at h
    exact Nat.lt_of_lt_of_le h hn

theorem ctxAllocated.parentOk_of {s : State} {ctx : Ctx} (h : ctxAllocated s ctx) (hf : ForeignOk s) :
    parentOk s ctx := by
  unfold NamedContext.parentOk
  refine ⟨h, ?_⟩
  cases foreignHandle ctx with
  | none => trivial
  | some x => exact hf x

/-- Soundness only reads the structs, the allocation mark, the channels and the foreign
contexts, and it stays when timers or goroutines leave. -/
theorem Sound.congr_sound {s t : State} (hs : Sound s) (hn : t.nodes = s.nodes)
    (hx : t.next = s.next) (hc : t.closed = s.closed) (hf : t.foreign = s.foreign)
    (ht : ∀ x ∈ t.timers, x ∈ s.timers) (hg : ∀ g ∈ t.goroutines, g ∈ s.goroutines) : Sound t where
  inv := hs.inv.congr_inv hn hx hc
  foreignOk := fun h hh => by rw [hf]; exact hs.foreignOk h (by rw [← hc]; exact hh)
  timers := fun x hxm => by rw [hx]; exact hs.timers x (ht x hxm)
  goroutines := fun g hgm =>
    ⟨by rw [hx]; exact (hs.goroutines g (hg g hgm)).1,
      (hs.goroutines g (hg g hgm)).2.mono_allocated (le_of_eq hx.symm)⟩

/-- A step that keeps the store well-formed, touches what `Wire` lists in no way, and adds
goroutines only for allocated structs, keeps the store sound. -/
theorem Sound.step {s t : State} (hs : Sound s) (hi : Inv t) (hw : Wire s t)
    (hg : ∀ g ∈ t.goroutines, g ∈ s.goroutines ∨ (g.2.addr < s.next ∧ ctxAllocated s g.1)) :
    Sound t where
  inv := hi
  foreignOk := hw.foreignOk hs.foreignOk
  timers := fun x hx => by rw [hw.next_eq]; exact hs.timers x (by rw [← hw.timers_eq]; exact hx)
  goroutines := fun g hgm => by
    have hle : s.next ≤ t.next := le_of_eq hw.next_eq.symm
    rcases hg g hgm with h | h
    · exact ⟨by rw [hw.next_eq]; exact (hs.goroutines g h).1, (hs.goroutines g h).2.mono_allocated hle⟩
    · exact ⟨by rw [hw.next_eq]; exact h.1, h.2.mono_allocated hle⟩

theorem Sound_init : Sound State.init where
  inv := by decide
  foreignOk := fun h hh => by simp [State.init] at hh
  timers := fun x hx => by simp [State.init] at hx
  goroutines := fun g hg => by simp [State.init] at hg

theorem Context_sound {s : State} (hs : Sound s) (p : Ctx) (name : String) :
    Sound (Context s p name).1 where
  inv := Context_inv hs.inv p name
  foreignOk := fun h hh => hs.foreignOk h hh
  timers := fun x hx => Nat.lt_succ_of_lt (hs.timers x hx)
  goroutines := fun g hg =>
    ⟨Nat.lt_succ_of_lt (hs.goroutines g hg).1, (hs.goroutines g hg).2.mono_allocated (Nat.le_succ _)⟩

theorem decGorutines_frame (s : State) :
    (decGorutines s).next = s.next ∧ (decGorutines s).closed = s.closed ∧
      (decGorutines s).foreign = s.foreign ∧ (decGorutines s).timers = s.timers ∧
      (decGorutines s).goroutines = s.goroutines := by
  unfold decGorutines; split <;> exact ⟨rfl, rfl, rfl, rfl, rfl⟩

/-- A call of `cancel` that returns keeps the store sound. -/
theorem cancel_sound {s t : State} {c : canceler} {r : Bool} {err : Option GoError}
    (hs : Sound s) (hc : c.addr < s.next) (h : cancel s c r err = Res.ok t) : Sound t := by
  cases err with
  | none => simp [cancel, cancelAux] at h
  | some e =>
    obtain ⟨u, hu, hiu, hw, _, hg, _⟩ := cancel_keeps s c r e hs.inv hc
    rw [hu] at h
    injection h with h
    subst h
    exact hs.step hiu hw (fun g hgm => Or.inl (by rw [← hg]; exact hgm))

theorem CancelFunc_sound {s t : State} {c : canceler} {err : Option GoError}
    (hs : Sound s) (hc : c.addr < s.next) (h : CancelFunc s c err = Res.ok t) : Sound t := by
  unfold CancelFunc at h
  simp only at h
  split at h
  · obtain ⟨hf, ht, hg, _⟩ := incCancels_frame s c.name
    exact cancel_sound
      (hs.congr_sound (incCancels_nodes s _) (incCancels_next s _) (incCancels_closed s _) hf
        (fun x hx => by rw [← ht]; exact hx) (fun g hgm => by rw [← hg]; exact hgm))
      (by rw [incCancels_next]; exact hc) h
  · exact cancel_sound hs hc h

theorem timerFunc_sound {s t : State} {c : canceler}
    (hs : Sound s) (hc : c.addr < s.next) (h : timerFunc s c = Res.ok t) : Sound t := by
  unfold timerFunc at h
  simp only at h
  split at h
  · obtain ⟨hf, ht, hg, _⟩ := incTimeouts_frame s c.name
    exact cancel_sound
      (hs.congr_sound (incTimeouts_nodes s _) (incTimeouts_next s _) (incTimeouts_closed s _) hf
        (fun x hx => by rw [← ht]; exact hx) (fun g hgm => by rw [← hg]; exact hgm))
      (by rw [incTimeouts_next]; exact hc) h
  · exact cancel_sound hs hc h

theorem fire_sound {s t : State} {c : canceler} {due : Int}
    (hs : Sound s) (hm : (c, due) ∈ s.timers) (h : fire s c due = Res.ok t) : Sound t := by
  unfold fire at h
  have h1 : Sound { s with timers := s.timers.erase (c, due) } :=
    hs.congr_sound rfl rfl rfl rfl (fun x hx => List.mem_of_mem_erase hx) (fun g hg => hg)
  exact timerFunc_sound h1 (hs.timers _ hm) h

theorem Prune.sound_prune {s t : State} (h : Prune s t) (hs : Sound s) : Sound t :=
  hs.step (h.inv_prune hs.inv) h.wire_prune (fun g hg => Or.inl (by rw [← h.goroutines_eq]; exact hg))

theorem goroutine_sound {s t : State} {parent : Ctx} {child : canceler} {coin : Bool}
    (hs : Sound s) (hc : child.addr < s.next) (h : goroutine s parent child coin = Res.ok t) :
    Sound t := by
  have hr := Done_prune s parent
  have hq := Done_prune (Done s parent).1 child.ctx
  have hsq : Sound (Done (Done s parent).1 child.ctx).1 := hq.sound_prune (hr.sound_prune hs)
  have hcq : child.addr < (Done (Done s parent).1 child.ctx).1.next := by
    rw [hq.next_eq, hr.next_eq]; exact hc
  unfold goroutine at h
  simp only at h
  split at h
  · obtain ⟨u, hu, hfin⟩ := Res.bind_ok_inv h
    injection hfin with hfin
    have hsu : Sound u := cancel_sound hsq hcq hu
    obtain ⟨h1, h2, h3, h4, h5⟩ :=
      decGorutines_frame { u with goroutines := u.goroutines.erase (parent, child) }
    rw [← hfin]
    exact hsu.congr_sound (decGorutines_nodes _) h1 h2 h3 (fun x hx => by rw [h4] at hx; exact hx)
      (fun g hg => by rw [h5] at hg; exact List.mem_of_mem_erase hg)
  · split at h
    · injection h with h
      obtain ⟨h1, h2, h3, h4, h5⟩ := decGorutines_frame
        { (Done (Done s parent).1 child.ctx).1 with
          goroutines := (Done (Done s parent).1 child.ctx).1.goroutines.erase (parent, child) }
      rw [← h]
      exact hsq.congr_sound (decGorutines_nodes _) h1 h2 h3 (fun x hx => by rw [h4] at hx; exact hx)
        (fun g hg => by rw [h5] at hg; exact List.mem_of_mem_erase hg)
    · injection h with h
      rw [← h]
      exact hsq

theorem WithCancel_sound {s t : State} {parent : Ctx} {name : String} {c : canceler}
    (hs : Sound s) (hp : ctxAllocated s parent) (h : WithCancel s parent name = Res.ok (t, c)) :
    Sound t := by
  obtain ⟨u, hu, hiu, hw, _, _, hg⟩ := WithCancel_total s parent name hs.inv (hp.parentOk_of hs.foreignOk)
  rw [hu] at h
  injection h with h
  have htu : u = t := (Prod.mk.inj h).1
  subst htu
  refine (Context_sound hs parent name).step hiu hw ?_
  intro g hgm
  rcases hg g hgm with h1 | h1
  · exact Or.inl h1
  · right; rw [h1]; exact ⟨by simp [Context], hp.mono_allocated (Nat.le_succ _)⟩

theorem WithDeadline_sound {s t : State} {parent : Ctx} {d : Int} {name : String} {c : canceler}
    (hs : Sound s) (hp : ctxAllocated s parent) (h : WithDeadline s parent d name = Res.ok (t, c)) :
    Sound t := by
  by_cases hE : ∃ cur, Deadline s parent = some cur ∧ cur < d
  · obtain ⟨cur, hcur, hlt⟩ := hE
    have heq : WithDeadline s parent d name = WithCancel s parent name := by
      unfold WithDeadline
      rw [earlier_true hcur hlt]
      simp
    rw [heq] at h
    exact WithCancel_sound hs hp h
  · have hdl : ∀ cur, Deadline s parent = some cur → ¬ cur < d :=
      fun cur hcur hlt => hE ⟨cur, hcur, hlt⟩
    obtain ⟨t0, u, hu, hit0, hw, hiu, _, hel, hsch, hno, hg⟩ :=
      WithDeadline_own s parent d name hs.inv (hp.parentOk_of hs.foreignOk) hdl
    rw [hu] at h
    injection h with h
    have htu : u = t := (Prod.mk.inj h).1
    subst htu
    have hs0 : Sound t0 := by
      refine (Context_sound hs parent name).step hit0 hw ?_
      intro g hgm
      rcases hg g hgm with h1 | h1
      · exact Or.inl h1
      · right; rw [h1]; exact ⟨by simp [Context], hp.mono_allocated (Nat.le_succ _)⟩
    by_cases hdur : d - s.now ≤ 0
    · obtain ⟨m, hpost, _, hprune, _⟩ := hel hdur
      exact hs0.step hiu (hpost.wire_post.trans_wire hprune.wire_prune)
        (fun g hgm => Or.inl (by rw [← hpost.goroutines_eq, ← hprune.goroutines_eq]; exact hgm))
    · by_cases hact : (t0.nodes s.next).err = none
      · have hu2 := hsch (not_le.mp hdur) hact
        have hnext : t0.next = s.next + 1 := hw.next_eq
        refine
          { inv := hiu
            foreignOk := ?_
            timers := ?_
            goroutines := ?_ }
        · rw [hu2]; exact fun x hx => hs0.foreignOk x hx
        · rw [hu2]
          intro x hx
          simp only [setNode_next] at hx ⊢
          rcases List.mem_cons.mp hx with h1 | h1
          · rw [h1, hnext]; simp [Context]
          · exact hs0.timers x h1
        · rw [hu2]
          exact fun g hgm => hs0.goroutines g hgm
      · rw [hno (not_le.mp hdur) hact]
        exact hs0

/-- Every reachable store is sound, hence well-formed. -/
theorem sound_of_reachable {s : State} (h : Reachable s) : Sound s := by
  induction h with
  | init => exact Sound_init
  | initMetrics m _ ih => exact ih.congr_sound rfl rfl rfl rfl (fun _ hx => hx) (fun _ hg => hg)
  | advance d _ _ ih => exact ih.congr_sound rfl rfl rfl rfl (fun _ hx => hx) (fun _ hg => hg)
  | foreignNew h _ ih =>
    refine
      { inv := ?_
        foreignOk := ?_
        timers := fun x hx => ih.timers x hx
        goroutines := fun g hg => ih.goroutines g hg }
    · intro a ha
      have := ih.inv a ha
      simpa [foreignNew, DoneOpen, DoneClosed] using this
    · intro x hx
      by_cases hxh : x = h
      · subst hxh; simp [foreignNew] at hx
      · simp only [foreignNew, hxh, if_false, Chan.ofForeign.injEq] at hx ⊢
        exact ih.foreignOk x hx
  | foreignCancel h e _ ih =>
    refine
      { inv := ?_
        foreignOk := ?_
        timers := fun x hx => ih.timers x hx
        goroutines := fun g hg => ih.goroutines g hg }
    · intro a ha
      have := ih.inv a ha
      simpa [foreignCancel, DoneOpen, DoneClosed] using this
    · intro x hx
      by_cases hxh : x = h
      · subst hxh; simp [foreignCancel]
      · simp only [foreignCancel, hxh, if_false, Chan.ofForeign.injEq] at hx ⊢
        exact ih.foreignOk x hx
  | done ctx _ _ ih => exact (Done_prune _ ctx).sound_prune ih
  | withValue parent name key val c _ _ hw ih =>
    obtain ⟨_, _, ht, _⟩ := WithValue_ptr hw
    rw [ht]
    exact Context_sound ih parent name
  | withCancel parent name c _ hp hw ih => exact WithCancel_sound ih hp hw
  | withDeadline parent d name c _ hp hw ih => exact WithDeadline_sound ih hp hw
  | @withTimeout s t parent timeout name elapsed c _ hp _ hw ih =>
    have hs1 : Sound { s with now := s.now + elapsed } :=
      ih.congr_sound rfl rfl rfl rfl (fun _ hx => hx) (fun _ hg => hg)
    have hp1 : ctxAllocated { s with now := s.now + elapsed } parent := hp
    exact WithDeadline_sound hs1 hp1 hw
  | cancelFunc c err _ hc hw ih => exact CancelFunc_sound ih hc hw
  | deadlineCancelFunc c err _ hc hw ih => exact cancel_sound ih hc hw
  | fire c due _ hm _ hw ih => exact fire_sound ih hm hw
  | goroutine parent child coin _ hm hw ih => exact goroutine_sound ih (ih.goroutines _ hm).1 hw

/-! ## Operations on a sound store return -/

/-- A channel that is closed after `Done()` calls and prunings was closed before. -/
theorem Prune.closed_back {s t : State} (h : Prune s t) {ch : Chan}
    (hc : t.chanClosed ch = true) : s.chanClosed ch = true := by
  cases ch with
  | closedchan => rfl
  | ofNode a =>
    simp only [State.chanClosed] at hc ⊢
    rcases h.done_step a with ⟨_, h2⟩ | ⟨_, _, h3⟩
    · rw [← h2]; exact hc
    · rw [h3] at hc; exact absurd hc (by simp)
  | ofForeign x =>
    simp only [State.chanClosed] at hc ⊢
    rw [← h.closed_foreign]; exact hc

theorem Done_closedchan {s : State} {c : canceler}
    (h : (s.nodes c.addr).done = DoneField.closedchan) :
    Done s c.ctx = (s, some Chan.closedchan) := by
  unfold canceler.ctx Done
  simp [h, DoneField.chan]

/-- An active struct whose channel was never asked for holds `closedchan` after the first
phase of `cancel`. -/
theorem cancelAux_sentinel (e : GoError) (s : State) (c : canceler) (hi : Inv s)
    (hc : c.addr < s.next) (hact : (s.nodes c.addr).err = none)
    (hnil : (s.nodes c.addr).done = DoneField.nil) :
    ∃ t, cancelAux (s.next + 1) s c false (some e) = Res.ok t ∧
      (t.nodes c.addr).done = DoneField.closedchan := by
  have hp := hi.pre
  have ho : DoneOpen s c.addr := (hp c.addr hc).1 hact
  have hcard : (activeSet (mark s c.addr e)).card < s.next := by
    have h1 := activeSet_card_lt (mark_next s c.addr e) (fun a ha => mark_err_some s c.addr e ha)
      hc hact (by rw [mark_err]; simp)
    have h2 := activeSet_card_le s
    omega
  obtain ⟨t, ht, _, hpost, _⟩ := foldl_cancelAux_spec s.next e (cancelAux_spec e s.next)
    (s.nodes c.addr).children (mark s c.addr e) (mark_pre hp c.addr e)
    (fun ch h => by rw [mark_next]; exact (hp c.addr hc).2 ch h) hcard
  refine ⟨t.setNode c.addr { t.nodes c.addr with children := [] }, ?_, ?_⟩
  · rw [cancelAux_active s.next s c false e hact ho, ht]
    simp [Res.bind]
  · have hta := hpost.canceled_same c.addr (by rw [mark_err]; simp)
    simp [State.setNode, hta, mark, hnil]

/-- The method `cancel` on an active struct whose channel was never asked for: the struct
holds `closedchan` afterwards, and `Done()` returns it. -/
theorem cancel_sentinel (e : GoError) (s : State) (c : canceler) (r : Bool) (hi : Inv s)
    (hc : c.addr < s.next) (hact : (s.nodes c.addr).err = none)
    (hnil : (s.nodes c.addr).done = DoneField.nil) :
    ∃ t, cancel s c r (some e) = Res.ok t ∧ (t.nodes c.addr).done = DoneField.closedchan ∧
      Done t c.ctx = (t, some Chan.closedchan) := by
  obtain ⟨m, hm, hd⟩ := cancelAux_sentinel e s c hi hc hact hnil
  cases r with
  | false => exact ⟨m, hm, hd, Done_closedchan hd⟩
  | true =>
    have hpr := removeChild_prune m c.Context c.embedded
    have hd2 : ((removeChild m c.Context c.embedded).nodes c.addr).done = DoneField.closedchan := by
      rcases hpr.done_step c.addr with ⟨h1, _⟩ | ⟨h1, _, _⟩
      · rw [h1]; exact hd
      · rw [hd] at h1; exact absurd h1 (by simp)
    refine ⟨removeChild m c.Context c.embedded, ?_, hd2, Done_closedchan hd2⟩
    unfold cancel
    rw [cancelAux_true, hm]
    simp [hact, Res.bind]

theorem CancelFunc_total (s : State) (c : canceler) (e : GoError) (hi : Inv s)
    (hc : c.addr < s.next) : ∃ t, CancelFunc s c (some e) = Res.ok t := by
  obtain ⟨_, _, t, ht, _⟩ := CancelFunc_spec s c e hi hc
  exact ⟨t, ht⟩

theorem DeadlineCancelFunc_total (s : State) (c : canceler) (e : GoError) (hi : Inv s)
    (hc : c.addr < s.next) : ∃ t, DeadlineCancelFunc s c (some e) = Res.ok t := by
  unfold DeadlineCancelFunc
  simp only [Wrapf]
  obtain ⟨t, ht, _⟩ := cancel_keeps s c true _ hi hc
  exact ⟨t, ht⟩

theorem timerFunc_total (s : State) (c : canceler) (hi : Inv s) (hc : c.addr < s.next) :
    ∃ t, timerFunc s c = Res.ok t := by
  unfold timerFunc
  simp only
  split
  · obtain ⟨t, ht, _⟩ := cancel_keeps (incTimeouts s c.name) c true
      (Errorf namedDeadlineExceededFormat [FmtArg.s c.name, FmtArg.d (Milliseconds (s.now - c.start))])
      (hi.congr_inv (incTimeouts_nodes s _) (incTimeouts_next s _) (incTimeouts_closed s _))
      (by rw [incTimeouts_next]; exact hc)
    exact ⟨t, ht⟩
  · obtain ⟨t, ht, _⟩ := cancel_keeps s c true
      (Errorf namedDeadlineExceededFormat [FmtArg.s c.name, FmtArg.d (Milliseconds (s.now - c.start))])
      hi hc
    exact ⟨t, ht⟩

theorem WithDeadline_total (s : State) (parent : Ctx) (d : Int) (name : String) (hi : Inv s)
    (hp : parentOk s parent) : ∃ r, WithDeadline s parent d name = Res.ok r := by
  by_cases hE : ∃ cur, Deadline s parent = some cur ∧ cur < d
  · obtain ⟨cur, hcur, hlt⟩ := hE
    obtain ⟨t, ht, _⟩ := WithCancel_total s parent name hi hp
    refine ⟨(t, (Context s parent name).2), ?_⟩
    unfold WithDeadline
    rw [earlier_true hcur hlt]
    simpa using ht
  · obtain ⟨_, t, ht, _⟩ := WithDeadline_own s parent d name hi hp
      (fun cur hcur hlt => hE ⟨cur, hcur, hlt⟩)
    exact ⟨_, ht⟩

/-- The body of a bridging goroutine returns: when it sees the channel of the parent closed,
the parent has an error to wrap. -/
theorem goroutine_total {s : State} (hs : Sound s) {parent : Ctx} {child : canceler}
    (hm : (parent, child) ∈ s.goroutines) (coin : Bool) :
    ∃ t, goroutine s parent child coin = Res.ok t := by
  have hr := Done_prune s parent
  have hq := Done_prune (Done s parent).1 child.ctx
  have hiq : Inv (Done (Done s parent).1 child.ctx).1 := hq.inv_prune (hr.inv_prune hs.inv)
  have hcq : child.addr < (Done (Done s parent).1 child.ctx).1.next := by
    rw [hq.next_eq, hr.next_eq]; exact (hs.goroutines _ hm).1
  have hpo : parentOk s parent := (hs.goroutines _ hm).2.parentOk_of hs.foreignOk
  have herr : Err (Done (Done s parent).1 child.ctx).1 parent = Err s parent :=
    Err_congr (fun a => by rw [hq.err_eq, hr.err_eq])
      (by rw [hq.foreign_eq, hr.foreign_eq]) parent
  unfold goroutine
  simp only
  split
  next hcond =>
    cases hE : Err s parent with
    | some e =>
      rw [herr, hE]
      simp only [Wrapf]
      obtain ⟨t, ht, _⟩ := cancel_keeps (Done (Done s parent).1 child.ctx).1 child false
        (GoError.wrapf (Sprintf namedParentErrFormat [FmtArg.s child.String]) e) hiq hcq
      rw [ht]
      exact ⟨_, rfl⟩
    | none =>
      exfalso
      cases hd : (Done s parent).2 with
      | none => simp [hd] at hcond
      | some ch =>
        simp only [hd, Bool.and_eq_true] at hcond
        obtain ⟨e, he⟩ := Err_of_Done_closed hs.inv hpo hd (hq.closed_back hcond.1)
        rw [hE] at he
        exact absurd he (by simp)
  next => split <;> exact ⟨_, rfl⟩

/-- In a well-formed store `Done()` on an allocated struct returns a closed channel exactly
when the struct has an error. -/
theorem Done_closed_iff {s : State} (hi : Inv s) (c : canceler) (hc : c.addr < s.next) :
    (∃ ch, (Done s c.ctx).2 = some ch ∧ (Done s c.ctx).1.chanClosed ch = true) ↔
      Err s c.ctx ≠ none := by
  rw [Err_ctx]
  constructor
  · rintro ⟨ch, hch, hcl⟩ herr
    have ho : DoneOpen (Done s c.ctx).1 c.addr := (Done_prune s c.ctx).doneOpen ((hi c.addr hc).1 herr)
    obtain ⟨h1, h2⟩ := Done_named s c
    rcases ho with hnil | ⟨hmade, hopen⟩
    · exact h2 hnil
    · rw [h1, hmade] at hch
      simp only [DoneField.chan, Option.some.injEq] at hch
      rw [← hch] at hcl
      simp only [State.chanClosed] at hcl
      rw [hopen] at hcl
      exact absurd hcl (by simp)
  · intro herr
    obtain ⟨ch, h1, h2⟩ := @Done_of_doneClosed s c ((hi c.addr hc).2.1 herr).1
    exact ⟨ch, by rw [h1], by rw [h1]; exact h2⟩

/-! ## The claims, continued -/

/-- C11. Value lookup: let `c` be made by `WithValue(parent, name, k, v)`, `k` not being the
package's private key. Then `Value(k)` is `v`, whatever the parent is; for every other key
`q` but the private one `Value(q)` is `parent.Value(q)`; a node made by `WithCancel` or
`WithDeadline` over `p` answers every key but the private one as `p` does (for the nil key:
when `p` answers nil, as the struct without a key does itself); and below `c`, through
any chain of structs that do not store `k` themselves, `Value(k)` is still `v`. -/
theorem value_lookup (s t : State) (parent : Ctx) (name : String) (k v : Iface) (c : canceler)
    (hw : WithValue s parent name k v = Res.ok (t, c)) (hk : k ≠ Iface.cancelCtxKeyPtr) :
    Value c.ctx k = v ∧
    (∀ other : Ctx, Value (Ctx.named c.addr other c.name c.key c.val c.start c.deadline) k = v) ∧
    (∀ q, q ≠ k → q ≠ Iface.cancelCtxKeyPtr → Value c.ctx q = Value parent q) ∧
    (∀ (s1 t1 : State) (p : Ctx) (n : String) (d : Int) (c1 : canceler),
      (WithCancel s1 p n = Res.ok (t1, c1) ∨ WithDeadline s1 p d n = Res.ok (t1, c1)) →
      ∀ q, q ≠ Iface.cancelCtxKeyPtr → (q = Iface.nil → Value p Iface.nil = Iface.nil) →
        Value c1.ctx q = Value p q) ∧
    (∀ d, Through k c.ctx d → Value d k = v) := by
  obtain ⟨_, _, _, hc⟩ := WithValue_ptr hw
  have hkey : c.key = k := by rw [hc]
  have hval : c.val = v := by rw [hc]
  have hpar : c.Context = parent := by rw [hc]; rfl
  have hself : ∀ other : Ctx,
      Value (Ctx.named c.addr other c.name c.key c.val c.start c.deadline) k = v := by
    intro other
    simp [Value, hk, hkey, hval]
  refine ⟨hself c.Context, hself, ?_, ?_, ?_⟩
  · intro q hqk hq
    simp [canceler.ctx, Value, hq, hkey, hqk, hpar]
  · intro s1 t1 p n d c1 h q hq hnil
    have hptr : c1 = (Context s1 p n).2 ∨ c1 = { (Context s1 p n).2 with deadline := some d } := by
      rcases h with h | h
      · exact Or.inl (WithCancel_ptr h)
      · exact WithDeadline_ptr h
    rcases hptr with h1 | h1 <;> (rw [h1]; exact Value_keyless _ p n _ _ q hq hnil)
  · intro d hd
    rw [Value_through hk hd]
    exact hself c.Context

/-- C11, at the test "value lookup": the key "xxx" stored by `WithValue` is found with the
value "yyy" through the node made by `WithTimeout` over it. -/
theorem value_lookup_witness :
    Value lookupTimeout.2.ctx (Iface.str "xxx") = Iface.str "yyy" ∧
    (Value lookupValue.2.ctx (Iface.str "xxx") = Iface.str "yyy" ∧
    (∀ other : Ctx, Value (Ctx.named lookupValue.2.addr other lookupValue.2.name lookupValue.2.key
        lookupValue.2.val lookupValue.2.start lookupValue.2.deadline) (Iface.str "xxx") = Iface.str "yyy") ∧
    (∀ q, q ≠ Iface.str "xxx" → q ≠ Iface.cancelCtxKeyPtr →
      Value lookupValue.2.ctx q = Value Ctx.background q) ∧
    (∀ (s1 t1 : State) (p : Ctx) (n : String) (d : Int) (c1 : canceler),
      (WithCancel s1 p n = Res.ok (t1, c1) ∨ WithDeadline s1 p d n = Res.ok (t1, c1)) →
      ∀ q, q ≠ Iface.cancelCtxKeyPtr → (q = Iface.nil → Value p Iface.nil = Iface.nil) →
        Value c1.ctx q = Value p q) ∧
    (∀ d, Through (Iface.str "xxx") lookupValue.2.ctx d → Value d (Iface.str "xxx") = Iface.str "yyy")) :=
  ⟨by decide,
    value_lookup State.init lookupValue.1 Ctx.background "func13" (Iface.str "xxx") (Iface.str "yyy")
      lookupValue.2 rfl (by decide)⟩

/-- C12. `WithValue` panics if and only if the key is nil or its type is not comparable;
for every other key it returns a pointer to a new struct under the given name and parent
that stores the pair, and a lookup of the key on it gives the value. It never fails in any
other way. -/
theorem WithValue_panics_iff (s : State) (parent : Ctx) (name : String) (key val : Iface) :
    ((∃ msg, WithValue s parent name key val = Res.panic msg) ↔
      (key = Iface.nil ∨ key.Comparable = false)) ∧
    ((∃ msg, WithValue s parent name key val = Res.panic msg) ∨
      ∃ t c, WithValue s parent name key val = Res.ok (t, c) ∧ c.name = name ∧
        c.Context = parent ∧ c.key = key ∧ c.val = val ∧ c.addr = s.next ∧
        (key ≠ Iface.cancelCtxKeyPtr → Value c.ctx key = val)) := by
  unfold WithValue
  by_cases h1 : key = Iface.nil
  · simp [h1]
  · by_cases h2 : key.Comparable = false
    · simp [h1, h2]
    · simp only [h1, h2, if_false, false_or]
      refine ⟨by simp, Or.inr ⟨_, _, rfl, rfl, rfl, rfl, rfl, rfl, ?_⟩⟩
      intro hk
      simp [canceler.ctx, Value, hk]

/-- C13, the claim as stated fails: over the node `test 1`, which has no deadline and is
canceled with "my error", `WithDeadline(parent, d, "late")` with `d` not after now returns
a node that is canceled with the cause of the parent, not with the deadline-exceeded cause
for `late`. -/
theorem elapsed_deadline_counterexample :
    Deadline simpleUseCanceled simpleUse.2.ctx = none ∧
    (0 : Int) - simpleUseCanceled.now ≤ 0 ∧
    Err lateDeadline.1 lateDeadline.2.ctx = some (GoError.wrapf "named context [test 1]" myError) ∧
    Err lateDeadline.1 lateDeadline.2.ctx ≠
      some (Errorf namedDeadlineExceededFormat [FmtArg.s "late", FmtArg.d 0]) := by
  decide

/-- C13, as the code has it. Elapsed deadline: on a well-formed store, for every parent that
exists, is not canceled and does not carry an earlier deadline, and every deadline `d`
that is not after now, `WithDeadline(parent, d, name)` returns a node that is canceled
already, its channel closed, whose cause is the deadline-exceeded cause for `name` with
0 ms, and no timer is scheduled: the schedule and the `timer` field are as before. -/
theorem elapsed_deadline (s : State) (parent : Ctx) (d : Int) (name : String) (hi : Inv s)
    (hp : parentOk s parent) (hpar : Err s parent = none)
    (hdl : ∀ cur, Deadline s parent = some cur → ¬ cur < d) (hdur : d - s.now ≤ 0) :
    ∃ t c, WithDeadline s parent d name = Res.ok (t, c) ∧ c.name = name ∧ c.deadline = some d ∧
      Err t c.ctx = some (Errorf namedDeadlineExceededFormat [FmtArg.s name, FmtArg.d 0]) ∧
      (Err t c.ctx).map GoError.Error =
        some ("named context [" ++ name ++ "] deadline exceeded after [0ms]") ∧
      (∃ ch, Done t c.ctx = (t, some ch) ∧ t.chanClosed ch = true) ∧
      (t.nodes c.addr).timer = none ∧ t.timers = s.timers := by
  obtain ⟨t0, t, ht, hit0, hw, hit, hopen, hel, _, _⟩ := WithDeadline_own s parent d name hi hp hdl
  obtain ⟨m, hpost, him, hprune, hmerr⟩ := hel hdur
  have herr : (t.nodes s.next).err =
      some (Errorf namedDeadlineExceededFormat [FmtArg.s name, FmtArg.d 0]) := by
    rw [hprune.err_eq]; exact hpost.err_of_active (hopen hpar) hmerr
  have hlt : s.next < m.next := by rw [hpost.next_eq, hw.next_eq]; exact Nat.lt_succ_self _
  refine ⟨t, _, ht, rfl, rfl, herr, ?_, ?_, ?_, ?_⟩
  · rw [Err_ctx]
    simp only [Context]
    rw [herr, Option.map_some', Errorf_deadline_Error]
    simp only [String.append_assoc]
    rfl
  · exact @Done_of_doneClosed t { (Context s parent name).2 with deadline := some d }
      (hprune.doneClosed ((him s.next hlt).2.1 hmerr).1)
  · have h1 := hprune.wire_prune.timer_eq s.next
    have h2 := hpost.wire_post.timer_eq s.next
    have h3 := hw.timer_eq s.next
    show (t.nodes s.next).timer = none
    rw [h1, h2, h3, Context_fresh_next]
    rfl
  · rw [hprune.timers_eq, hpost.timers_eq, hw.timers_eq]
    rfl

/-- C13, at a concrete store: under the background context, with the deadline now. -/
theorem elapsed_deadline_witness :
    Inv State.init ∧ parentOk State.init Ctx.background ∧
    ∃ t c, WithDeadline State.init Ctx.background 0 "d" = Res.ok (t, c) ∧ c.name = "d" ∧
      c.deadline = some 0 ∧
      Err t c.ctx = some (Errorf namedDeadlineExceededFormat [FmtArg.s "d", FmtArg.d 0]) ∧
      (Err t c.ctx).map GoError.Error =
        some ("named context [" ++ "d" ++ "] deadline exceeded after [0ms]") ∧
      (∃ ch, Done t c.ctx = (t, some ch) ∧ t.chanClosed ch = true) ∧
      (t.nodes c.addr).timer = none ∧ t.timers = State.init.timers :=
  ⟨by decide, by decide,
    elapsed_deadline State.init Ctx.background 0 "d" (by decide) (by decide) rfl
      (fun cur h => by simp [Deadline] at h) (by decide)⟩

/-- C14. Earlier parent deadline: on a well-formed store and for a parent that exists,
if `Deadline()` of the parent is strictly before `d`, `WithDeadline(parent, d, name)` is
`WithCancel(parent, name)`: it returns a pointer to a plain struct whose `timer` field is
nil, the schedule of timers is as before, `Deadline()` of the node is the parent's, and
the node is active or has the parent's error; if the parent has no deadline or one that
is not before `d`, it returns a pointer to a `timerCtx` whose `Deadline()` is `d`. -/
theorem earlier_parent_deadline (s : State) (parent : Ctx) (d : Int) (name : String) (hi : Inv s)
    (hp : parentOk s parent) :
    (∀ cur, Deadline s parent = some cur → cur < d →
      WithDeadline s parent d name = WithCancel s parent name ∧
      ∃ t c, WithDeadline s parent d name = Res.ok (t, c) ∧ c.name = name ∧ c.deadline = none ∧
        (t.nodes c.addr).timer = none ∧ t.timers = s.timers ∧ Deadline t c.ctx = some cur ∧
        (Err t c.ctx = none ∨ Err t c.ctx = Err s parent)) ∧
    ((∀ cur, Deadline s parent = some cur → ¬ cur < d) →
      ∃ t c, WithDeadline s parent d name = Res.ok (t, c) ∧ c.name = name ∧
        c.deadline = some d ∧ Deadline t c.ctx = some d) := by
  constructor
  · intro cur hcur hlt
    have heq : WithDeadline s parent d name = WithCancel s parent name := by
      unfold WithDeadline
      rw [earlier_true hcur hlt]
      simp
    obtain ⟨t, ht, _, hw, _, herr, _⟩ := WithCancel_total s parent name hi hp
    refine ⟨heq, t, (Context s parent name).2, by rw [heq]; exact ht, rfl, rfl, ?_, ?_, ?_, herr⟩
    · show (t.nodes s.next).timer = none
      rw [hw.timer_eq s.next, Context_fresh_next]
      rfl
    · rw [hw.timers_eq]; rfl
    · have hf : t.foreign = s.foreign := hw.foreign_eq
      simp only [canceler.ctx, Context, Deadline]
      rw [Deadline_congr hf]
      exact hcur
  · intro hdl
    obtain ⟨t0, t, ht, _⟩ := WithDeadline_own s parent d name hi hp hdl
    exact ⟨t, _, ht, rfl, rfl, rfl⟩

/-- C14, at a concrete store: over the deadline node `child` (deadline at 10 ms), a node
asked for with a deadline at 20 ms is a plain node that reports 10 ms. -/
theorem earlier_parent_deadline_witness :
    Inv deadlineChild.1 ∧ parentOk deadlineChild.1 deadlineChild.2.ctx ∧
    Deadline laterDeadline.1 laterDeadline.2.ctx = some 10000000 ∧
    laterDeadline.2.deadline = none ∧
    ((∀ cur, Deadline deadlineChild.1 deadlineChild.2.ctx = some cur → cur < 20000000 →
      WithDeadline deadlineChild.1 deadlineChild.2.ctx 20000000 "later" =
        WithCancel deadlineChild.1 deadlineChild.2.ctx "later" ∧
      ∃ t c, WithDeadline deadlineChild.1 deadlineChild.2.ctx 20000000 "later" = Res.ok (t, c) ∧
        c.name = "later" ∧ c.deadline = none ∧
        (t.nodes c.addr).timer = none ∧ t.timers = deadlineChild.1.timers ∧
        Deadline t c.ctx = some cur ∧
        (Err t c.ctx = none ∨ Err t c.ctx = Err deadlineChild.1 deadlineChild.2.ctx)) ∧
    ((∀ cur, Deadline deadlineChild.1 deadlineChild.2.ctx = some cur → ¬ cur < 20000000) →
      ∃ t c, WithDeadline deadlineChild.1 deadlineChild.2.ctx 20000000 "later" = Res.ok (t, c) ∧
        c.name = "later" ∧ c.deadline = some 20000000 ∧ Deadline t c.ctx = some 20000000)) :=
  ⟨by decide, by decide, by decide, by decide,
    earlier_parent_deadline deadlineChild.1 deadlineChild.2.ctx 20000000 "later" (by decide)
      (by decide)⟩

/-- C17 (done/err invariant).  In every store reachable through the constructors, `Done()`,
the cancel functions, timer fires, the bridging goroutine and what foreign owners do, for
every allocated struct: the channel the field `done` holds is closed (its own channel, or
`closedchan`) exactly when the field `err` is set, and `Done()` returns a closed channel
exactly when `Err()` is not nil; no operation closes a channel that is closed already,
since `close` panics on one and `cancel`, both cancel functions, the timer function, the
goroutine and the constructors all return; and `cancel` on an active struct whose `Done()`
was never called puts `closedchan` into the field, which a later `Done()` returns, closed. -/
theorem done_err_invariant (s : State) (h : Reachable s) (c : canceler) (hc : c.addr < s.next) :
    (DoneClosed s c.addr ↔ (s.nodes c.addr).err ≠ none) ∧
    ((∃ ch, (Done s c.ctx).2 = some ch ∧ (Done s c.ctx).1.chanClosed ch = true) ↔
        Err s c.ctx ≠ none) ∧
    (∀ (r : Bool) (e : GoError), ∃ t, cancel s c r (some e) = Res.ok t) ∧
    (∀ e : GoError, ∃ t, CancelFunc s c (some e) = Res.ok t) ∧
    (∀ e : GoError, ∃ t, DeadlineCancelFunc s c (some e) = Res.ok t) ∧
    (∀ due : Int, ∃ t, fire s c due = Res.ok t) ∧
    (∀ (parent : Ctx) (coin : Bool), (parent, c) ∈ s.goroutines →
        ∃ t, goroutine s parent c coin = Res.ok t) ∧
    (∀ (name : String), ∃ r, WithCancel s c.ctx name = Res.ok r) ∧
    (∀ (d : Int) (name : String), ∃ r, WithDeadline s c.ctx d name = Res.ok r) ∧
    ((s.nodes c.addr).err = none → (s.nodes c.addr).done = DoneField.nil →
      ∀ (r : Bool) (e : GoError), ∃ t, cancel s c r (some e) = Res.ok t ∧
        (t.nodes c.addr).done = DoneField.closedchan ∧
        Done t c.ctx = (t, some Chan.closedchan) ∧ t.chanClosed Chan.closedchan = true) := by
  have hs := sound_of_reachable h
  have hi := hs.inv
  have hp : parentOk s c.ctx := by
    have ha : ctxAllocated s c.ctx := by
      unfold ctxAllocated canceler.ctx
      simpa [namedBehind] using hc
    exact ha.parentOk_of hs.foreignOk
  refine ⟨?_, Done_closed_iff hi c hc, ?_, ?_, ?_, ?_, ?_, ?_, ?_, ?_⟩
  · constructor
    · intro hd herr
      rcases (hi c.addr hc).1 herr with h1 | ⟨h1, h2⟩ <;> rcases hd with h3 | ⟨h3, h4⟩
      · rw [h1] at h3; exact absurd h3 (by simp)
      · rw [h1] at h3; exact absurd h3 (by simp)
      · rw [h1] at h3; exact absurd h3 (by simp)
      · rw [h2] at h4; exact absurd h4 (by simp)
    · exact fun herr => ((hi c.addr hc).2.1 herr).1
  · intro r e
    obtain ⟨t, ht, _⟩ := cancel_keeps s c r e hi hc
    exact ⟨t, ht⟩
  · exact fun e => CancelFunc_total s c e hi hc
  · exact fun e => DeadlineCancelFunc_total s c e hi hc
  · intro due
    unfold fire
    exact timerFunc_total _ c (hi.congr_inv rfl rfl rfl) hc
  · exact fun parent coin hm => goroutine_total hs hm coin
  · intro name
    obtain ⟨t, ht, _⟩ := WithCancel_total s c.ctx name hi hp
    exact ⟨_, ht⟩
  · exact fun d name => WithDeadline_total s c.ctx d name hi hp
  · intro hact hnil r e
    obtain ⟨t, ht, h1, h2⟩ := cancel_sentinel e s c r hi hc hact hnil
    exact ⟨t, ht, h1, h2, rfl⟩

/-- C17, at the test "simple use" after the deferred cancel. The store is reachable:
`WithCancel(Background(), "test 1")` after `init`, then the cancel function; its node is
allocated, canceled, and holds `closedchan`, no `Done()` having been called. -/
theorem done_err_invariant_witness :
    Reachable simpleUseCanceled ∧ simpleUse.2.addr < simpleUseCanceled.next ∧
    (DoneClosed simpleUseCanceled simpleUse.2.addr ↔
      (simpleUseCanceled.nodes simpleUse.2.addr).err ≠ none) ∧
    ((∃ ch, (Done simpleUseCanceled simpleUse.2.ctx).2 = some ch ∧
        (Done simpleUseCanceled simpleUse.2.ctx).1.chanClosed ch = true) ↔
      Err simpleUseCanceled simpleUse.2.ctx ≠ none) ∧
    (∀ (r : Bool) (e : GoError), ∃ t, cancel simpleUseCanceled simpleUse.2 r (some e) = Res.ok t) :=
  have hr : Reachable simpleUseCanceled :=
    Reachable.cancelFunc simpleUse.2 (some myError)
      (Reachable.withCancel Ctx.background "test 1" simpleUse.2 Reachable.init (by decide) rfl)
      (by decide) rfl
  ⟨hr, by decide, (done_err_invariant simpleUseCanceled hr simpleUse.2 (by decide)).1,
    (done_err_invariant simpleUseCanceled hr simpleUse.2 (by decide)).2.1,
    (done_err_invariant simpleUseCanceled hr simpleUse.2 (by decide)).2.2.1⟩

/-- C18, at the failing input: the deadline node `c`, made by `WithDeadline(A, d, "c")`
over the active node `A`, is registered in the children set of `A`. After its cancel
function is called, and just as well after its timer has fired, `c` is canceled but the
children set of `A` still holds the entry of `c`: `removeChild` is given the pointer to
the embedded `namedContext`, which is not the registered pointer to the `timerCtx`. The
node `B` made by `WithCancel(A, "B")` does leave the children set of `A`. -/
theorem deadline_child_not_pruned :
    (deadlineUnderA.1.nodes nodeA.2.addr).children = [deadlineUnderA.2] ∧
    Err deadlineUnderA.1 nodeA.2.ctx = none ∧
    Err deadlineUnderACanceled deadlineUnderA.2.ctx ≠ none ∧
    deadlineUnderA.2 ∈ (deadlineUnderACanceled.nodes nodeA.2.addr).children ∧
    Err deadlineUnderAFired deadlineUnderA.2.ctx ≠ none ∧
    deadlineUnderA.2 ∈ (deadlineUnderAFired.nodes nodeA.2.addr).children ∧
    deadlineUnderA.2.embedded ≠ deadlineUnderA.2 ∧
    (nodeAB.1.nodes nodeA.2.addr).children = [nodeAB.2] ∧
    (nodeABChildCanceled.nodes nodeA.2.addr).children = [] := by
  decide

/-- C19, the claim as stated fails: the deadline node `child`, with 10 ms to go, is
canceled through its cancel function; afterwards its function is still on the schedule of
timers and its `timer` field is still set. -/
theorem timer_release_counterexample :
    (deadlineChild.2, 10000000) ∈ deadlineChild.1.timers ∧
    Err deadlineChildCanceled deadlineChild.2.ctx ≠ none ∧
    (deadlineChild.2, 10000000) ∈ deadlineChildCanceled.timers ∧
    (deadlineChildCanceled.nodes deadlineChild.2.addr).timer = some 10000000 := by
  decide

/-- C19, as the code has it. The timer of a canceled deadline node is left alone: when a
node with a scheduled timer is canceled, by its cancel function or by a call of
`cancel` from a parent or a bridging goroutine, the call returns, the node is canceled,
its function stays on the schedule and its `timer` field stays as it is; when the timer
fires afterwards, the function returns and only takes the entry off the schedule: structs,
channels and metrics are as before. -/
theorem timer_left_scheduled (s : State) (c : canceler) (due : Int) (e : GoError) (r : Bool)
    (hi : Inv s) (hc : c.addr < s.next) (hsched : (c, due) ∈ s.timers) :
    (∃ t, DeadlineCancelFunc s c (some e) = Res.ok t ∧ Err t c.ctx ≠ none ∧
      (c, due) ∈ t.timers ∧ (t.nodes c.addr).timer = (s.nodes c.addr).timer ∧
      fire t c due = Res.ok { t with timers := t.timers.erase (c, due) }) ∧
    (∃ t, cancel s c r (some e) = Res.ok t ∧ Err t c.ctx ≠ none ∧
      (c, due) ∈ t.timers ∧ (t.nodes c.addr).timer = (s.nodes c.addr).timer ∧
      fire t c due = Res.ok { t with timers := t.timers.erase (c, due) }) := by
  have key : ∀ (b : Bool) (e1 : GoError), ∃ t, cancel s c b (some e1) = Res.ok t ∧
      Err t c.ctx ≠ none ∧ (c, due) ∈ t.timers ∧ (t.nodes c.addr).timer = (s.nodes c.addr).timer ∧
      fire t c due = Res.ok { t with timers := t.timers.erase (c, due) } := by
    intro b e1
    obtain ⟨t, ht, _, hw, _, _, hne, _⟩ := cancel_keeps s c b e1 hi hc
    refine ⟨t, ht, hne, by rw [hw.timers_eq]; exact hsched, hw.timer_eq _, ?_⟩
    unfold fire timerFunc
    simp only [hne, if_false]
    unfold cancel
    exact cancelAux_canceled _ _ c true _ hne
  refine ⟨?_, key r e⟩
  unfold DeadlineCancelFunc
  simp only [Wrapf]
  exact key true _

/-- C19, at a concrete store: the deadline node `child` with 10 ms to go. -/
theorem timer_left_scheduled_witness :
    Inv deadlineChild.1 ∧ (deadlineChild.1.nodes deadlineChild.2.addr).err = none ∧
    (deadlineChild.2, 10000000) ∈ deadlineChild.1.timers ∧
    ((∃ t, DeadlineCancelFunc deadlineChild.1 deadlineChild.2 (some myError) = Res.ok t ∧
      Err t deadlineChild.2.ctx ≠ none ∧
      (deadlineChild.2, 10000000) ∈ t.timers ∧
      (t.nodes deadlineChild.2.addr).timer = (deadlineChild.1.nodes deadlineChild.2.addr).timer ∧
      fire t deadlineChild.2 10000000 =
        Res.ok { t with timers := t.timers.erase (deadlineChild.2, 10000000) }) ∧
    (∃ t, cancel deadlineChild.1 deadlineChild.2 false (some myError) = Res.ok t ∧
      Err t deadlineChild.2.ctx ≠ none ∧
      (deadlineChild.2, 10000000) ∈ t.timers ∧
      (t.nodes deadlineChild.2.addr).timer = (deadlineChild.1.nodes deadlineChild.2.addr).timer ∧
      fire t deadlineChild.2 10000000 =
        Res.ok { t with timers := t.timers.erase (deadlineChild.2, 10000000) })) :=
  ⟨by decide, by decide, by decide,
    timer_left_scheduled deadlineChild.1 deadlineChild.2 10000000 myError false (by decide)
      (by decide) (by decide)⟩

/-- C20. Timeout metric counts only winning timeouts: with a collector installed, on a
well-formed store, when the timer of the node `c` fires while `c` is active, the function
returns and the counter of timeouts under the name of `c` is one higher, the counters
under other names being as before; when it fires while `c` is canceled, the function
returns and the collector is as before. -/
theorem timeout_metric (s : State) (c : canceler) (due : Int) (m : Metrics) (hi : Inv s)
    (hc : c.addr < s.next) (hm : s.metricsCollector = some m) :
    ((s.nodes c.addr).err = none →
      ∃ t m1, fire s c due = Res.ok t ∧ t.metricsCollector = some m1 ∧
        m1.timeouts c.name = m.timeouts c.name + 1 ∧
        (∀ l, l ≠ c.name → m1.timeouts l = m.timeouts l) ∧ m1.cancels = m.cancels) ∧
    ((s.nodes c.addr).err ≠ none →
      ∃ t, fire s c due = Res.ok t ∧ t.metricsCollector = some m) := by
  constructor
  · intro hact
    have hi1 : Inv (incTimeouts { s with timers := s.timers.erase (c, due) } c.name) :=
      hi.congr_inv (incTimeouts_nodes _ _) (incTimeouts_next _ _) (incTimeouts_closed _ _)
    obtain ⟨t, ht, _, _, hmet, _⟩ := cancel_keeps
      (incTimeouts { s with timers := s.timers.erase (c, due) } c.name) c true
      (Errorf namedDeadlineExceededFormat [FmtArg.s c.name, FmtArg.d (Milliseconds (s.now - c.start))])
      hi1 (by rw [incTimeouts_next]; exact hc)
    refine ⟨t, { m with timeouts := fun l => if l = c.name then m.timeouts l + 1 else m.timeouts l },
      ?_, ?_, by simp, fun l hl => by simp [hl], rfl⟩
    · unfold fire timerFunc
      simp only [hact, if_true]
      exact ht
    · rw [hmet]
      simp [incTimeouts, hm]
  · intro hne
    refine ⟨{ s with timers := s.timers.erase (c, due) }, ?_, hm⟩
    unfold fire timerFunc
    simp only [hne, if_false]
    unfold cancel
    exact cancelAux_canceled _ _ c true _ hne

/-- C20, at the test "cancel by timeout, metrics": the collector starts at zero and the
timer of the node `func11` fires after 10 ms. -/
theorem timeout_metric_witness :
    Inv (meteredTimeout.1.advance 10000000) ∧
    (meteredTimeout.1.advance 10000000).metricsCollector = some NewPrometheusMetrics ∧
    (((meteredTimeout.1.advance 10000000).nodes meteredTimeout.2.addr).err = none →
      ∃ t m1, fire (meteredTimeout.1.advance 10000000) meteredTimeout.2 10000000 = Res.ok t ∧
        t.metricsCollector = some m1 ∧
        m1.timeouts meteredTimeout.2.name = NewPrometheusMetrics.timeouts meteredTimeout.2.name + 1 ∧
        (∀ l, l ≠ meteredTimeout.2.name → m1.timeouts l = NewPrometheusMetrics.timeouts l) ∧
        m1.cancels = NewPrometheusMetrics.cancels) ∧
    (((meteredTimeout.1.advance 10000000).nodes meteredTimeout.2.addr).err ≠ none →
      ∃ t, fire (meteredTimeout.1.advance 10000000) meteredTimeout.2 10000000 = Res.ok t ∧
        t.metricsCollector = some NewPrometheusMetrics) :=
  ⟨by decide, rfl,
    timeout_metric (meteredTimeout.1.advance 10000000) meteredTimeout.2 10000000
      NewPrometheusMetrics (by decide) (by decide) rfl⟩

/-! ## Facts about the bridging goroutines -/

theorem madeOver_namedBehind {a : Nat} {ctx : Ctx} (h : madeOver a ctx = true) :
    namedBehind ctx = some a := by
  induction ctx with
  | background => simp [madeOver] at h
  | foreign _ _ _ => simp [madeOver] at h
  | valueCtx parent key val ih =>
    simp only [madeOver, Bool.and_eq_true] at h
    simpa [namedBehind] using ih h.2
  | named b parent name key val start deadline _ =>
    simp only [madeOver, decide_eq_true_eq] at h
    subst h
    rfl

/-- Allocating a struct does not change what `Done()` of an existing context returns, nor
which channels are closed afterwards. -/
theorem Done_Context {s : State} {parent : Ctx} (hb : ∀ a, namedBehind parent = some a → a < s.next)
    (p : Ctx) (name : String) :
    (Done (Context s p name).1 parent).2 = (Done s parent).2 ∧
      ∀ ch, (Done (Context s p name).1 parent).1.chanClosed ch = (Done s parent).1.chanClosed ch := by
  induction parent with
  | background => exact ⟨rfl, fun ch => by cases ch <;> rfl⟩
  | foreign h q _ => exact ⟨rfl, fun ch => by cases ch <;> rfl⟩
  | valueCtx q key val ih => simpa [Done] using ih (by simpa [namedBehind] using hb)
  | named a q nm key val start deadline _ =>
    have ha : a < s.next := hb a rfl
    have hn : (Context s p name).1.nodes a = s.nodes a := Context_nodes_lt s p name ha
    unfold Done
    rw [hn]
    split
    · exact ⟨rfl, fun ch => by cases ch <;> rfl⟩
    · exact ⟨rfl, fun ch => by cases ch <;> rfl⟩

theorem parentOpen_Context {s : State} {parent : Ctx} (hp : parentOk s parent) (p : Ctx)
    (name : String) : parentOpen (Context s p name).1 parent ↔ parentOpen s parent := by
  have hb : ∀ a, namedBehind parent = some a → a < s.next := by
    intro a ha
    have := hp.1
    rw [ha] at this
    exact this
  obtain ⟨h1, h2⟩ := @Done_Context s parent hb p name
  unfold parentOpen
  rw [h1]
  cases (Done s parent).2 with
  | none => exact Iff.rfl
  | some ch => simp only [h2 ch]

/-- What `propagateCancel` does to the bridging goroutines and their counter; over an active
struct of this package the child is put into the children set instead. -/
theorem propagateCancel_bridged (s : State) (parent : Ctx) (child : canceler) (m : Metrics)
    (hi : Inv s) (hp : parentOk s parent) (hc : child.addr < s.next)
    (hm : s.metricsCollector = some m) :
    ∃ t, propagateCancel s parent child = Res.ok t ∧ Inv t ∧ Wire s t ∧
      Bridged s t parent child m ∧
      (∀ p, madeOver p parent = true → (s.nodes p).err = none →
        child ∈ (t.nodes p).children ∧ (parentNamedCtx t parent).2 = some p) := by
  obtain ⟨t, ht, hit, hw, _⟩ := propagateCancel_spec s parent child hi hp hc
  have hr := Done_prune s parent
  have hi1 : Inv (Done s parent).1 := hr.inv_prune hi
  have hc1 : child.addr < (Done s parent).1.next := by rw [hr.next_eq]; exact hc
  have hnamed : ∀ p, madeOver p parent = true → (s.nodes p).err = none →
      t = (Done s parent).1.setNode p { (Done s parent).1.nodes p with
        children :=
          if child ∈ ((Done s parent).1.nodes p).children then ((Done s parent).1.nodes p).children
          else ((Done s parent).1.nodes p).children ++ [child] } ∧
        ((Done s parent).1.nodes p).done = DoneField.made := by
    intro p hover hact
    have hb := madeOver_namedBehind hover
    have hpn : p < s.next := by
      have := hp.1
      rw [hb] at this
      exact this
    obtain ⟨hd1, hd2⟩ := @Done_behind s parent p hb
    have hopen : DoneOpen (Done s parent).1 p := hr.doneOpen ((hi p hpn).1 hact)
    have hmade : ((Done s parent).1.nodes p).done = DoneField.made ∧
        (Done s parent).1.closed (Chan.ofNode p) = false := by
      rcases hopen with h | h
      · exact absurd h hd2
      · exact h
    have hres : (Done s parent).2 = some (Chan.ofNode p) := by
      rw [hd1, hmade.1]; rfl
    obtain ⟨hdd, hval⟩ := @Done_madeOver (Done s parent).1 parent p hover hmade.1
    have herr1 : ((Done s parent).1.nodes p).err = none := by rw [hr.err_eq]; exact hact
    have hq : parentNamedCtx (Done s parent).1 parent = ((Done s parent).1, some p) := by
      unfold parentNamedCtx
      simp [hdd, hval, hmade.1, DoneField.chan]
    have hcalc : propagateCancel s parent child =
        Res.ok ((Done s parent).1.setNode p { (Done s parent).1.nodes p with
          children :=
            if child ∈ ((Done s parent).1.nodes p).children then ((Done s parent).1.nodes p).children
            else ((Done s parent).1.nodes p).children ++ [child] }) := by
      unfold propagateCancel
      simp only [hres, State.chanClosed, hmade.2, hq, herr1]
      simp
    rw [hcalc] at ht
    injection ht with ht
    exact ⟨ht.symm, hmade.1⟩
  refine ⟨t, ht, hit, hw, ?_, ?_⟩
  · refine
      { spawned := ?_
        not_cancelable := ?_
        canceled := ?_
        registered := ?_ }
    · intro h hf hcan hopen
      have hcalc := propagateCancel_foreign child hf hcan hopen
      rw [hcalc] at ht
      injection ht with ht
      refine ⟨by rw [parentNamedCtx_foreign hf], ?_, ?_⟩
      · refine ⟨(⟨m.gorutinesAll + 1, m.gorutinesCurrent + 1, m.timeouts, m.cancels⟩ : Metrics),
          ?_, rfl, rfl, rfl, rfl⟩
        rw [← ht]
        simp [incGorutines, hm]
      · rw [← ht]
        simp [incGorutines_goroutines]
    · intro hnone
      have hcalc : propagateCancel s parent child = Res.ok (Done s parent).1 := by
        unfold propagateCancel
        simp only [hnone]
      rw [hcalc] at ht
      injection ht with ht
      rw [← ht]
      exact ⟨by rw [hr.metrics_eq]; exact hm, hr.goroutines_eq⟩
    · intro hclosed
      unfold parentOpen at hclosed
      cases hd : (Done s parent).2 with
      | none => rw [hd] at hclosed; exact absurd trivial hclosed
      | some ch =>
        rw [hd] at hclosed
        simp only [Bool.not_eq_false] at hclosed
        obtain ⟨e, he⟩ := Err_of_Done_closed hi hp hd hclosed
        have he1 : Err (Done s parent).1 parent = some e := by
          rw [Err_congr hr.err_eq hr.foreign_eq]; exact he
        obtain ⟨u, hu, _, _, hmet, hgo, _⟩ := cancel_keeps (Done s parent).1 child false e hi1 hc1
        have hcalc : propagateCancel s parent child = Res.ok u := by
          unfold propagateCancel
          simp only [hd, hclosed, if_true, he1]
          exact hu
        rw [hcalc] at ht
        injection ht with ht
        rw [← ht]
        exact ⟨by rw [hmet, hr.metrics_eq]; exact hm, by rw [hgo, hr.goroutines_eq]⟩
    · intro p hover hact
      obtain ⟨htp, _⟩ := hnamed p hover hact
      rw [htp]
      exact ⟨by rw [← hm, ← hr.metrics_eq]; rfl, hr.goroutines_eq⟩
  · intro p hover hact
    obtain ⟨htp, hmade⟩ := hnamed p hover hact
    constructor
    · rw [htp, setNode_nodes_self]
      simp only
      split
      · assumption
      · simp
    · have hd : (t.nodes p).done = DoneField.made := by
        rw [htp, setNode_nodes_self]; exact hmade
      obtain ⟨hdd, hval⟩ := @Done_madeOver t parent p hover hd
      unfold parentNamedCtx
      simp [hdd, hval, hd, DoneField.chan]

/-- The count only looks at the collector and the goroutines of the store reached. -/
theorem Bridged.congr_bridged {s t0 t : State} {parent : Ctx} {c : canceler} {m : Metrics}
    (h : Bridged s t0 parent c m) (hm : t.metricsCollector = t0.metricsCollector)
    (hg : t.goroutines = t0.goroutines) : Bridged s t parent c m where
  spawned := fun x hf hcan hopen => by
    rw [hm, hg]; exact h.spawned x hf hcan hopen
  not_cancelable := fun hn => by rw [hm, hg]; exact h.not_cancelable hn
  canceled := fun hn => by rw [hm, hg]; exact h.canceled hn
  registered := fun p hover hact => by rw [hm, hg]; exact h.registered p hover hact

/-- What `propagateCancel` does on the store with the new struct, told for the store the
constructor was called on. -/
theorem Bridged.of_Context {s t : State} {parent : Ctx} {c : canceler} {m : Metrics}
    (name : String) (hp : parentOk s parent)
    (h : Bridged (Context s parent name).1 t parent c m) : Bridged s t parent c m := by
  have hb : ∀ a, namedBehind parent = some a → a < s.next := by
    intro a ha
    have := hp.1
    rw [ha] at this
    exact this
  refine
    { spawned := ?_
      not_cancelable := ?_
      canceled := ?_
      registered := ?_ }
  · intro x hf hcan hopen
    obtain ⟨_, h2, h3⟩ := h.spawned x hf hcan hopen
    exact ⟨by rw [parentNamedCtx_foreign hf], h2, h3⟩
  · intro hn
    exact h.not_cancelable (by rw [(@Done_Context s parent hb parent name).1]; exact hn)
  · intro hn
    exact h.canceled (fun ho => hn ((parentOpen_Context hp parent name).mp ho))
  · intro p hover hact
    have hpn : p < s.next := hb p (madeOver_namedBehind hover)
    exact h.registered p hover (by rw [Context_nodes_lt s parent name hpn]; exact hact)

/-- The function `WithCancel` and the bridging goroutines. -/
theorem WithCancel_bridged (s : State) (parent : Ctx) (name : String) (m : Metrics) (hi : Inv s)
    (hp : parentOk s parent) (hm : s.metricsCollector = some m) :
    ∃ t, WithCancel s parent name = Res.ok (t, (Context s parent name).2) ∧
      Bridged s t parent (Context s parent name).2 m ∧
      (∀ p, madeOver p parent = true → (s.nodes p).err = none →
        (Context s parent name).2 ∈ (t.nodes p).children ∧ (parentNamedCtx t parent).2 = some p) := by
  obtain ⟨t, ht, _, _, hbr, hreg⟩ := propagateCancel_bridged (Context s parent name).1 parent
    (Context s parent name).2 m (Context_inv hi parent name) (Context_parentOk hp parent name)
    (by simp [Context]) hm
  refine ⟨t, ?_, hbr.of_Context name hp, ?_⟩
  · unfold WithCancel
    simp only [ht, Res.bind]
  · intro p hover hact
    have hpn : p < s.next := by
      have := hp.1
      rw [madeOver_namedBehind hover] at this
      exact this
    exact hreg p hover (by rw [Context_nodes_lt s parent name hpn]; exact hact)

/-- The function `WithDeadline` and the bridging goroutines: what it does after
`propagateCancel` touches neither the collector's goroutine counters nor the goroutines,
and, with the deadline still ahead, no children set. -/
theorem WithDeadline_bridged (s : State) (parent : Ctx) (d : Int) (name : String) (m : Metrics)
    (hi : Inv s) (hp : parentOk s parent) (hm : s.metricsCollector = some m) :
    ∃ t c, WithDeadline s parent d name = Res.ok (t, c) ∧ c.addr = s.next ∧ c.name = name ∧
      Bridged s t parent c m ∧
      (0 < d - s.now → ∀ p, madeOver p parent = true → (s.nodes p).err = none →
        c ∈ (t.nodes p).children) := by
  by_cases hE : ∃ cur, Deadline s parent = some cur ∧ cur < d
  · obtain ⟨cur, hcur, hlt⟩ := hE
    obtain ⟨t, ht, hbr, hreg⟩ := WithCancel_bridged s parent name m hi hp hm
    refine ⟨t, (Context s parent name).2, ?_, rfl, rfl, hbr, fun _ p hover hact => (hreg p hover hact).1⟩
    unfold WithDeadline
    rw [earlier_true hcur hlt]
    simpa using ht
  · have hdl : ∀ cur, Deadline s parent = some cur → ¬ cur < d :=
      fun cur hcur hlt => hE ⟨cur, hcur, hlt⟩
    obtain ⟨t0, ht0, hit0, hw, hbr, hreg⟩ := propagateCancel_bridged (Context s parent name).1 parent
      { (Context s parent name).2 with deadline := some d } m (Context_inv hi parent name)
      (Context_parentOk hp parent name) (by simp [Context]) hm
    have hbr0 := hbr.of_Context name hp
    have hnow : t0.now = s.now := hw.now_eq
    have hnext : t0.next = s.next + 1 := hw.next_eq
    have hreg0 : ∀ p, madeOver p parent = true → (s.nodes p).err = none →
        p < s.next ∧
          ({ (Context s parent name).2 with deadline := some d } : canceler) ∈ (t0.nodes p).children := by
      intro p hover hact
      have hpn : p < s.next := by
        have := hp.1
        rw [madeOver_namedBehind hover] at this
        exact this
      exact ⟨hpn, (hreg p hover (by rw [Context_nodes_lt s parent name hpn]; exact hact)).1⟩
    have hunf : WithDeadline s parent d name =
        (if d - t0.now ≤ 0 then
          (cancel t0 { (Context s parent name).2 with deadline := some d } true
            (some (Errorf namedDeadlineExceededFormat [FmtArg.s name, FmtArg.d 0]))).bind
            fun u => Res.ok (u, { (Context s parent name).2 with deadline := some d })
        else if (t0.nodes s.next).err = none then
          Res.ok ({ t0.setNode s.next { t0.nodes s.next with timer := some (d - t0.now) } with
                      timers := ({ (Context s parent name).2 with deadline := some d }, t0.now + (d - t0.now))
                        :: t0.timers }, { (Context s parent name).2 with deadline := some d })
        else Res.ok (t0, { (Context s parent name).2 with deadline := some d })) := by
      unfold WithDeadline
      rw [earlier_false hdl]
      simp only [Bool.false_eq_true, if_false, ht0, Res.bind]
      rfl
    by_cases hdur : d - s.now ≤ 0
    · obtain ⟨u, hu, _, _, hmet, hgo, _⟩ := cancel_keeps t0
        { (Context s parent name).2 with deadline := some d } true
        (Errorf namedDeadlineExceededFormat [FmtArg.s name, FmtArg.d 0]) hit0
        (by rw [hnext]; simp [Context])
      refine ⟨u, _, ?_, rfl, rfl, hbr0.congr_bridged hmet hgo, fun h => absurd hdur (not_le.mpr h)⟩
      rw [hunf, hnow, if_pos hdur, hu]
      rfl
    · by_cases hact : (t0.nodes s.next).err = none
      · have hcalc : WithDeadline s parent d name =
            Res.ok ({ t0.setNode s.next { t0.nodes s.next with timer := some (d - s.now) } with
                        timers := ({ (Context s parent name).2 with deadline := some d },
                          s.now + (d - s.now)) :: t0.timers },
                    { (Context s parent name).2 with deadline := some d }) := by
          rw [hunf, hnow, if_neg hdur, if_pos hact]
        refine ⟨_, _, hcalc, rfl, rfl, hbr0.congr_bridged rfl rfl, ?_⟩
        intro _ p hover hact1
        obtain ⟨hpn, hmem⟩ := hreg0 p hover hact1
        show _ ∈ ((t0.setNode s.next _).nodes p).children
        rw [setNode_nodes_ne _ _ (Nat.ne_of_lt hpn)]
        exact hmem
      · refine ⟨t0, _, ?_, rfl, rfl, hbr0, fun _ p hover hact1 => (hreg0 p hover hact1).2⟩
        rw [hunf, hnow, if_neg hdur, if_neg hact]

/-- The counter of goroutines started moves only over a context that has a channel, whose
channel is open, and that is not a struct of this package, seen directly or through
`valueCtx` wrappers. -/
theorem Bridged.only_foreign {s t : State} {parent : Ctx} {c : canceler} {m : Metrics}
    (h : Bridged s t parent c m) (hi : Inv s) (hp : parentOk s parent) {m1 : Metrics}
    (hm1 : t.metricsCollector = some m1) (hne : m1.gorutinesAll ≠ m.gorutinesAll) :
    (Done s parent).2 ≠ none ∧ parentOpen s parent ∧ ∀ p, madeOver p parent = false := by
  have hz : t.metricsCollector = some m → False := by
    intro h0
    rw [hm1] at h0
    injection h0 with h0
    exact hne (by rw [h0])
  have hopen : parentOpen s parent := by
    by_contra hn
    exact hz (h.canceled hn).1
  refine ⟨fun hn => hz (h.not_cancelable hn).1, hopen, ?_⟩
  intro p
  cases hmo : madeOver p parent with
  | false => rfl
  | true =>
    exfalso
    by_cases hact : (s.nodes p).err = none
    · exact hz (h.registered p hmo hact).1
    · have hb := madeOver_namedBehind hmo
      have hpn : p < s.next := by
        have := hp.1
        rw [hb] at this
        exact this
      obtain ⟨ch, hd, hcl⟩ := Done_namedBehind hb ((hi p hpn).2.1 hact).1
      unfold parentOpen at hopen
      rw [hd] at hopen
      simp only at hopen
      rw [hcl] at hopen
      exact absurd hopen (by simp)

/-- The constructor `WithValue` does not call `propagateCancel`: it starts no goroutine and
leaves the collector alone, whatever the parent. -/
theorem WithValue_no_goroutine {s t : State} {parent : Ctx} {name : String} {k v : Iface}
    {c : canceler} (h : WithValue s parent name k v = Res.ok (t, c)) :
    t.metricsCollector = s.metricsCollector ∧ t.goroutines = s.goroutines := by
  obtain ⟨_, _, ht, _⟩ := WithValue_ptr h
  rw [ht]
  exact ⟨rfl, rfl⟩

/-- The clock does not matter to `Done()`. -/
theorem Done_now (s : State) (n : Int) (ctx : Ctx) :
    Done { s with now := n } ctx = ({ (Done s ctx).1 with now := n }, (Done s ctx).2) := by
  induction ctx with
  | background => rfl
  | foreign h parent _ => rfl
  | valueCtx parent key val ih => simpa [Done] using ih
  | named a parent name key val start deadline _ =>
    unfold Done
    simp only
    split <;> rfl

/-- What creating a node does to the bridging goroutines does not depend on the clock. -/
theorem Bridged.of_now {s t : State} {parent : Ctx} {c : canceler} {m : Metrics} (n : Int)
    (h : Bridged { s with now := n } t parent c m) : Bridged s t parent c m := by
  have hopen : parentOpen { s with now := n } parent ↔ parentOpen s parent := by
    unfold parentOpen
    rw [Done_now]
    cases (Done s parent).2 with
    | none => exact Iff.rfl
    | some ch => cases ch <;> exact Iff.rfl
  refine
    { spawned := ?_
      not_cancelable := ?_
      canceled := ?_
      registered := ?_ }
  · intro x hf hcan hop
    obtain ⟨_, h2, h3⟩ := h.spawned x hf hcan hop
    exact ⟨by rw [parentNamedCtx_foreign hf], h2, h3⟩
  · intro hn
    exact h.not_cancelable (by rw [Done_now]; exact hn)
  · intro hn
    exact h.canceled (fun ho => hn (hopen.mp ho))
  · intro p hover hact
    exact h.registered p hover hact

/-- A timeout that has run out by the time `WithDeadline` reads the clock: the node is
canceled on the spot with 0 ms and no timer is scheduled. -/
theorem WithTimeout_run_out :
    (Err shortTimeout.1 shortTimeout.2.ctx).map GoError.Error =
      some "named context [short] deadline exceeded after [0ms]" ∧
    shortTimeout.1.timers = [] ∧ (shortTimeout.1.nodes shortTimeout.2.addr).timer = none ∧
    shortTimeout.2.deadline = some 1 ∧ shortTimeout.1.now = 1000 := by
  decide

/-- The part of C21 the code satisfies: the constructors that call `propagateCancel`. On a
well-formed store with a collector installed, `WithCancel`, `WithDeadline` and
`WithTimeout` over a parent that exists return a node, and (`Bridged`) the counter of
goroutines started goes up by exactly one, together with the gauge of running ones, and
one goroutine is started, when the parent is a foreign context that can be canceled, is
not canceled yet and is not recognised by `parentNamedCtx`; the collector and the
goroutines are as before when the parent has no channel, when its channel is closed, and
when it is an active struct of this package, seen directly or through `valueCtx` wrappers,
in which case the new node is in the children set of that struct (for a deadline node:
when the deadline is still ahead at the time the clock is read for it, so that the node is
not canceled on the spot).  Conversely the counter moves only if the parent has a channel,
the channel is open and the parent is not such a struct. -/
theorem bridging_counter (s : State) (parent : Ctx) (name : String) (d timeout elapsed : Int)
    (m : Metrics) (hi : Inv s) (hp : parentOk s parent) (hm : s.metricsCollector = some m) :
    (∃ t c, WithCancel s parent name = Res.ok (t, c) ∧ Bridged s t parent c m ∧
      (∀ p, madeOver p parent = true → (s.nodes p).err = none → c ∈ (t.nodes p).children)) ∧
    (∃ t c, WithDeadline s parent d name = Res.ok (t, c) ∧ Bridged s t parent c m ∧
      (0 < d - s.now → ∀ p, madeOver p parent = true → (s.nodes p).err = none →
        c ∈ (t.nodes p).children)) ∧
    (∃ t c, WithTimeout s parent timeout name elapsed = Res.ok (t, c) ∧ Bridged s t parent c m ∧
      (elapsed < timeout → ∀ p, madeOver p parent = true → (s.nodes p).err = none →
        c ∈ (t.nodes p).children)) ∧
    (∀ (t : State) (c : canceler) (m1 : Metrics), Bridged s t parent c m →
      t.metricsCollector = some m1 → m1.gorutinesAll ≠ m.gorutinesAll →
      (Done s parent).2 ≠ none ∧ parentOpen s parent ∧ ∀ p, madeOver p parent = false) := by
  refine ⟨?_, ?_, ?_, fun t c m1 hb hm1 hne => hb.only_foreign hi hp hm1 hne⟩
  · obtain ⟨t, ht, hbr, hreg⟩ := WithCancel_bridged s parent name m hi hp hm
    exact ⟨t, _, ht, hbr, fun p hover hact => (hreg p hover hact).1⟩
  · obtain ⟨t, c, ht, _, _, hbr, hreg⟩ := WithDeadline_bridged s parent d name m hi hp hm
    exact ⟨t, c, ht, hbr, hreg⟩
  · have hi1 : Inv { s with now := s.now + elapsed } := hi.congr_inv rfl rfl rfl
    have hp1 : parentOk { s with now := s.now + elapsed } parent := hp
    obtain ⟨t, c, ht, _, _, hbr, hreg⟩ :=
      WithDeadline_bridged { s with now := s.now + elapsed } parent (s.now + timeout) name m hi1 hp1 hm
    refine ⟨t, c, ht, hbr.of_now (s.now + elapsed), fun hlt => hreg ?_⟩
    show 0 < s.now + timeout - (s.now + elapsed)
    omega

/-- The tests that count goroutines, with the collector installed: over the `valueCtx`
around an active context of the standard library `WithCancel` starts one goroutine and the
counter reads 1; over the `valueCtx` around the node `el 1` it starts none, the counter
reads 0, and the new node is in the children set of `el 1`. -/
theorem bridging_counter_witness :
    Inv meteredForeign ∧ parentOk meteredForeign combinedCtx2 ∧
    meteredForeign.metricsCollector = some NewPrometheusMetrics ∧
    meteredCombined.1.metricsCollector.map Metrics.gorutinesAll = some 1 ∧
    meteredCombined.1.goroutines = [(combinedCtx2, meteredCombined.2)] ∧
    meteredChain.1.metricsCollector.map Metrics.gorutinesAll = some 0 ∧
    meteredChain.1.goroutines = [] ∧
    meteredChain.2 ∈ (meteredChain.1.nodes meteredChain1.2.addr).children ∧
    ∃ t c, WithCancel meteredForeign combinedCtx2 "named" = Res.ok (t, c) ∧
      Bridged meteredForeign t combinedCtx2 c NewPrometheusMetrics ∧
      (∀ p, madeOver p combinedCtx2 = true → (meteredForeign.nodes p).err = none →
        c ∈ (t.nodes p).children) :=
  ⟨by decide, by decide, rfl, by decide, by decide, by decide, by decide, by decide,
    (bridging_counter meteredForeign combinedCtx2 "named" 0 0 0 NewPrometheusMetrics (by decide)
      (by decide) rfl).1⟩

/-! ## The claims, concluded -/

/-- C21, at the failing input, with the collector installed and the counter at 0. The
parent `ctx2`, a `valueCtx` around an active context of the standard library, has a
channel, the channel is open, and `parentNamedCtx` does not recognise it. The node `v` made
by `WithValue(ctx2, "v", "k", "x")` exists, yet no goroutine is started and the counter of
goroutines started still reads 0, because `WithValue` does not call `propagateCancel`;
the node made by `WithCancel(ctx2, "named")` starts one goroutine and the counter reads 1.
Over the active node `el 1` the node made by `WithValue` is not in the children set of
`el 1`, where the node made by `WithCancel` over the `valueCtx` around `el 1` is; the
counter reads 0 in both cases. -/
theorem WithValue_not_bridged :
    (Done meteredForeign combinedCtx2).2 = some (Chan.ofForeign 0) ∧
    meteredForeign.chanClosed (Chan.ofForeign 0) = false ∧
    (parentNamedCtx meteredForeign combinedCtx2).2 = none ∧
    meteredForeign.metricsCollector.map Metrics.gorutinesAll = some 0 ∧
    meteredValue.2.addr = 0 ∧ meteredValue.1.next = 1 ∧ meteredValue.2.name = "v" ∧
    meteredValue.1.metricsCollector.map Metrics.gorutinesAll = some 0 ∧
    meteredValue.1.goroutines = [] ∧
    meteredCombined.1.metricsCollector.map Metrics.gorutinesAll = some 1 ∧
    meteredCombined.1.goroutines = [(combinedCtx2, meteredCombined.2)] ∧
    Err meteredChain1.1 meteredChain1.2.ctx = none ∧
    meteredValueNamed.2.addr = 1 ∧ meteredValueNamed.1.next = 2 ∧
    (meteredValueNamed.1.nodes meteredChain1.2.addr).children = [] ∧
    meteredValueNamed.1.metricsCollector.map Metrics.gorutinesAll = some 0 ∧
    (meteredChain.1.nodes meteredChain1.2.addr).children = [meteredChain.2] ∧
    meteredChain.1.metricsCollector.map Metrics.gorutinesAll = some 0 := by
  decide

end NamedContext
